import Mathlib

/-!
# Maximum planar subset of chords (PA2): a verification development

Shallow embedding of `PA2/b11901136_pa2/src/utils.c` and of `main` in
`PA2/src/main_count.c`:

* `MPS_BU`    — bottom-up tabulation of the triangular table `M`;
* `MPS_TD`    — top-down memoised recursion over the same table;
* `traceback` — recovery of one optimal chord set from the table;
* `RandPartition`, `QSort` — the randomised quicksort applied to the solution;
* `mps_main`  — the program around them.

C `int` values are modelled by `Int` (all quantities are bounded by `2N`, far
below `2^31` for any table that can be allocated).

The solvers and `traceback` are embedded twice.

* Over a flat store (`MPS_BU`, `MPS_TD`, `traceback`): the table `int **M` is a
  store addressed by a row and a *signed* offset inside the row.  Row `r` is
  allocated with `2N - r` cells (offsets `0 .. 2N-r-1`), and the code also reads
  the word at offset `-1` of a row, for the empty intervals `(i+1, i)` and
  `(j, j-1)`.  That word lies outside the row; in the flat store it is a word
  like any other, so that the effect of what it holds can be computed.
* With checked accesses (`MPS_BU_C`, `MPS_TD_C`, `traceback_C`, `mps_main`): an
  access outside the block it indexes ends the run with a `Fault`.

Nothing in the program fixes what the words at offset `-1` hold.  The lemmas that
need them to read `0` say so through the hypothesis `GuardZero`; they describe
the runs in which the reads outside the rows happen to find `0`.

`chord` and `is_head` are read-only arrays, modelled as functions of the index.
Recursive functions carry a bound on the depth of the call stack and return
`none` (`Run.unfinished`) when it is reached; reads and writes of the array
sorted by `QSort` return `none` outside the array.
-/

namespace AlgoPA

/-! ## Data model -/

/-- The store behind `int **M`: `M r c` is the word `M[r][c]` (row `r`, signed offset `c`). -/
abbrev Table := Int → Int → Int

/-- The assignment `M[r][c] = v`. -/
def Table.set (M : Table) (r c v : Int) : Table :=
  fun r' c' => if r' = r ∧ c' = c then v else M r' c'

/-- The assignment `a[idx] = v` on an `int` array. -/
def arrSet (a : Int → Int) (idx v : Int) : Int → Int :=
  fun x => if x = idx then v else a x

/-- The record `Subproblem` of `utils.h`: a length and two arrays of visited `(i, j)`. -/
structure Subproblem where
  curr_len : Int
  i_arr : Int → Int
  j_arr : Int → Int

/-! ## Bottom-up solver -/

/-- Lines 16-25 of `MPS_BU`: the transition that fills cell `M[i][j-i]`. -/
def buCell (chord : Int → Int) (M : Table) (i j : Int) : Table :=
  let k := chord j
  let option1 := M i (j - 1 - i)
  if k = i then
    M.set i (j - i) (M (i + 1) ((j - 1) - (i + 1)) + 1)
  else if i < k ∧ k < j ∧ M i (k - 1 - i) + M (k + 1) (j - 1 - (k + 1)) + 1 > option1 then
    M.set i (j - i) (M i (k - 1 - i) + M (k + 1) (j - 1 - (k + 1)) + 1)
  else
    M.set i (j - i) option1

/-- Lines 26-30 of `MPS_BU`: the first three visited subproblems are recorded. -/
def buRecord (i j : Int) (s : Subproblem) : Subproblem :=
  if s.curr_len < 3 then
    { curr_len := s.curr_len + 1
      i_arr := arrSet s.i_arr s.curr_len i
      j_arr := arrSet s.j_arr s.curr_len j }
  else s

/-- One iteration of the inner loop body of `MPS_BU` at start point `i`, end point `j`. -/
def buStep (chord : Int → Int) (i j : Int) (s : Table × Subproblem) : Table × Subproblem :=
  (buCell chord s.1 i j, buRecord i j s.2)

/-- The inner loop `for (i = 0; i < 2*N - length; i++)` with `j = i + length`. -/
def buInner (chord : Int → Int) (N length : Nat) (s : Table × Subproblem) :
    Table × Subproblem :=
  (List.range (2 * N - length)).foldl
    (fun s (i : Nat) => buStep chord (i : Int) ((i : Int) + (length : Int)) s) s

/-- The outer loop `for (length = 1; length < 2*N; length++)`. -/
def buOuter (chord : Int → Int) (N : Nat) (s : Table × Subproblem) : Table × Subproblem :=
  (List.range' 1 (2 * N - 1)).foldl (fun s (length : Nat) => buInner chord N length s) s

/-- `MPS_BU(chord, N, M, subproblem_arr)`: returns the final table and trace record. -/
def MPS_BU (chord : Int → Int) (N : Nat) (M : Table) (sub : Subproblem) :
    Table × Subproblem :=
  let s := buOuter chord N (M, sub)
  (s.1, { curr_len := 4
          i_arr := arrSet s.2.i_arr 3 0
          j_arr := arrSet s.2.j_arr 3 (2 * (N : Int) - 1) })

/-! ## Top-down solver -/

/-- Lines 54-62 of `MPS_TD`: record the subproblem, overwriting slot 3 once full. -/
def tdRecord (i j : Int) (s : Subproblem) : Subproblem :=
  if s.curr_len = 4 then
    { curr_len := s.curr_len
      i_arr := arrSet s.i_arr 3 i
      j_arr := arrSet s.j_arr 3 j }
  else
    { curr_len := s.curr_len + 1
      i_arr := arrSet s.i_arr s.curr_len i
      j_arr := arrSet s.j_arr s.curr_len j }

/-- `MPS_TD(i, j, chord, M, subproblem_arr)`.  The first argument bounds the depth of the
call stack; `none` means the bound was reached.  The result is the returned value together
with the table and trace record after the call.  The two calls in
`1 + MPS_TD(i, k-1) + MPS_TD(k+1, j-1)` are taken left to right. -/
def MPS_TD (chord : Int → Int) :
    Nat → Int → Int → Table → Subproblem → Option (Int × Table × Subproblem)
  | 0, _, _, _, _ => none
  | fuel + 1, i, j, M, sub =>
    if M i (j - i) ≠ -1 then some (M i (j - i), M, sub)
    else
      let k := chord j
      let sub0 := tdRecord i j sub
      if j ≤ i then some (0, M.set i (j - i) 0, sub0)
      else if k = i then
        match MPS_TD chord fuel (i + 1) (j - 1) M sub0 with
        | none => none
        | some (v, M1, sub1) =>
          let M2 := M1.set i (j - i) (1 + v)
          some (M2 i (j - i), M2, sub1)
      else
        match MPS_TD chord fuel i (j - 1) M sub0 with
        | none => none
        | some (option1, M1, sub1) =>
          let M2 := M1.set i (j - i) option1
          if i < k ∧ k < j then
            match MPS_TD chord fuel i (k - 1) M2 sub1 with
            | none => none
            | some (a, M3, sub3) =>
              match MPS_TD chord fuel (k + 1) (j - 1) M3 sub3 with
              | none => none
              | some (b, M4, sub4) =>
                let option2 := 1 + a + b
                let M5 := if option2 > option1 then M4.set i (j - i) option2 else M4
                some (M5 i (j - i), M5, sub4)
          else some (M2 i (j - i), M2, sub1)

/-! ## Traceback -/

/-- `traceback(i, j, M, chord, solution, curr_len, is_head)`.  The buffer `solution`
together with its fill index `*curr_len` is the list `sol` (the write
`solution[(*curr_len)++] = x` appends `x`).  The first argument bounds the depth of the
call stack; `none` means the bound was reached. -/
def traceback (M : Table) (chord : Int → Int) (is_head : Int → Bool) :
    Nat → Int → Int → List Int → Option (List Int)
  | 0, _, _, _ => none
  | fuel + 1, i, j, sol =>
    if M i (j - i) = 0 then some sol
    else
      let k := chord j
      if k = i then
        let sol1 := if is_head i then sol ++ [i] else sol ++ [j]
        traceback M chord is_head fuel (i + 1) (j - 1) sol1
      else if M i (j - i) > M i (j - 1 - i) then
        let sol1 := if is_head j then sol ++ [j] else sol ++ [k]
        match traceback M chord is_head fuel i (k - 1) sol1 with
        | none => none
        | some sol2 => traceback M chord is_head fuel (k + 1) (j - 1) sol2
      else
        traceback M chord is_head fuel i (j - 1) sol

/-! ## Canonical sort -/

/-- The read `data[i]` of an array of `data.length` ints; `none` outside the array. -/
def rd (data : List Int) (i : Int) : Option Int :=
  if 0 ≤ i ∧ i < data.length then data[i.toNat]? else none

/-- The write `data[i] = v`; `none` outside the array. -/
def wr (data : List Int) (i v : Int) : Option (List Int) :=
  if 0 ≤ i ∧ i < data.length then some (data.set i.toNat v) else none

/-- The exchange of `data[a]` and `data[b]` through a temporary, as written in the source. -/
def swap (data : List Int) (a b : Int) : Option (List Int) :=
  match rd data a, rd data b with
  | some x, some y =>
    match wr data a y with
    | some d1 => wr d1 b x
    | none => none
  | _, _ => none

/-- The loop `while (data[--j] > pivot);`: returns the final `j`. -/
def scanDown (data : List Int) (pivot : Int) : Nat → Int → Option Int
  | 0, _ => none
  | fuel + 1, j =>
    match rd data (j - 1) with
    | none => none
    | some v => if v > pivot then scanDown data pivot fuel (j - 1) else some (j - 1)

/-- The loop `while (data[++i] < pivot);`: returns the final `i`. -/
def scanUp (data : List Int) (pivot : Int) : Nat → Int → Option Int
  | 0, _ => none
  | fuel + 1, i =>
    match rd data (i + 1) with
    | none => none
    | some v => if v < pivot then scanUp data pivot fuel (i + 1) else some (i + 1)

/-- The loop `while (true)` of `RandPartition` (lines 117-128). -/
def partLoop (pivot : Int) : Nat → List Int → Int → Int → Option (List Int × Int)
  | 0, _, _, _ => none
  | fuel + 1, data, i, j =>
    match scanDown data pivot fuel j with
    | none => none
    | some j1 =>
      match scanUp data pivot fuel i with
      | none => none
      | some i1 =>
        if i1 < j1 then
          match swap data i1 j1 with
          | none => none
          | some d1 => partLoop pivot fuel d1 i1 j1
        else some (data, j1)

/-- `RandPartition(data, low, high)`; `r` is the value returned by the call of `rand()`.
A zero divisor in `rand() % (high - low)` is a fault (`none`). -/
def RandPartition (fuel : Nat) (data : List Int) (low high : Int) (r : Nat) :
    Option (List Int × Int) :=
  if high - low = 0 then none
  else
    let random_index := low + (r : Int) % (high - low)
    match swap data low random_index with
    | none => none
    | some d1 =>
      match rd d1 low with
      | none => none
      | some pivot => partLoop pivot fuel d1 (low - 1) (high + 1)

/-- `QSort(data, low, high)`.  `rand` is the sequence of values returned by `rand()` and
`c` counts the calls made so far; the result is the array and the updated count.  The
first argument bounds the depth of the call stack and of each loop. -/
def QSort (rand : Nat → Nat) :
    Nat → List Int → Int → Int → Nat → Option (List Int × Nat)
  | 0, _, _, _, _ => none
  | fuel + 1, data, low, high, c =>
    if low < high then
      match RandPartition fuel data low high (rand c) with
      | none => none
      | some (d1, pivotIndex) =>
        match QSort rand fuel d1 low pivotIndex (c + 1) with
        | none => none
        | some (d2, c2) => QSort rand fuel d2 (pivotIndex + 1) high c2
    else some (data, c)

/-! ## The recurrence as a function of the interval -/

/-- The value the transition of `MPS_BU` / `MPS_TD` assigns to the interval `(i, j)`,
as a function of the interval alone (used to describe the contents of the tables). -/
def opt (chord : Int → Int) (i j : Int) : Int :=
  if h : j ≤ i then 0
  else if chord j = i then opt chord (i + 1) (j - 1) + 1
  else if h2 : i < chord j ∧ chord j < j then
    max (opt chord i (j - 1)) (opt chord i (chord j - 1) + opt chord (chord j + 1) (j - 1) + 1)
  else opt chord i (j - 1)
termination_by (j - i).toNat
decreasing_by all_goals (simp_wf; omega)

/-- Every cell of the allocated triangle holds `0` (the rows come from `calloc`). -/
def ZeroTriangle (N : Nat) (M : Table) : Prop :=
  ∀ r c : Int, 0 ≤ r → 0 ≤ c → r + c < 2 * (N : Int) → M r c = 0

/-- Every cell of the allocated triangle holds the sentinel `-1`. -/
def SentinelTriangle (N : Nat) (M : Table) : Prop :=
  ∀ r c : Int, 0 ≤ r → 0 ≤ c → r + c < 2 * (N : Int) → M r c = -1

/-- The word at offset `-1` of every allocated row reads `0`.  This is an assumption about
memory outside the rows: no statement of the program establishes it. -/
def GuardZero (N : Nat) (M : Table) : Prop :=
  ∀ r : Int, 0 ≤ r → r < 2 * (N : Int) → M r (-1) = 0

/-- Invariant of the loops of `MPS_BU`: the guard words, the diagonal and every cell
visited so far hold the value of the recurrence. -/
def BUInv (chord : Int → Int) (N : Nat) (L I : Nat) (M : Table) : Prop :=
  ∀ i c : Int, 0 ≤ i → -1 ≤ c → i + c < 2 * (N : Int) → i < 2 * (N : Int) →
    (c < L ∨ (c = L ∧ i < I)) → M i c = opt chord i (i + c)

/-- The cell of `(i, j)` and every cell its evaluation by `MPS_TD` depends on hold the value
of the recurrence (for an empty or one-point interval: the cell read holds `0`). -/
inductive Known (chord : Int → Int) (M : Table) : Int → Int → Prop
  | base (i j : Int) : j ≤ i → M i (j - i) = 0 → Known chord M i j
  | nest (i j : Int) : i < j → chord j = i → M i (j - i) = opt chord i j →
      Known chord M (i + 1) (j - 1) → Known chord M i j
  | inside (i j : Int) : i < j → chord j ≠ i → i < chord j → chord j < j →
      M i (j - i) = opt chord i j → Known chord M i (j - 1) →
      Known chord M i (chord j - 1) → Known chord M (chord j + 1) (j - 1) → Known chord M i j
  | outside (i j : Int) : i < j → chord j ≠ i → ¬ (i < chord j ∧ chord j < j) →
      M i (j - i) = opt chord i j → Known chord M i (j - 1) → Known chord M i j

/-- Cells nested in `[a, b]` that already hold a value keep it. -/
def StableOn (a b : Int) (M M' : Table) : Prop :=
  ∀ r c : Int, a ≤ r → r + c ≤ b → M r c ≠ -1 → M' r c = M r c

/-- Effect of a call `MPS_TD(i, j)` on the table: a cell is left as it was, or it held the
sentinel, lies in the region of `(i, j)` and is now known. -/
def TDStep (chord : Int → Int) (i j : Int) (M M' : Table) : Prop :=
  ∀ r c : Int, M' r c = M r c ∨
    (M r c = -1 ∧ i ≤ r ∧ 0 ≤ c ∧ r + c ≤ j ∧ Known chord M' r (r + c))

/-- Invariant of the memo table on the region of `(i, j)`: each cell is the sentinel or
known, and the guard words of the inner rows read `0`. -/
def RegInv (chord : Int → Int) (i j : Int) (M : Table) : Prop :=
  (∀ a b : Int, i ≤ a → a ≤ b → b ≤ j → M a (b - a) = -1 ∨ Known chord M a b) ∧
  (∀ a : Int, i < a → a ≤ j → M a (-1) = 0)

/-- The region of `(i, j)` is completely filled: each cell holds the value of the recurrence
and the guard words of the inner rows read `0`. -/
def Filled (chord : Int → Int) (i j : Int) (M : Table) : Prop :=
  (∀ a b : Int, i ≤ a → a ≤ b → b ≤ j → M a (b - a) = opt chord a b) ∧
  (∀ a : Int, i < a → a ≤ j → M a (-1) = 0)

/-- The list of positions `traceback(i, j)` appends, described through the recurrence. -/
inductive TBOut (chord : Int → Int) (is_head : Int → Bool) : Int → Int → List Int → Prop
  | zero (i j : Int) : opt chord i j = 0 → TBOut chord is_head i j []
  | nest (i j : Int) (out : List Int) : opt chord i j ≠ 0 → chord j = i →
      TBOut chord is_head (i + 1) (j - 1) out →
      TBOut chord is_head i j ((if is_head i then i else j) :: out)
  | take (i j : Int) (o1 o2 : List Int) : opt chord i j ≠ 0 → chord j ≠ i →
      opt chord i j > opt chord i (j - 1) →
      TBOut chord is_head i (chord j - 1) o1 →
      TBOut chord is_head (chord j + 1) (j - 1) o2 →
      TBOut chord is_head i j ((if is_head j then j else chord j) :: (o1 ++ o2))
  | skip (i j : Int) (out : List Int) : opt chord i j ≠ 0 → chord j ≠ i →
      ¬ opt chord i j > opt chord i (j - 1) →
      TBOut chord is_head i (j - 1) out → TBOut chord is_head i j out

/-- Position `c` lies strictly between `a` and `b`. -/
def Between (a b c : Int) : Prop := (a < c ∧ c < b) ∨ (b < c ∧ c < a)

/-- Chords `{a, b}` and `{c, d}` cross: exactly one of `c`, `d` lies strictly between
`a` and `b`. -/
def Crosses (a b c d : Int) : Prop :=
  (Between a b c ∧ ¬ Between a b d) ∨ (¬ Between a b c ∧ Between a b d)

instance (a b c : Int) : Decidable (Between a b c) := by unfold Between; infer_instance

instance (a b c d : Int) : Decidable (Crosses a b c d) := by unfold Crosses; infer_instance

/-- The pairing `chord` is a fixed-point-free involution on `{0 .. 2N-1}`. -/
def ValidPairing (N : Nat) (chord : Int → Int) : Prop :=
  ∀ p : Int, 0 ≤ p → p < 2 * (N : Int) →
    0 ≤ chord p ∧ chord p < 2 * (N : Int) ∧ chord (chord p) = p ∧ chord p ≠ p

/-- Exactly one endpoint of every chord is marked as head. -/
def OneHead (N : Nat) (chord : Int → Int) (is_head : Int → Bool) : Prop :=
  ∀ p : Int, 0 ≤ p → p < 2 * (N : Int) → is_head (chord p) = !is_head p

/-- The positions of `l` name chords `{p, chord p}` contained in `[i, j]`, two different
positions name different chords, and no two of these chords cross. -/
def PlanarL (chord : Int → Int) (i j : Int) (l : List Int) : Prop :=
  (∀ p ∈ l, i ≤ p ∧ p ≤ j ∧ i ≤ chord p ∧ chord p ≤ j) ∧
  (∀ p ∈ l, ∀ q ∈ l, p ≠ q → chord p ≠ q ∧ ¬ Crosses p (chord p) q (chord q))

/-- The positions of the finite set `S` name chords `{p, chord p}` contained in `[i, j]`, two
different positions name different chords, and no two of these chords cross. -/
def PlanarIn (chord : Int → Int) (i j : Int) (S : Finset Int) : Prop :=
  (∀ p ∈ S, i ≤ p ∧ p ≤ j ∧ i ≤ chord p ∧ chord p ≤ j) ∧
  (∀ p ∈ S, ∀ q ∈ S, p ≠ q → chord p ≠ q ∧ ¬ Crosses p (chord p) q (chord q))

/-- The number `m` is the maximum cardinality of a set of pairwise non-crossing chords with
both endpoints in `[i, j]`. -/
def IsMaxPlanar (chord : Int → Int) (i j : Int) (m : Int) : Prop :=
  (∃ S : Finset Int, PlanarIn chord i j S ∧ (S.card : Int) = m) ∧
  (∀ S : Finset Int, PlanarIn chord i j S → (S.card : Int) ≤ m)

/-- The pairing of the input `2 / 0 1`: one chord `{0, 1}`. -/
def chord1 : Int → Int := fun p => if p = 0 then 1 else 0

/-- The head flags of the input `2 / 0 1`. -/
def head1 : Int → Bool := fun p => decide (p = 0)

/-- A table whose words all read `0`. -/
def zeroTable : Table := fun _ _ => 0

/-- A table of `2N` rows whose triangle holds the sentinel and whose other words read `0`. -/
def sentinelTable (N : Nat) : Table :=
  fun r c => if 0 ≤ c ∧ r + c < 2 * (N : Int) then -1 else 0

/-- A trace record with `curr_len = 0` whose slots all read `0`: the instance used in the
evaluations at concrete inputs.  (`main` sets `curr_len = 0` and leaves the slots
uninitialised, in blocks with room for one `int`; see `mps_main`.) -/
def emptySub : Subproblem := ⟨0, fun _ => 0, fun _ => 0⟩

/-- The notation of the transition: `M(i', j')` is the cell `M[i'][j'-i']`, and denotes `0`
whenever `j' ≤ i'`. -/
def cellVal (M : Table) (i j : Int) : Int := if j ≤ i then 0 else M i (j - i)

/-- The pairing of the input `4 / 0 1 / 2 3`: chords `{0, 1}` and `{2, 3}`. -/
def chord2 : Int → Int := fun p => if p = 0 then 1 else if p = 1 then 0 else if p = 2 then 3 else 2

/-- The value of `data[i]` inside the array (and `0` outside, where no read succeeds). -/
def val (d : List Int) (i : Int) : Int := (rd d i).getD 0

/-- The array `d'` is obtained from `d` by rearranging the cells `low .. high`. -/
def Seg (d d' : List Int) (low high : Int) : Prop :=
  d'.length = d.length ∧ d'.Perm d ∧
  (∀ x : Int, x < low ∨ high < x → val d' x = val d x) ∧
  (∀ x : Int, low ≤ x → x ≤ high → ∃ y, low ≤ y ∧ y ≤ high ∧ val d' x = val d y)

/-- Invariant at the head of the `while (true)` loop of `RandPartition`. -/
def PInv (d : List Int) (pivot low high i j : Int) : Prop :=
  low - 1 ≤ i ∧ i < j ∧ j ≤ high + 1 ∧
  (∀ x : Int, low ≤ x → x ≤ i → val d x ≤ pivot) ∧
  (∀ x : Int, j ≤ x → x ≤ high → pivot ≤ val d x) ∧
  (∃ x : Int, low ≤ x ∧ x < j ∧ val d x ≤ pivot) ∧
  (∃ y : Int, i < y ∧ y ≤ high ∧ pivot ≤ val d y ∧ (i = low - 1 → y = low)) ∧
  (low ≤ i → j ≤ high)

/-- A small array used to exercise the sort. -/
def sampleData : List Int := [2, 1]

/-! ## The surrounding program (`main_count.c`) under the C memory rules

`main` allocates every array it hands to the solvers, so the size of each block is known:
`chord` and `is_head` have `n` entries, the table has `2N` rows of `2N - r` cells, the
buffer `solution` has `result` entries, and each of `sub.i_arr`, `sub.j_arr` is a block of
4 bytes, room for one `int`.  The definitions of this section run the program with every
access checked against its block; the first access outside a block ends the run with a
`Fault`, since the C rules leave everything after it undefined. -/

/-- The assignment `a[idx] = v` on a `bool` array. -/
def boolSet (a : Int → Bool) (idx : Int) (v : Bool) : Int → Bool :=
  fun x => if x = idx then v else a x

/-- Lines 114-115 of `main`: one pair `a b` is stored into `chord` and `is_head`. -/
def storePair (s : (Int → Int) × (Int → Bool)) (p : Int × Int) :
    (Int → Int) × (Int → Bool) :=
  (arrSet (arrSet s.1 p.1 p.2) p.2 p.1, boolSet (boolSet s.2 p.1 true) p.2 false)

/-- Lines 119-122 of `main`: the rows of the triangle come from `calloc`; `heap` gives the
words outside the allocated rows. -/
def callocTable (N : Nat) (heap : Table) : Table :=
  fun r c => if 0 ≤ r ∧ r < 2 * (N : Int) ∧ 0 ≤ c ∧ c < 2 * (N : Int) - r then 0 else heap r c

/-- Lines 165-169 of `main`: every cell of the triangle is set to `-1`. -/
def fillSentinel (N : Nat) (M : Table) : Table :=
  fun r c => if 0 ≤ r ∧ r < 2 * (N : Int) ∧ 0 ≤ c ∧ c < 2 * (N : Int) - r then -1 else M r c

/-- The method selector after parsing: `bu`, `td`, or anything else. -/
inductive Method where
  | bu : Method
  | td : Method
  | other : Method
  deriving DecidableEq

/-- An access outside the block it indexes (or, for `noPair`, the use of a pair that the
input does not hold): `table r c` is `M[r][c]` where the table has no such cell, `trace slot`
is `i_arr[slot]` or `j_arr[slot]` behind the block, `position p` is `chord[p]` or
`is_head[p]` with `p` outside `0 .. n-1`, `solution k` is `solution[k]` behind the buffer,
and `rowPointer r` is `M[r]` behind the `2N` row pointers. -/
inductive Fault where
  | table (r c : Int) : Fault
  | trace (slot : Int) : Fault
  | position (p : Int) : Fault
  | solution (k : Int) : Fault
  | rowPointer (r : Int) : Fault
  | noPair : Fault
  deriving DecidableEq

/-- How a run under the C memory rules ends: with a value, at the first access outside a
block, or with the bound on the call depth reached. -/
inductive Run (α : Type) where
  | done : α → Run α
  | fault : Fault → Run α
  | unfinished : Run α

/-- Sequencing of two steps: a fault or an exhausted bound ends the run. -/
def Run.bind {α β : Type} (x : Run α) (f : α → Run β) : Run β :=
  match x with
  | Run.done a => f a
  | Run.fault e => Run.fault e
  | Run.unfinished => Run.unfinished

instance : Monad Run where
  pure := Run.done
  bind := Run.bind

/-- The fault a run ended with, if it ended with one. -/
def Run.faultOf {α : Type} (x : Run α) : Option Fault :=
  match x with
  | Run.fault e => some e
  | _ => none

/-- The read `M[r][c]` in a table of `2N` rows, row `r` holding `2N - r` cells
(`Fault.table r c` when there is no such cell). -/
def loadM (N : Nat) (M : Table) (r c : Int) : Run Int :=
  if 0 ≤ r ∧ r < 2 * (N : Int) ∧ 0 ≤ c ∧ c < 2 * (N : Int) - r then Run.done (M r c)
  else Run.fault (Fault.table r c)

/-- The write `M[r][c] = v` in a table of `2N` rows, row `r` holding `2N - r` cells. -/
def storeM (N : Nat) (M : Table) (r c v : Int) : Run Table :=
  if 0 ≤ r ∧ r < 2 * (N : Int) ∧ 0 ≤ c ∧ c < 2 * (N : Int) - r then Run.done (M.set r c v)
  else Run.fault (Fault.table r c)

/-- The writes `i_arr[slot] = i; j_arr[slot] = j` into two blocks of `cap` ints each
(`Fault.trace slot` when the slot lies behind the block). -/
def storeTrace (cap : Nat) (s : Subproblem) (slot i j : Int) : Run Subproblem :=
  if 0 ≤ slot ∧ slot < (cap : Int) then
    Run.done { curr_len := s.curr_len
               i_arr := arrSet s.i_arr slot i
               j_arr := arrSet s.j_arr slot j }
  else Run.fault (Fault.trace slot)

/-- Lines 14-25 of `MPS_BU` with checked accesses.  The operands of `&&` are evaluated left
to right, so the two cells of the sum are read only when `i < k < j`; the sum is read
again for the assignment of line 22. -/
def buCellC (chord : Int → Int) (N : Nat) (M : Table) (i j : Int) : Run Table := do
  let k := chord j
  let option1 ← loadM N M i (j - 1 - i)
  if k = i then
    let v ← loadM N M (i + 1) ((j - 1) - (i + 1))
    storeM N M i (j - i) (v + 1)
  else if i < k ∧ k < j then
    let a ← loadM N M i (k - 1 - i)
    let b ← loadM N M (k + 1) (j - 1 - (k + 1))
    if a + b + 1 > option1 then
      let a2 ← loadM N M i (k - 1 - i)
      let b2 ← loadM N M (k + 1) (j - 1 - (k + 1))
      storeM N M i (j - i) (a2 + b2 + 1)
    else storeM N M i (j - i) option1
  else storeM N M i (j - i) option1

/-- Lines 26-30 of `MPS_BU` with checked accesses. -/
def buRecordC (cap : Nat) (i j : Int) (s : Subproblem) : Run Subproblem := do
  if s.curr_len < 3 then
    let s1 ← storeTrace cap s s.curr_len i j
    pure { curr_len := s1.curr_len + 1, i_arr := s1.i_arr, j_arr := s1.j_arr }
  else pure s

/-- `MPS_BU` with checked accesses: the table has `2N` rows, and the blocks behind
`subproblem_arr->i_arr` and `->j_arr` hold `cap` ints each. -/
def MPS_BU_C (chord : Int → Int) (N cap : Nat) (M : Table) (sub : Subproblem) :
    Run (Table × Subproblem) := do
  let s ← (List.range' 1 (2 * N - 1)).foldl
    (fun (acc : Run (Table × Subproblem)) (length : Nat) =>
      (List.range (2 * N - length)).foldl
        (fun (acc : Run (Table × Subproblem)) (i : Nat) => do
          let t ← acc
          let M1 ← buCellC chord N t.1 (i : Int) ((i : Int) + (length : Int))
          let s1 ← buRecordC cap (i : Int) ((i : Int) + (length : Int)) t.2
          pure (M1, s1)) acc)
    (Run.done (M, sub))
  let s3 ← storeTrace cap s.2 3 0 (2 * (N : Int) - 1)
  pure (s.1, { curr_len := 4, i_arr := s3.i_arr, j_arr := s3.j_arr })

/-- Lines 54-62 of `MPS_TD` with checked accesses. -/
def tdRecordC (cap : Nat) (i j : Int) (s : Subproblem) : Run Subproblem := do
  if s.curr_len = 4 then storeTrace cap s 3 i j
  else
    let s1 ← storeTrace cap s s.curr_len i j
    pure { curr_len := s1.curr_len + 1, i_arr := s1.i_arr, j_arr := s1.j_arr }

/-- `MPS_TD` with checked accesses (same conventions as `MPS_TD` and `MPS_BU_C`). -/
def MPS_TD_C (chord : Int → Int) (N cap : Nat) :
    Nat → Int → Int → Table → Subproblem → Run (Int × Table × Subproblem)
  | 0, _, _, _, _ => Run.unfinished
  | fuel + 1, i, j, M, sub => do
    let m ← loadM N M i (j - i)
    if m ≠ -1 then
      let v ← loadM N M i (j - i)
      pure (v, M, sub)
    else
      let k := chord j
      let sub0 ← tdRecordC cap i j sub
      if j ≤ i then
        let M1 ← storeM N M i (j - i) 0
        pure (0, M1, sub0)
      else if k = i then
        let r1 ← MPS_TD_C chord N cap fuel (i + 1) (j - 1) M sub0
        let M2 ← storeM N r1.2.1 i (j - i) (1 + r1.1)
        let v ← loadM N M2 i (j - i)
        pure (v, M2, r1.2.2)
      else
        let r1 ← MPS_TD_C chord N cap fuel i (j - 1) M sub0
        let M2 ← storeM N r1.2.1 i (j - i) r1.1
        if i < k ∧ k < j then
          let r3 ← MPS_TD_C chord N cap fuel i (k - 1) M2 r1.2.2
          let r4 ← MPS_TD_C chord N cap fuel (k + 1) (j - 1) r3.2.1 r3.2.2
          if 1 + r3.1 + r4.1 > r1.1 then
            let M5 ← storeM N r4.2.1 i (j - i) (1 + r3.1 + r4.1)
            let v ← loadM N M5 i (j - i)
            pure (v, M5, r4.2.2)
          else
            let v ← loadM N r4.2.1 i (j - i)
            pure (v, r4.2.1, r4.2.2)
        else
          let v ← loadM N M2 i (j - i)
          pure (v, M2, r1.2.2)

/-- The write `solution[(*curr_len)++] = x` into a buffer of `room` ints. -/
def pushC (room : Int) (sol : List Int) (x : Int) : Run (List Int) :=
  if (sol.length : Int) < room then Run.done (sol ++ [x])
  else Run.fault (Fault.solution (sol.length : Int))

/-- `traceback` with checked accesses: the table has `2N` rows and the buffer `solution`
holds `room` ints. -/
def traceback_C (N : Nat) (M : Table) (chord : Int → Int) (is_head : Int → Bool) (room : Int) :
    Nat → Int → Int → List Int → Run (List Int)
  | 0, _, _, _ => Run.unfinished
  | fuel + 1, i, j, sol => do
    let m ← loadM N M i (j - i)
    if m = 0 then pure sol
    else
      let k := chord j
      if k = i then
        let sol1 ← pushC room sol (if is_head i then i else j)
        traceback_C N M chord is_head room fuel (i + 1) (j - 1) sol1
      else
        let m1 ← loadM N M i (j - i)
        let m2 ← loadM N M i (j - 1 - i)
        if m1 > m2 then
          let sol1 ← pushC room sol (if is_head j then j else k)
          let sol2 ← traceback_C N M chord is_head room fuel i (k - 1) sol1
          traceback_C N M chord is_head room fuel (k + 1) (j - 1) sol2
        else
          traceback_C N M chord is_head room fuel i (j - 1) sol

/-- Lines 114-115 of `main` with checked accesses: `chord[a] = b; chord[b] = a;` and the
two writes to `is_head`, in arrays of `n` entries. -/
def storePairC (n : Nat) (s : (Int → Int) × (Int → Bool)) (p : Int × Int) :
    Run ((Int → Int) × (Int → Bool)) :=
  if 0 ≤ p.1 ∧ p.1 < (n : Int) then
    if 0 ≤ p.2 ∧ p.2 < (n : Int) then Run.done (storePair s p)
    else Run.fault (Fault.position p.2)
  else Run.fault (Fault.position p.1)

/-- The loop of lines 111-117 of `main`, `count` passes left: each pass takes the next
pair of the input (`Fault.noPair` when the input has ended) and stores it.  No test is
made on the pair. -/
def readPairs (n : Nat) :
    Nat → List (Int × Int) → (Int → Int) × (Int → Bool) → Run ((Int → Int) × (Int → Bool))
  | 0, _, s => Run.done s
  | _ + 1, [], _ => Run.fault Fault.noPair
  | count + 1, p :: rest, s => (storePairC n s p).bind (readPairs n count rest)

/-- Lines 103-117 of `main`: `N = n/2`, then the loop storing `N` pairs of the input.
`chord0` is the content of the block `malloc` returns for `chord`; `is_head` comes from
`calloc`.  No test is made on `n`. -/
def readInput (n : Nat) (pairs : List (Int × Int)) (chord0 : Int → Int) :
    Run (Nat × (Int → Int) × (Int → Bool)) :=
  (readPairs n (n / 2) pairs (chord0, fun _ => false)).bind
    (fun s => Run.done (n / 2, s.1, s.2))

/-- What a run of `main` produces once the files are open: the usage message; the content
written to the output file (`result` and the solution lines) followed by a normal exit; a
fault; or no answer within the depth bound. -/
inductive Outcome where
  | usage : Outcome
  | written : Int → List (Int × Int) → Outcome
  | fault : Fault → Outcome
  | unfinished : Outcome
  deriving DecidableEq

/-- Lines 135-141 and 175-181 of `main`: with `print_order`, slots `0`, `1`, `2` and `3` of
`sub.i_arr` and `sub.j_arr` are read, in this order, from blocks of `cap` ints. -/
def printOrder (cap : Nat) (print_order : Bool) : Run Unit :=
  if print_order = true ∧ cap < 4 then Run.fault (Fault.trace (cap : Int)) else Run.done ()

/-- Lines 144-160 and 184-199 of `main`: the buffer of `result` ints, `traceback` from the
root, `QSort`, the output lines `solution[i] chord[solution[i]]` (arrays of `n` entries),
and the loop that frees `M[0] .. M[n-1]` out of `2N` row pointers. -/
def emitSolution (rand : Nat → Nat) (fuel : Nat) (n N : Nat) (M : Table) (chord : Int → Int)
    (is_head : Int → Bool) (result : Int) : Outcome :=
  match traceback_C N M chord is_head result fuel 0 (2 * (N : Int) - 1) [] with
  | Run.fault e => Outcome.fault e
  | Run.unfinished => Outcome.unfinished
  | Run.done sol =>
    match QSort rand fuel sol 0 ((sol.length : Int) - 1) 0 with
    | none => Outcome.unfinished
    | some (sorted, _) =>
      match sorted.find? (fun p => decide (¬ (0 ≤ p ∧ p < (n : Int)))) with
      | some p => Outcome.fault (Fault.position p)
      | none =>
        if 2 * N < n then Outcome.fault (Fault.rowPointer (2 * (N : Int)))
        else Outcome.written result (sorted.map (fun p => (p, chord p)))

/-- Lines 119-204 of `main` without the timing: the table and the trace record are set up,
the selected solver is run, the result is written, and the solution is emitted.  `cap` is
the number of ints in each trace block and `wi`, `wj` their content, which is not
initialised. -/
def mps_solve (cap : Nat) (method : Method) (print_order : Bool) (rand : Nat → Nat)
    (fuel : Nat) (n N : Nat) (chord : Int → Int) (is_head : Int → Bool) (wi wj : Int → Int) :
    Outcome :=
  let M0 := callocTable N (fun _ _ => 0)
  let sub : Subproblem := { curr_len := 0, i_arr := wi, j_arr := wj }
  match method with
  | Method.bu =>
    match MPS_BU_C chord N cap M0 sub with
    | Run.fault e => Outcome.fault e
    | Run.unfinished => Outcome.unfinished
    | Run.done (M, _) =>
      match loadM N M 0 (2 * (N : Int) - 1) with
      | Run.fault e => Outcome.fault e
      | Run.unfinished => Outcome.unfinished
      | Run.done result =>
        match printOrder cap print_order with
        | Run.fault e => Outcome.fault e
        | Run.unfinished => Outcome.unfinished
        | Run.done _ => emitSolution rand fuel n N M chord is_head result
  | Method.td =>
    match MPS_TD_C chord N cap fuel 0 (2 * (N : Int) - 1) (fillSentinel N M0) sub with
    | Run.fault e => Outcome.fault e
    | Run.unfinished => Outcome.unfinished
    | Run.done (result, M, _) =>
      match printOrder cap print_order with
      | Run.fault e => Outcome.fault e
      | Run.unfinished => Outcome.unfinished
      | Run.done _ => emitSolution rand fuel n N M chord is_head result
  | Method.other => Outcome.usage

/-- Lines 102-204 of `main` without the file handling and the timing: the input is read,
then the rest of the program runs on what was read.  The trace blocks come from
`malloc(sizeof(char) * 4)`: 4 bytes, room for one `int`. -/
def mps_main (method : Method) (print_order : Bool) (rand : Nat → Nat) (fuel : Nat) (n : Nat)
    (pairs : List (Int × Int)) (chord0 : Int → Int) (wi wj : Int → Int) : Outcome :=
  match readInput n pairs chord0 with
  | Run.fault e => Outcome.fault e
  | Run.unfinished => Outcome.unfinished
  | Run.done (N, chord, is_head) =>
    mps_solve 1 method print_order rand fuel n N chord is_head wi wj

/-! ## Table accesses -/

/-- The table cells `(row, offset)` that lines 16-25 of `MPS_BU` read or write, in order,
for start point `i` and end point `j`. -/
def buCellAcc (chord : Int → Int) (M : Table) (i j : Int) : List (Int × Int) :=
  let k := chord j
  let option1 := M i (j - 1 - i)
  (i, j - 1 - i) ::
    (if k = i then [(i + 1, (j - 1) - (i + 1)), (i, j - i)]
     else if i < k ∧ k < j then
       (i, k - 1 - i) :: (k + 1, j - 1 - (k + 1)) ::
         (if M i (k - 1 - i) + M (k + 1) (j - 1 - (k + 1)) + 1 > option1 then
            [(i, k - 1 - i), (k + 1, j - 1 - (k + 1)), (i, j - i)]
          else [(i, j - i)])
     else [(i, j - i)])

/-- The inner loop of `MPS_BU` together with the list of cells accessed so far. -/
def buInnerAcc (chord : Int → Int) (N length : Nat)
    (s : (Table × Subproblem) × List (Int × Int)) : (Table × Subproblem) × List (Int × Int) :=
  (List.range (2 * N - length)).foldl
    (fun s (i : Nat) =>
      (buStep chord (i : Int) ((i : Int) + (length : Int)) s.1,
        s.2 ++ buCellAcc chord s.1.1 (i : Int) ((i : Int) + (length : Int)))) s

/-- The cells `MPS_BU` reads or writes, in order. -/
def MPS_BU_acc (chord : Int → Int) (N : Nat) (M : Table) (sub : Subproblem) :
    List (Int × Int) :=
  ((List.range' 1 (2 * N - 1)).foldl
    (fun s (length : Nat) => buInnerAcc chord N length s) ((M, sub), [])).2

/-- The function `traceback` together with the list of table cells it reads, in order:
`M[i][j-i]` in the test of line 88, then `M[i][j-i]` and `M[i][j-1-i]` in the test of
line 96. -/
def tracebackReads (M : Table) (chord : Int → Int) (is_head : Int → Bool) :
    Nat → Int → Int → List Int → List (Int × Int) → Option (List Int × List (Int × Int))
  | 0, _, _, _, _ => none
  | fuel + 1, i, j, sol, log =>
    let log1 := log ++ [(i, j - i)]
    if M i (j - i) = 0 then some (sol, log1)
    else
      let k := chord j
      if k = i then
        let sol1 := if is_head i then sol ++ [i] else sol ++ [j]
        tracebackReads M chord is_head fuel (i + 1) (j - 1) sol1 log1
      else
        let log2 := log1 ++ [(i, j - i), (i, j - 1 - i)]
        if M i (j - i) > M i (j - 1 - i) then
          let sol1 := if is_head j then sol ++ [j] else sol ++ [k]
          match tracebackReads M chord is_head fuel i (k - 1) sol1 log2 with
          | none => none
          | some (sol2, log3) => tracebackReads M chord is_head fuel (k + 1) (j - 1) sol2 log3
        else
          tracebackReads M chord is_head fuel i (j - 1) sol log2

/-! ## Further concrete inputs -/

/-- The pairing of the input `6 / 0 1 / 2 5 / 3 4`. -/
def chord3 : Int → Int := fun p =>
  if p = 0 then 1 else if p = 1 then 0 else if p = 2 then 5 else if p = 3 then 4
  else if p = 4 then 3 else 2

/-- The head flags of the input `6 / 0 1 / 2 5 / 3 4`. -/
def head3 : Int → Bool := fun p => decide (p = 0 ∨ p = 2 ∨ p = 3)

/-- The pairing of the input `4 / 0 2 / 1 3`: two crossing chords. -/
def chordX : Int → Int := fun p =>
  if p = 0 then 2 else if p = 1 then 3 else if p = 2 then 0 else 1

/-- The head flags of the input `4 / 0 2 / 1 3`. -/
def headX : Int → Bool := fun p => decide (p = 0 ∨ p = 1)

/-- A store in which the word at offset `-1` of row `0` holds `7` and every other word `0`. -/
def junkTable : Table := fun r c => if r = 0 ∧ c = -1 then 7 else 0

/-- A store in which the word at offset `-1` of row `1` holds `5` and every other word `0`. -/
def junkGuard : Table := fun r c => if r = 1 ∧ c = -1 then 5 else 0

/-- An ascending array used to exercise the sort. -/
def sortedData : List Int := [1, 2]

/-- A read of the cell `rc = (row, offset)` during `traceback(i, j)` that stays in the region
of `(i, j)` (offset `-1` included) and finds the value of the recurrence. -/
def ReadOK (chord : Int → Int) (T : Table) (i j : Int) (rc : Int × Int) : Prop :=
  i ≤ rc.1 ∧ -1 ≤ rc.2 ∧ rc.1 + rc.2 ≤ j ∧ T rc.1 rc.2 = opt chord rc.1 (rc.1 + rc.2)

/-- The trace after recording the pairs of `V`, in order, with lines 54-62 of `MPS_TD`. -/
def recordAll (V : List (Int × Int)) (s : Subproblem) : Subproblem :=
  V.foldl (fun s p => tdRecord p.1 p.2 s) s

/-- The value lines 18-25 of `MPS_BU` assign to `M[i][j-i]`, as a function of the table
before the assignment. -/
def buValue (chord : Int → Int) (M : Table) (i j : Int) : Int :=
  let k := chord j
  let option1 := M i (j - 1 - i)
  if k = i then M (i + 1) ((j - 1) - (i + 1)) + 1
  else if i < k ∧ k < j ∧ M i (k - 1 - i) + M (k + 1) (j - 1 - (k + 1)) + 1 > option1 then
    M i (k - 1 - i) + M (k + 1) (j - 1 - (k + 1)) + 1
  else option1

/-- Invariant of the loops of `MPS_BU` that holds for every initial table: each cell
visited so far holds the value the transition computes from the current table. -/
def BUFix (chord : Int → Int) (N : Nat) (L I : Nat) (M : Table) : Prop :=
  ∀ i c : Int, 0 ≤ i → 1 ≤ c → i + c < 2 * (N : Int) →
    (c < L ∨ (c = L ∧ i < I)) → M i c = buValue chord M i (i + c)

/-- `MPS_TD` together with the list of the subproblems it enters past the memo test (the
subproblems it computes), in the order in which it enters them. -/
def MPS_TD_visits (chord : Int → Int) :
    Nat → Int → Int → Table → Subproblem →
      Option ((Int × Table × Subproblem) × List (Int × Int))
  | 0, _, _, _, _ => none
  | fuel + 1, i, j, M, sub =>
    if M i (j - i) ≠ -1 then some ((M i (j - i), M, sub), [])
    else
      let k := chord j
      let sub0 := tdRecord i j sub
      if j ≤ i then some ((0, M.set i (j - i) 0, sub0), [(i, j)])
      else if k = i then
        match MPS_TD_visits chord fuel (i + 1) (j - 1) M sub0 with
        | none => none
        | some ((v, M1, sub1), V1) =>
          let M2 := M1.set i (j - i) (1 + v)
          some ((M2 i (j - i), M2, sub1), (i, j) :: V1)
      else
        match MPS_TD_visits chord fuel i (j - 1) M sub0 with
        | none => none
        | some ((option1, M1, sub1), V1) =>
          let M2 := M1.set i (j - i) option1
          if i < k ∧ k < j then
            match MPS_TD_visits chord fuel i (k - 1) M2 sub1 with
            | none => none
            | some ((a, M3, sub3), V3) =>
              match MPS_TD_visits chord fuel (k + 1) (j - 1) M3 sub3 with
              | none => none
              | some ((b, M4, sub4), V4) =>
                let option2 := 1 + a + b
                let M5 := if option2 > option1 then M4.set i (j - i) option2 else M4
                some ((M5 i (j - i), M5, sub4), (i, j) :: (V1 ++ V3 ++ V4))
          else some ((M2 i (j - i), M2, sub1), (i, j) :: V1)

/-- A store whose triangle is zero and in which the word before row `1` holds `-1`. -/
def sentinelGuard : Table := fun r c => if r = 1 ∧ c = -1 then -1 else 0

/-- A store whose triangle is zero and in which the word before row `1` holds `-5`. -/
def negGuard : Table := fun r c => if r = 1 ∧ c = -1 then -5 else 0

/-- A store whose triangle is zero and in which the word before row `1` holds `-2`. -/
def twoBelow : Table := fun r c => if r = 1 ∧ c = -1 then -2 else 0

/-- A store whose triangle is zero and in which the word before row `3` holds `-5`. -/
def negGuard3 : Table := fun r c => if r = 3 ∧ c = -1 then -5 else 0

/-- A store whose triangle is zero and in which every word before a row holds `1`. -/
def onesBelow : Table := fun _ c => if c < 0 then 1 else 0

/-- A store whose triangle is zero and in which the words `M[2][-1]` and `M[3][-3]` hold
`1`. -/
def stepsBelow : Table := fun r c => if (r = 2 ∧ c = -1) ∨ (r = 3 ∧ c = -3) then 1 else 0

/-- The pairing of the input `4 / 0 3 / 1 2`: chord `{1, 2}` nested in chord `{0, 3}`. -/
def chordN : Int → Int := fun p =>
  if p = 0 then 3 else if p = 1 then 2 else if p = 2 then 1 else 0

/-- The head flags of the input `4 / 0 3 / 1 2`. -/
def headN : Int → Bool := fun p => decide (p = 0 ∨ p = 1)

theorem opt_base (chord : Int → Int) (i j : Int) (h : j ≤ i) : opt chord i j = 0 := by
  rw [opt]; simp [h]

theorem opt_nest (chord : Int → Int) (i j : Int) (h : i < j) (hk : chord j = i) :
    opt chord i j = opt chord (i + 1) (j - 1) + 1 := by
  rw [opt]; simp [not_le.mpr h, hk]

theorem opt_inside (chord : Int → Int) (i j : Int) (h : i < j) (hk : chord j ≠ i)
    (h1 : i < chord j) (h2 : chord j < j) :
    opt chord i j =
      max (opt chord i (j - 1))
        (opt chord i (chord j - 1) + opt chord (chord j + 1) (j - 1) + 1) := by
  rw [opt]; simp [not_le.mpr h, hk, h1, h2]

theorem opt_outside (chord : Int → Int) (i j : Int) (h : i < j) (hk : chord j ≠ i)
    (h1 : ¬ (i < chord j ∧ chord j < j)) :
    opt chord i j = opt chord i (j - 1) := by
  rw [opt]; simp [not_le.mpr h, hk, h1]

theorem opt_nonneg (chord : Int → Int) : ∀ (n : Nat) (i j : Int), j - i < n → 0 ≤ opt chord i j := by
  intro n
  induction n with
  | zero => intro i j h; rw [opt_base chord i j (by omega)]
  | succ n ih =>
    intro i j h
    by_cases hji : j ≤ i
    · rw [opt_base chord i j hji]
    · have hij : i < j := not_le.mp hji
      by_cases hk : chord j = i
      · rw [opt_nest chord i j hij hk]
        have := ih (i + 1) (j - 1) (by omega)
        omega
      · by_cases h2 : i < chord j ∧ chord j < j
        · rw [opt_inside chord i j hij hk h2.1 h2.2]
          exact le_max_of_le_left (ih i (j - 1) (by omega))
        · rw [opt_outside chord i j hij hk h2]
          exact ih i (j - 1) (by omega)

theorem opt_nonneg_all (chord : Int → Int) (i j : Int) : 0 ≤ opt chord i j :=
  opt_nonneg chord (j - i + 1).toNat i j (by omega)

/-! ### Loops as folds -/

theorem foldl_range_inv {σ : Type} (f : σ → Nat → σ) (P : Nat → σ → Prop) :
    ∀ (n : Nat) (s : σ), P 0 s → (∀ k t, k < n → P k t → P (k + 1) (f t k)) →
      P n ((List.range n).foldl f s) := by
  intro n
  induction n with
  | zero => intro s h0 _; simpa using h0
  | succ n ih =>
    intro s h0 hs
    rw [List.range_succ, List.foldl_append]
    simp only [List.foldl_cons, List.foldl_nil]
    exact hs n _ (Nat.lt_succ_self n)
      (ih s h0 (fun k t hk hp => hs k t (Nat.lt_succ_of_lt hk) hp))

theorem foldl_range'_inv {σ : Type} (f : σ → Nat → σ) (P : Nat → σ → Prop) (a : Nat) :
    ∀ (n : Nat) (s : σ), P a s → (∀ k t, a ≤ k → k < a + n → P k t → P (k + 1) (f t k)) →
      P (a + n) ((List.range' a n).foldl f s) := by
  intro n
  induction n with
  | zero => intro s h0 _; simpa using h0
  | succ n ih =>
    intro s h0 hs
    rw [List.range'_concat, List.foldl_append]
    simp only [List.foldl_cons, List.foldl_nil]
    have := ih s h0 (fun k t hk1 hk2 hp => hs k t hk1 (by omega) hp)
    have h2 := hs (a + n) _ (by omega) (by omega) this
    simpa [Nat.add_assoc] using h2

/-! ### The bottom-up table -/

theorem Table.set_same (M : Table) (r c v : Int) : M.set r c v r c = v := by
  simp [Table.set]

theorem Table.set_other (M : Table) (r c v r' c' : Int) (h : ¬ (r' = r ∧ c' = c)) :
    M.set r c v r' c' = M r' c' := by
  simp only [Table.set, if_neg h]

theorem buCell_other (chord : Int → Int) (M : Table) (i j r c : Int)
    (h : ¬ (r = i ∧ c = j - i)) : buCell chord M i j r c = M r c := by
  simp only [buCell]
  split_ifs <;> exact Table.set_other _ _ _ _ _ _ h

theorem buCell_inv (chord : Int → Int) (N L I : Nat) (M : Table) (hL : 1 ≤ L)
    (hI : I + L < 2 * N) (h : BUInv chord N L I M) :
    BUInv chord N L (I + 1) (buCell chord M (I : Int) ((I : Int) + (L : Int))) := by
  intro i c hi hc hic hi2 hcases
  by_cases hcell : i = (I : Int) ∧ c = (L : Int)
  · obtain ⟨rfl, rfl⟩ := hcell
    have hrd : ∀ r d : Int, 0 ≤ r → -1 ≤ d → r + d < 2 * (N : Int) → r < 2 * (N : Int) →
        d < L → M r d = opt chord r (r + d) :=
      fun r d h1 h2 h3 h4 h5 => h r d h1 h2 h3 h4 (Or.inl h5)
    have hIL : (I : Int) < (I : Int) + (L : Int) := by omega
    simp only [buCell]
    by_cases hk : chord ((I : Int) + (L : Int)) = (I : Int)
    · rw [if_pos hk]
      have e : (I : Int) + (L : Int) - (I : Int) = (L : Int) := by omega
      rw [e, Table.set_same, opt_nest chord _ _ hIL hk]
      rw [hrd ((I : Int) + 1) ((I : Int) + (L : Int) - 1 - ((I : Int) + 1))
        (by omega) (by omega) (by omega) (by omega) (by omega)]
      congr 2
      omega
    · rw [if_neg hk]
      have e : (I : Int) + (L : Int) - (I : Int) = (L : Int) := by omega
      have h1 : M (I : Int) ((I : Int) + (L : Int) - 1 - (I : Int))
          = opt chord (I : Int) ((I : Int) + (L : Int) - 1) := by
        rw [hrd (I : Int) ((I : Int) + (L : Int) - 1 - (I : Int))
          (by omega) (by omega) (by omega) (by omega) (by omega)]
        congr 1
        omega
      by_cases h2 : (I : Int) < chord ((I : Int) + (L : Int)) ∧
          chord ((I : Int) + (L : Int)) < (I : Int) + (L : Int)
      · have ha : M (I : Int) (chord ((I : Int) + (L : Int)) - 1 - (I : Int))
            = opt chord (I : Int) (chord ((I : Int) + (L : Int)) - 1) := by
          rw [hrd (I : Int) _ (by omega) (by omega) (by omega) (by omega) (by omega)]
          congr 1
          omega
        have hb : M (chord ((I : Int) + (L : Int)) + 1)
            ((I : Int) + (L : Int) - 1 - (chord ((I : Int) + (L : Int)) + 1))
            = opt chord (chord ((I : Int) + (L : Int)) + 1) ((I : Int) + (L : Int) - 1) := by
          rw [hrd _ _ (by omega) (by omega) (by omega) (by omega) (by omega)]
          congr 1
          omega
        rw [opt_inside chord _ _ hIL hk h2.1 h2.2, ha, hb, h1, e]
        split_ifs with h3
        · rw [Table.set_same]
          exact (max_eq_right (by omega)).symm
        · rw [Table.set_same]
          refine (max_eq_left ?_).symm
          have : ¬ (opt chord (I : Int) (chord ((I : Int) + (L : Int)) - 1)
              + opt chord (chord ((I : Int) + (L : Int)) + 1) ((I : Int) + (L : Int) - 1) + 1
              > opt chord (I : Int) ((I : Int) + (L : Int) - 1)) := fun hgt => h3 ⟨h2.1, h2.2, hgt⟩
          omega
      · rw [opt_outside chord _ _ hIL hk h2, h1, e]
        rw [if_neg (fun hh => h2 ⟨hh.1, hh.2.1⟩), Table.set_same]
  · rw [buCell_other chord M _ _ i c (by
      intro hh; apply hcell; refine ⟨hh.1, ?_⟩; have := hh.2; omega)]
    apply h i c hi hc hic hi2
    rcases hcases with h1 | ⟨h1, h2⟩
    · exact Or.inl h1
    · refine Or.inr ⟨h1, ?_⟩
      have : i ≠ (I : Int) := fun hh => hcell ⟨hh, h1⟩
      omega

theorem buInner_inv (chord : Int → Int) (N L : Nat) (s : Table × Subproblem) (hL : 1 ≤ L)
    (hLN : L < 2 * N) (h : BUInv chord N L 0 s.1) :
    BUInv chord N (L + 1) 0 (buInner chord N L s).1 := by
  have key := foldl_range_inv
    (fun (t : Table × Subproblem) (i : Nat) => buStep chord (i : Int) ((i : Int) + (L : Int)) t)
    (fun k t => BUInv chord N L k t.1) (2 * N - L) s h
    (fun k t hk hp => buCell_inv chord N L k t.1 hL (by omega) hp)
  intro i c hi hc hic hi2 hcases
  have key2 : BUInv chord N L (2 * N - L) (buInner chord N L s).1 := key
  apply key2 i c hi hc hic hi2
  rcases hcases with h1 | ⟨_, h2⟩
  · by_cases hcl : c < (L : Int)
    · exact Or.inl hcl
    · refine Or.inr ⟨by push_cast at h1; omega, ?_⟩
      push_cast at h1
      omega
  · omega

theorem buOuter_inv (chord : Int → Int) (N : Nat) (s : Table × Subproblem) (hN : 1 ≤ N)
    (h : BUInv chord N 1 0 s.1) :
    BUInv chord N (2 * N) 0 (buOuter chord N s).1 := by
  have key := foldl_range'_inv
    (fun (t : Table × Subproblem) (L : Nat) => buInner chord N L t)
    (fun L t => BUInv chord N L 0 t.1) 1 (2 * N - 1) s h
    (fun k t hk1 hk2 hp => buInner_inv chord N k t hk1 (by omega) hp)
  have e : 1 + (2 * N - 1) = 2 * N := by omega
  have key2 : BUInv chord N (1 + (2 * N - 1)) 0 (buOuter chord N s).1 := key
  rw [e] at key2
  exact key2

theorem buInv_init (chord : Int → Int) (N : Nat) (M : Table) (hz : ZeroTriangle N M)
    (hg : GuardZero N M) : BUInv chord N 1 0 M := by
  intro i c hi hc hic hi2 hcases
  rw [opt_base chord i (i + c) (by omega)]
  by_cases hc0 : c = -1
  · subst hc0; exact hg i hi hi2
  · exact hz i c hi (by omega) hic

/-- Contents of the table after `MPS_BU`: every cell of the triangle holds the value of the
recurrence for its interval. -/
theorem bu_table (chord : Int → Int) (N : Nat) (M : Table) (sub : Subproblem)
    (hz : ZeroTriangle N M) (hg : GuardZero N M) (i j : Int) (hi : 0 ≤ i) (hij : i ≤ j)
    (hj : j < 2 * (N : Int)) :
    (MPS_BU chord N M sub).1 i (j - i) = opt chord i j := by
  have hN : 1 ≤ N := by omega
  have key := buOuter_inv chord N (M, sub) hN (buInv_init chord N M hz hg)
  have := key i (j - i) hi (by omega) (by omega) (by omega) (Or.inl (by push_cast; omega))
  simp only [MPS_BU]
  rw [this]
  congr 1
  omega

/-- The guard words are left as they were by `MPS_BU`. -/
theorem bu_guard (chord : Int → Int) (N : Nat) (M : Table) (sub : Subproblem)
    (hz : ZeroTriangle N M) (hg : GuardZero N M) (r : Int) (hr : 0 ≤ r)
    (hr2 : r < 2 * (N : Int)) :
    (MPS_BU chord N M sub).1 r (-1) = 0 := by
  have hN : 1 ≤ N := by omega
  have key := buOuter_inv chord N (M, sub) hN (buInv_init chord N M hz hg)
  have := key r (-1) hr (by omega) (by omega) (by omega) (Or.inl (by push_cast; omega))
  simp only [MPS_BU]
  rw [this]
  exact opt_base chord _ _ (by omega)

/-! ### The top-down table -/

theorem Known.val {chord : Int → Int} {M : Table} {i j : Int} (h : Known chord M i j) :
    M i (j - i) = opt chord i j := by
  cases h with
  | base _ _ h1 h2 => rw [h2, opt_base chord i j h1]
  | nest _ _ _ _ h3 _ => exact h3
  | inside _ _ _ _ _ _ h5 _ _ _ => exact h5
  | outside _ _ _ _ _ h4 _ => exact h4

theorem Known.ne_sentinel {chord : Int → Int} {M : Table} {i j : Int}
    (h : Known chord M i j) : M i (j - i) ≠ -1 := by
  rw [h.val]
  have := opt_nonneg_all chord i j
  omega

theorem Known.mono_on {chord : Int → Int} {M M' : Table} {i j : Int}
    (h : Known chord M i j) : StableOn i j M M' → Known chord M' i j := by
  induction h with
  | base i j h1 h2 =>
    intro hs
    refine Known.base i j h1 ?_
    rw [hs i (j - i) (le_refl _) (by omega) (by omega), h2]
  | nest i j h1 h2 h3 h4 ih =>
    intro hs
    refine Known.nest i j h1 h2 ?_ (ih ?_)
    · rw [hs i (j - i) (le_refl _) (by omega) (by have := opt_nonneg_all chord i j; omega), h3]
    · intro r c hr hc hne
      exact hs r c (by omega) (by omega) hne
  | inside i j h1 h2 h3 h4 h5 h6 h7 h8 ih6 ih7 ih8 =>
    intro hs
    refine Known.inside i j h1 h2 h3 h4 ?_ (ih6 ?_) (ih7 ?_) (ih8 ?_)
    · rw [hs i (j - i) (le_refl _) (by omega) (by have := opt_nonneg_all chord i j; omega), h5]
    · intro r c hr hc hne
      exact hs r c (by omega) (by omega) hne
    · intro r c hr hc hne
      exact hs r c (by omega) (by omega) hne
    · intro r c hr hc hne
      exact hs r c (by omega) (by omega) hne
  | outside i j h1 h2 h3 h4 h5 ih =>
    intro hs
    refine Known.outside i j h1 h2 h3 ?_ (ih ?_)
    · rw [hs i (j - i) (le_refl _) (by omega) (by have := opt_nonneg_all chord i j; omega), h4]
    · intro r c hr hc hne
      exact hs r c (by omega) (by omega) hne

theorem stableOn_trans {a b : Int} {M1 M2 M3 : Table} (h1 : StableOn a b M1 M2)
    (h2 : StableOn a b M2 M3) : StableOn a b M1 M3 := by
  intro r c hr hc hne
  have e := h1 r c hr hc hne
  rw [h2 r c hr hc (by rw [e]; exact hne), e]

theorem stableOn_set (a b : Int) (M : Table) (i c v : Int)
    (h : ¬ (a ≤ i ∧ i + c ≤ b) ∨ M i c = -1) : StableOn a b M (M.set i c v) := by
  intro r d hr hd hne
  apply Table.set_other
  rintro ⟨rfl, rfl⟩
  rcases h with h | h
  · exact h ⟨hr, hd⟩
  · exact hne h

theorem TDStep.stableOn {chord : Int → Int} {i j : Int} {M M' : Table}
    (h : TDStep chord i j M M') (a b : Int) : StableOn a b M M' := by
  intro r c _ _ hne
  rcases h r c with h1 | h1
  · exact h1
  · exact absurd h1.1 hne

theorem RegInv.sub {chord : Int → Int} {i j : Int} {M : Table} (h : RegInv chord i j M)
    (a b : Int) (ha : i ≤ a) (hb : b ≤ j) : RegInv chord a b M :=
  ⟨fun x y hx hxy hy => h.1 x y (by omega) hxy (by omega),
   fun x hx hy => h.2 x (by omega) (by omega)⟩

theorem RegInv.step {chord : Int → Int} {I J i j : Int} {M M' : Table}
    (h : RegInv chord I J M) (hs : TDStep chord i j M M') : RegInv chord I J M' := by
  constructor
  · intro a b ha hab hb
    rcases hs a (b - a) with h1 | h1
    · rcases h.1 a b ha hab hb with h2 | h2
      · left; rw [h1, h2]
      · right; exact h2.mono_on (hs.stableOn a b)
    · right
      have := h1.2.2.2.2
      rwa [show a + (b - a) = b by omega] at this
  · intro a ha hb
    have := hs.stableOn a (a - 1) a (-1) (le_refl _) (by omega) (by rw [h.2 a ha hb]; omega)
    rw [this, h.2 a ha hb]

theorem RegInv.set {chord : Int → Int} {I J : Int} {M : Table} (h : RegInv chord I J M)
    (i c v : Int) (hout : J < i + c) (hc : 0 ≤ c) : RegInv chord I J (M.set i c v) := by
  constructor
  · intro a b ha hab hb
    have e : M.set i c v a (b - a) = M a (b - a) :=
      Table.set_other _ _ _ _ _ _ (by rintro ⟨rfl, rfl⟩; omega)
    rcases h.1 a b ha hab hb with h2 | h2
    · left; rw [e, h2]
    · right; exact h2.mono_on (stableOn_set a b M i c v (Or.inl (by omega)))
  · intro a ha hb
    rw [Table.set_other _ _ _ _ _ _ (by rintro ⟨rfl, rfl⟩; omega)]
    exact h.2 a ha hb

theorem td_unfold_hit (chord : Int → Int) (f : Nat) (i j : Int) (M : Table) (sub : Subproblem)
    (h : M i (j - i) ≠ -1) :
    MPS_TD chord (f + 1) i j M sub = some (M i (j - i), M, sub) := by
  simp only [MPS_TD, if_pos h]

theorem td_unfold_base (chord : Int → Int) (f : Nat) (i j : Int) (M : Table) (sub : Subproblem)
    (h : M i (j - i) = -1) (hji : j ≤ i) :
    MPS_TD chord (f + 1) i j M sub = some (0, M.set i (j - i) 0, tdRecord i j sub) := by
  simp only [MPS_TD, h, ne_eq, not_true_eq_false, if_false, if_pos hji]

theorem td_unfold_nest (chord : Int → Int) (f : Nat) (i j : Int) (M : Table) (sub : Subproblem)
    (h : M i (j - i) = -1) (hji : ¬ j ≤ i) (hk : chord j = i) (v : Int) (M1 : Table)
    (sub1 : Subproblem)
    (h1 : MPS_TD chord f (i + 1) (j - 1) M (tdRecord i j sub) = some (v, M1, sub1)) :
    MPS_TD chord (f + 1) i j M sub
      = some (1 + v, M1.set i (j - i) (1 + v), sub1) := by
  simp only [MPS_TD, h, ne_eq, not_true_eq_false, if_false, if_neg hji, if_pos hk, h1,
    Table.set_same]

theorem td_unfold_outside (chord : Int → Int) (f : Nat) (i j : Int) (M : Table)
    (sub : Subproblem) (h : M i (j - i) = -1) (hji : ¬ j ≤ i) (hk : chord j ≠ i)
    (hk2 : ¬ (i < chord j ∧ chord j < j)) (o1 : Int) (M1 : Table) (sub1 : Subproblem)
    (h1 : MPS_TD chord f i (j - 1) M (tdRecord i j sub) = some (o1, M1, sub1)) :
    MPS_TD chord (f + 1) i j M sub = some (o1, M1.set i (j - i) o1, sub1) := by
  simp only [MPS_TD, h, ne_eq, not_true_eq_false, if_false, if_neg hji, if_neg hk, h1,
    if_neg hk2, Table.set_same]

theorem td_unfold_inside (chord : Int → Int) (f : Nat) (i j : Int) (M : Table)
    (sub : Subproblem) (h : M i (j - i) = -1) (hji : ¬ j ≤ i) (hk : chord j ≠ i)
    (hk2 : i < chord j ∧ chord j < j) (o1 a b : Int) (M1 M3 M4 : Table)
    (sub1 sub3 sub4 : Subproblem)
    (h1 : MPS_TD chord f i (j - 1) M (tdRecord i j sub) = some (o1, M1, sub1))
    (h3 : MPS_TD chord f i (chord j - 1) (M1.set i (j - i) o1) sub1 = some (a, M3, sub3))
    (h4 : MPS_TD chord f (chord j + 1) (j - 1) M3 sub3 = some (b, M4, sub4)) :
    MPS_TD chord (f + 1) i j M sub
      = some ((if 1 + a + b > o1 then M4.set i (j - i) (1 + a + b) else M4) i (j - i),
          (if 1 + a + b > o1 then M4.set i (j - i) (1 + a + b) else M4), sub4) := by
  simp only [MPS_TD, h, ne_eq, not_true_eq_false, if_false, if_neg hji, if_neg hk, h1,
    if_pos hk2, h3, h4]

theorem td_main (chord : Int → Int) :
    ∀ (n fuel : Nat) (i j : Int) (M : Table) (sub : Subproblem),
      j - i + 1 < n → n ≤ fuel → i ≤ j + 1 → (j < i → M i (-1) = 0) → RegInv chord i j M →
      ∃ M' sub', MPS_TD chord fuel i j M sub = some (opt chord i j, M', sub') ∧
        TDStep chord i j M M' ∧ Known chord M' i j := by
  intro n
  induction n with
  | zero => intro fuel i j M sub h _ h2; omega
  | succ n ih =>
    intro fuel i j M sub hn hf hij hg hinv
    obtain ⟨f, rfl⟩ : ∃ f, fuel = f + 1 := ⟨fuel - 1, by omega⟩
    have hnf : n ≤ f := by omega
    by_cases hmemo : M i (j - i) = -1
    swap
    · -- the cell already holds a value
      have hK : Known chord M i j := by
        by_cases hlt : j < i
        · refine Known.base i j (by omega) ?_
          rw [show j - i = -1 by omega]; exact hg hlt
        · rcases hinv.1 i j (le_refl _) (by omega) (le_refl _) with h | h
          · exact absurd h hmemo
          · exact h
      refine ⟨M, sub, ?_, fun r c => Or.inl rfl, hK⟩
      rw [td_unfold_hit chord f i j M sub hmemo, hK.val]
    · have hij2 : i ≤ j := by
        by_contra hc
        have h1 := hg (by omega)
        rw [show j - i = -1 by omega] at hmemo
        omega
      by_cases hji : j ≤ i
      · -- one-point interval
        have hK : Known chord (M.set i (j - i) 0) i j :=
          Known.base i j hji (Table.set_same _ _ _ _)
        refine ⟨M.set i (j - i) 0, tdRecord i j sub, ?_, ?_, hK⟩
        · rw [td_unfold_base chord f i j M sub hmemo hji, opt_base chord i j hji]
        · intro r c
          by_cases hcell : r = i ∧ c = j - i
          · obtain ⟨rfl, rfl⟩ := hcell
            right
            refine ⟨hmemo, le_refl _, by omega, by omega, ?_⟩
            rw [show r + (j - r) = j by omega]; exact hK
          · left; exact Table.set_other _ _ _ _ _ _ hcell
      · have hlt : i < j := not_le.mp hji
        by_cases hk : chord j = i
        · -- the partner of `j` is `i`
          obtain ⟨M1, sub1, h1, S1, K1⟩ := ih f (i + 1) (j - 1) M (tdRecord i j sub)
            (by omega) hnf (by omega)
            (fun hh => hinv.2 (i + 1) (by omega) (by omega))
            (hinv.sub (i + 1) (j - 1) (by omega) (by omega))
          have hst : ∀ a b : Int, ¬ (a ≤ i ∧ j ≤ b) →
              StableOn a b M1 (M1.set i (j - i) (1 + opt chord (i + 1) (j - 1))) :=
            fun a b hab => stableOn_set a b M1 i (j - i) _ (Or.inl (by
              intro hh; apply hab; exact ⟨hh.1, by omega⟩))
          have hK : Known chord (M1.set i (j - i) (1 + opt chord (i + 1) (j - 1))) i j := by
            refine Known.nest i j hlt hk ?_ (K1.mono_on (hst _ _ (by omega)))
            rw [Table.set_same, opt_nest chord i j hlt hk]; omega
          refine ⟨_, sub1, ?_, ?_, hK⟩
          · rw [td_unfold_nest chord f i j M sub hmemo hji hk _ M1 sub1 h1,
              opt_nest chord i j hlt hk]
            congr 2; omega
          · intro r c
            by_cases hcell : r = i ∧ c = j - i
            · obtain ⟨rfl, rfl⟩ := hcell
              right
              refine ⟨hmemo, le_refl _, by omega, by omega, ?_⟩
              rw [show r + (j - r) = j by omega]; exact hK
            · rw [Table.set_other _ _ _ _ _ _ hcell]
              rcases S1 r c with h2 | ⟨h2, h3, h4, h5, h6⟩
              · left; exact h2
              · right
                exact ⟨h2, by omega, h4, by omega, h6.mono_on (hst _ _ (by omega))⟩
        · -- skip `j` first
          obtain ⟨M1, sub1, h1, S1, K1⟩ := ih f i (j - 1) M (tdRecord i j sub)
            (by omega) hnf (by omega) (fun hh => by omega)
            (hinv.sub i (j - 1) (by omega) (by omega))
          have hM1 : M1 i (j - i) = -1 := by
            rcases S1 i (j - i) with h2 | h2
            · rw [h2, hmemo]
            · omega
          by_cases hk2 : i < chord j ∧ chord j < j
          · -- the partner of `j` lies inside
            have hinv1 : RegInv chord i (j - 1) M1 :=
              (hinv.sub i (j - 1) (by omega) (by omega)).step S1
            have hinv2 : RegInv chord i (j - 1) (M1.set i (j - i) (opt chord i (j - 1))) :=
              hinv1.set i (j - i) _ (by omega) (by omega)
            obtain ⟨M3, sub3, h3, S3, K3⟩ := ih f i (chord j - 1)
              (M1.set i (j - i) (opt chord i (j - 1))) sub1
              (by omega) hnf (by omega) (fun hh => by omega)
              (hinv2.sub i (chord j - 1) (by omega) (by omega))
            have hinv3 : RegInv chord i (j - 1) M3 := hinv2.step S3
            obtain ⟨M4, sub4, h4, S4, K4⟩ := ih f (chord j + 1) (j - 1) M3 sub3
              (by omega) hnf (by omega)
              (fun hh => by
                have g0 := hinv.2 (chord j + 1) (by omega) (by omega)
                have g1 := S1.stableOn (chord j + 1) (chord j) (chord j + 1) (-1) (le_refl _)
                  (by omega) (by rw [g0]; omega)
                have g2 : (M1.set i (j - i) (opt chord i (j - 1))) (chord j + 1) (-1)
                    = M1 (chord j + 1) (-1) :=
                  Table.set_other _ _ _ _ _ _ (by rintro ⟨_, h⟩; omega)
                have g3 := S3.stableOn (chord j + 1) (chord j) (chord j + 1) (-1) (le_refl _)
                  (by omega) (by rw [g2, g1, g0]; omega)
                rw [g3, g2, g1, g0])
              (hinv3.sub (chord j + 1) (j - 1) (by omega) (by omega))
            rw [td_unfold_inside chord f i j M sub hmemo hji hk hk2 _ _ _ M1 M3 M4 sub1 sub3 sub4
              h1 h3 h4]
            -- the final table
            generalize hM5 : (if 1 + opt chord i (chord j - 1) + opt chord (chord j + 1) (j - 1)
                > opt chord i (j - 1)
              then M4.set i (j - i)
                (1 + opt chord i (chord j - 1) + opt chord (chord j + 1) (j - 1))
              else M4) = M5
            have hM4 : M4 i (j - i) = opt chord i (j - 1) := by
              have e3 : M3 i (j - i) = opt chord i (j - 1) := by
                rcases S3 i (j - i) with h2 | h2
                · rw [h2, Table.set_same]
                · omega
              rcases S4 i (j - i) with h2 | h2
              · rw [h2, e3]
              · omega
            have hval : M5 i (j - i) = opt chord i j := by
              rw [opt_inside chord i j hlt hk hk2.1 hk2.2, ← hM5]
              split_ifs with hgt
              · rw [Table.set_same, max_def]; split_ifs <;> omega
              · rw [hM4, max_def]; split_ifs <;> omega
            have hoth : ∀ r c : Int, ¬ (r = i ∧ c = j - i) → M5 r c = M4 r c := by
              intro r c hcell
              rw [← hM5]
              split_ifs
              · exact Table.set_other _ _ _ _ _ _ hcell
              · rfl
            have hst45 : ∀ a b : Int, ¬ (a ≤ i ∧ j ≤ b) → StableOn a b M4 M5 := by
              intro a b hab r c hr hc _
              exact hoth r c (by rintro ⟨rfl, rfl⟩; apply hab; constructor <;> omega)
            have hst35 : ∀ a b : Int, ¬ (a ≤ i ∧ j ≤ b) → StableOn a b M3 M5 :=
              fun a b hab => stableOn_trans (S4.stableOn a b) (hst45 a b hab)
            have hst15 : ∀ a b : Int, ¬ (a ≤ i ∧ j ≤ b) → StableOn a b M1 M5 :=
              fun a b hab => stableOn_trans (stableOn_trans
                (stableOn_set a b M1 i (j - i) _ (Or.inr hM1)) (S3.stableOn a b)) (hst35 a b hab)
            have hK : Known chord M5 i j :=
              Known.inside i j hlt hk hk2.1 hk2.2 hval
                (K1.mono_on (hst15 _ _ (by omega)))
                (K3.mono_on (hst35 _ _ (by omega)))
                (K4.mono_on (hst45 _ _ (by omega)))
            refine ⟨M5, sub4, ?_, ?_, hK⟩
            · rw [hval]
            · intro r c
              by_cases hcell : r = i ∧ c = j - i
              · obtain ⟨rfl, rfl⟩ := hcell
                right
                refine ⟨hmemo, le_refl _, by omega, by omega, ?_⟩
                rw [show r + (j - r) = j by omega]; exact hK
              · rw [hoth r c hcell]
                have e2 : (M1.set i (j - i) (opt chord i (j - 1))) r c = M1 r c :=
                  Table.set_other _ _ _ _ _ _ hcell
                rcases S4 r c with h5 | ⟨h5, h6, h7, h8, h9⟩
                · rcases S3 r c with g5 | ⟨g5, g6, g7, g8, g9⟩
                  · rcases S1 r c with f5 | ⟨f5, f6, f7, f8, f9⟩
                    · left; rw [h5, g5, e2, f5]
                    · right
                      exact ⟨f5, f6, f7, by omega, f9.mono_on (hst15 _ _ (by omega))⟩
                  · right
                    rw [e2] at g5
                    have f5 : M r c = -1 := by
                      rcases S1 r c with f5 | f5
                      · rw [← f5, g5]
                      · exact f5.1
                    exact ⟨f5, g6, g7, by omega, g9.mono_on (hst35 _ _ (by omega))⟩
                · right
                  have g5 : M1 r c = -1 := by
                    rcases S3 r c with g5 | g5
                    · rw [← e2, ← g5, h5]
                    · rw [← e2]; exact g5.1
                  have f5 : M r c = -1 := by
                    rcases S1 r c with f5 | f5
                    · rw [← f5, g5]
                    · exact f5.1
                  exact ⟨f5, by omega, h7, by omega, h9.mono_on (hst45 _ _ (by omega))⟩
          · -- the partner of `j` lies outside
            have hst : ∀ a b : Int, StableOn a b M1 (M1.set i (j - i) (opt chord i (j - 1))) :=
              fun a b => stableOn_set a b M1 i (j - i) _ (Or.inr hM1)
            have hK : Known chord (M1.set i (j - i) (opt chord i (j - 1))) i j := by
              refine Known.outside i j hlt hk hk2 ?_ (K1.mono_on (hst _ _))
              rw [Table.set_same, opt_outside chord i j hlt hk hk2]
            refine ⟨_, sub1, ?_, ?_, hK⟩
            · rw [td_unfold_outside chord f i j M sub hmemo hji hk hk2 _ M1 sub1 h1,
                opt_outside chord i j hlt hk hk2]
            · intro r c
              by_cases hcell : r = i ∧ c = j - i
              · obtain ⟨rfl, rfl⟩ := hcell
                right
                refine ⟨hmemo, le_refl _, by omega, by omega, ?_⟩
                rw [show r + (j - r) = j by omega]; exact hK
              · rw [Table.set_other _ _ _ _ _ _ hcell]
                rcases S1 r c with h2 | ⟨h2, h3, h4, h5, h6⟩
                · left; exact h2
                · right
                  exact ⟨h2, h3, h4, by omega, h6.mono_on (hst _ _)⟩

theorem known_of_filled (chord : Int → Int) (M : Table) :
    ∀ (n : Nat) (i j : Int), j - i < n → Filled chord i j M → i ≤ j → Known chord M i j := by
  intro n
  induction n with
  | zero => intro i j h _ h2; omega
  | succ n ih =>
    intro i j hn hF hij
    have sub : ∀ a b : Int, i ≤ a → b ≤ j → Filled chord a b M := fun a b ha hb =>
      ⟨fun x y hx hxy hy => hF.1 x y (by omega) hxy (by omega),
       fun x hx hy => hF.2 x (by omega) (by omega)⟩
    have dep : ∀ a b : Int, i ≤ a → b < j → b - a < j - i → a ≤ b + 1 → i < a ∨ a ≤ b →
        Known chord M a b := by
      intro a b ha hb hlt hab1 hor
      by_cases hab : a ≤ b
      · exact ih a b (by omega) (sub a b ha (by omega)) hab
      · refine Known.base a b (by omega) ?_
        rw [show b - a = -1 by omega]
        exact hF.2 a (by omega) (by omega)
    have hval := hF.1 i j (le_refl _) hij (le_refl _)
    by_cases hji : j ≤ i
    · exact Known.base i j hji (by rw [hval, opt_base chord i j hji])
    · have hlt : i < j := not_le.mp hji
      by_cases hk : chord j = i
      · exact Known.nest i j hlt hk hval
          (dep (i + 1) (j - 1) (by omega) (by omega) (by omega) (by omega) (Or.inl (by omega)))
      · by_cases hk2 : i < chord j ∧ chord j < j
        · exact Known.inside i j hlt hk hk2.1 hk2.2 hval
            (dep i (j - 1) (by omega) (by omega) (by omega) (by omega) (Or.inr (by omega)))
            (dep i (chord j - 1) (by omega) (by omega) (by omega) (by omega) (Or.inr (by omega)))
            (dep (chord j + 1) (j - 1) (by omega) (by omega) (by omega) (by omega) (Or.inl (by omega)))
        · exact Known.outside i j hlt hk hk2 hval
            (dep i (j - 1) (by omega) (by omega) (by omega) (by omega) (Or.inr (by omega)))

/-! ### Traceback -/

theorem opt_ne_zero_lt (chord : Int → Int) (i j : Int) (h : opt chord i j ≠ 0) : i < j := by
  by_contra hc
  exact h (opt_base chord i j (by omega))

theorem opt_gt_inside (chord : Int → Int) (i j : Int) (hk : chord j ≠ i)
    (h : opt chord i j > opt chord i (j - 1)) : i < chord j ∧ chord j < j := by
  by_contra hc
  by_cases hij : i < j
  · rw [opt_outside chord i j hij hk hc] at h; omega
  · rw [opt_base chord i j (by omega), opt_base chord i (j - 1) (by omega)] at h; omega

theorem tb_unfold_zero (M : Table) (chord : Int → Int) (is_head : Int → Bool) (f : Nat)
    (i j : Int) (sol : List Int) (h : M i (j - i) = 0) :
    traceback M chord is_head (f + 1) i j sol = some sol := by
  simp only [traceback, if_pos h]

theorem tb_unfold_nest (M : Table) (chord : Int → Int) (is_head : Int → Bool) (f : Nat)
    (i j : Int) (sol : List Int) (h : M i (j - i) ≠ 0) (hk : chord j = i) :
    traceback M chord is_head (f + 1) i j sol
      = traceback M chord is_head f (i + 1) (j - 1)
          (if is_head i then sol ++ [i] else sol ++ [j]) := by
  simp only [traceback, if_neg h, if_pos hk]

theorem tb_unfold_take (M : Table) (chord : Int → Int) (is_head : Int → Bool) (f : Nat)
    (i j : Int) (sol sol2 : List Int) (h : M i (j - i) ≠ 0) (hk : chord j ≠ i)
    (hgt : M i (j - i) > M i (j - 1 - i))
    (h1 : traceback M chord is_head f i (chord j - 1)
      (if is_head j then sol ++ [j] else sol ++ [chord j]) = some sol2) :
    traceback M chord is_head (f + 1) i j sol
      = traceback M chord is_head f (chord j + 1) (j - 1) sol2 := by
  simp only [traceback, if_neg h, if_neg hk, if_pos hgt, h1]

theorem tb_unfold_skip (M : Table) (chord : Int → Int) (is_head : Int → Bool) (f : Nat)
    (i j : Int) (sol : List Int) (h : M i (j - i) ≠ 0) (hk : chord j ≠ i)
    (hgt : ¬ M i (j - i) > M i (j - 1 - i)) :
    traceback M chord is_head (f + 1) i j sol
      = traceback M chord is_head f i (j - 1) sol := by
  simp only [traceback, if_neg h, if_neg hk, if_neg hgt]

/-- Over a table that is known at `(i, j)`, `traceback(i, j)` returns, and what it appends
is described by `TBOut`. -/
theorem tb_of_known (chord : Int → Int) (is_head : Int → Bool) (M : Table) (i j : Int)
    (h : Known chord M i j) :
    ∃ out, TBOut chord is_head i j out ∧
      ∀ (fuel : Nat) (sol : List Int), 1 ≤ fuel → j - i + 1 < fuel →
        traceback M chord is_head fuel i j sol = some (sol ++ out) := by
  induction h with
  | base i j h1 h2 =>
    refine ⟨[], TBOut.zero i j (opt_base chord i j h1), ?_⟩
    intro fuel sol hf _
    obtain ⟨f, rfl⟩ : ∃ f, fuel = f + 1 := ⟨fuel - 1, by omega⟩
    rw [tb_unfold_zero M chord is_head f i j sol h2, List.append_nil]
  | nest i j h1 h2 h3 h4 ih =>
    obtain ⟨out, hout, hrun⟩ := ih
    have hne : opt chord i j ≠ 0 := by
      rw [opt_nest chord i j h1 h2]
      have := opt_nonneg_all chord (i + 1) (j - 1)
      omega
    refine ⟨_, TBOut.nest i j out hne h2 hout, ?_⟩
    intro fuel sol hf hfuel
    obtain ⟨f, rfl⟩ : ∃ f, fuel = f + 1 := ⟨fuel - 1, by omega⟩
    rw [tb_unfold_nest M chord is_head f i j sol (by rw [h3]; exact hne) h2,
      hrun f _ (by omega) (by push_cast at hfuel; omega)]
    by_cases hh : is_head i = true <;> simp [hh]
  | inside i j h1 h2 h3 h4 h5 h6 h7 h8 ih6 ih7 ih8 =>
    obtain ⟨out6, hout6, hrun6⟩ := ih6
    obtain ⟨out7, hout7, hrun7⟩ := ih7
    obtain ⟨out8, hout8, hrun8⟩ := ih8
    have hv6 : M i (j - 1 - i) = opt chord i (j - 1) := h6.val
    by_cases hz : opt chord i j = 0
    · refine ⟨[], TBOut.zero i j hz, ?_⟩
      intro fuel sol hf _
      obtain ⟨f, rfl⟩ : ∃ f, fuel = f + 1 := ⟨fuel - 1, by omega⟩
      rw [tb_unfold_zero M chord is_head f i j sol (by rw [h5]; exact hz), List.append_nil]
    · by_cases hgt : opt chord i j > opt chord i (j - 1)
      · refine ⟨_, TBOut.take i j out7 out8 hz h2 hgt hout7 hout8, ?_⟩
        intro fuel sol hf hfuel
        obtain ⟨f, rfl⟩ : ∃ f, fuel = f + 1 := ⟨fuel - 1, by omega⟩
        rw [tb_unfold_take M chord is_head f i j sol _ (by rw [h5]; exact hz) h2
          (by rw [h5, hv6]; exact hgt)
          (hrun7 f _ (by omega) (by push_cast at hfuel; omega)),
          hrun8 f _ (by omega) (by push_cast at hfuel; omega)]
        by_cases hh : is_head j = true <;> simp [hh]
      · refine ⟨out6, TBOut.skip i j out6 hz h2 hgt hout6, ?_⟩
        intro fuel sol hf hfuel
        obtain ⟨f, rfl⟩ : ∃ f, fuel = f + 1 := ⟨fuel - 1, by omega⟩
        rw [tb_unfold_skip M chord is_head f i j sol (by rw [h5]; exact hz) h2
          (by rw [h5, hv6]; exact hgt),
          hrun6 f _ (by omega) (by push_cast at hfuel; omega)]
  | outside i j h1 h2 h3 h4 h5 ih =>
    obtain ⟨out, hout, hrun⟩ := ih
    have hv : M i (j - 1 - i) = opt chord i (j - 1) := h5.val
    have heq := opt_outside chord i j h1 h2 h3
    by_cases hz : opt chord i j = 0
    · refine ⟨[], TBOut.zero i j hz, ?_⟩
      intro fuel sol hf _
      obtain ⟨f, rfl⟩ : ∃ f, fuel = f + 1 := ⟨fuel - 1, by omega⟩
      rw [tb_unfold_zero M chord is_head f i j sol (by rw [h4]; exact hz), List.append_nil]
    · refine ⟨out, TBOut.skip i j out hz h2 (by omega) hout, ?_⟩
      intro fuel sol hf hfuel
      obtain ⟨f, rfl⟩ : ∃ f, fuel = f + 1 := ⟨fuel - 1, by omega⟩
      rw [tb_unfold_skip M chord is_head f i j sol (by rw [h4]; exact hz) h2
        (by rw [h4, hv]; omega),
        hrun f _ (by omega) (by push_cast at hfuel; omega)]

/-- The number of positions appended is the value of the recurrence. -/
theorem TBOut.length {chord : Int → Int} {is_head : Int → Bool} {i j : Int} {out : List Int}
    (h : TBOut chord is_head i j out) : (out.length : Int) = opt chord i j := by
  induction h with
  | zero i j h0 => simp [h0]
  | nest i j out h1 h2 _ ih =>
    rw [opt_nest chord i j (opt_ne_zero_lt chord i j h1) h2, ← ih]
    simp
  | take i j o1 o2 h1 h2 h3 _ _ ih1 ih2 =>
    have hin := opt_gt_inside chord i j h2 h3
    have e := opt_inside chord i j (opt_ne_zero_lt chord i j h1) h2 hin.1 hin.2
    rw [max_def] at e
    split_ifs at e with hc
    · rw [e, ← ih1, ← ih2]; simp
    · omega
  | skip i j out h1 h2 h3 _ ih =>
    rw [ih]
    have hlt := opt_ne_zero_lt chord i j h1
    by_cases hin : i < chord j ∧ chord j < j
    · have e := opt_inside chord i j hlt h2 hin.1 hin.2
      rw [max_def] at e
      split_ifs at e with hc
      · omega
      · omega
    · rw [opt_outside chord i j hlt h2 hin]

theorem planarL_widen {chord : Int → Int} {i j a b : Int} {l : List Int}
    (h : PlanarL chord a b l) (hi : i ≤ a) (hj : b ≤ j) : PlanarL chord i j l :=
  ⟨fun p hp => by have := h.1 p hp; omega, h.2⟩

/-- What `traceback` appends names pairwise different, pairwise non-crossing chords
inside the interval. -/
theorem TBOut.planar {chord : Int → Int} {is_head : Int → Bool} (N : Nat)
    (hv : ValidPairing N chord) {i j : Int} {out : List Int}
    (h : TBOut chord is_head i j out) :
    0 ≤ i → j < 2 * (N : Int) → out.Nodup ∧ PlanarL chord i j out := by
  induction h with
  | zero i j _ =>
    intro _ _
    exact ⟨List.nodup_nil, fun p hp => by simp at hp, fun p hp => by simp at hp⟩
  | nest i j out h1 h2 _ ih =>
    intro hi hj
    have hlt := opt_ne_zero_lt chord i j h1
    obtain ⟨hnd, hin, hpair⟩ := ih (by omega) (by omega)
    have hci : chord i = j := by
      have := (hv j (by omega) hj).2.2.1
      rwa [h2] at this
    generalize hx : (if is_head i = true then i else j) = x
    have hxc : (x = i ∧ chord x = j) ∨ (x = j ∧ chord x = i) := by
      rw [← hx]
      split_ifs
      · exact Or.inl ⟨rfl, hci⟩
      · exact Or.inr ⟨rfl, h2⟩
    refine ⟨List.nodup_cons.mpr ⟨fun hmem => ?_, hnd⟩, ?_, ?_⟩
    · have := hin x hmem; omega
    · intro p hp
      rcases List.mem_cons.mp hp with hpx | hp
      · rw [hpx]; omega
      · have := hin p hp; omega
    · intro p hp q hq hne
      rcases List.mem_cons.mp hp with hpx | hp <;> rcases List.mem_cons.mp hq with hqx | hq
      · exact absurd (hpx.trans hqx.symm) hne
      · have := hin q hq
        rw [hpx]
        unfold Crosses Between
        omega
      · have := hin p hp
        rw [hqx]
        unfold Crosses Between
        omega
      · exact hpair p hp q hq hne
  | take i j o1 o2 h1 h2 h3 _ _ ih1 ih2 =>
    intro hi hj
    have hlt := opt_ne_zero_lt chord i j h1
    have hk := opt_gt_inside chord i j h2 h3
    obtain ⟨hnd1, hin1, hpair1⟩ := ih1 hi (by omega)
    obtain ⟨hnd2, hin2, hpair2⟩ := ih2 (by omega) (by omega)
    have hck : chord (chord j) = j := (hv j (by omega) hj).2.2.1
    generalize hx : (if is_head j = true then j else chord j) = x
    have hxc : (x = j ∧ chord x = chord j) ∨ (x = chord j ∧ chord x = j) := by
      rw [← hx]
      split_ifs
      · exact Or.inl ⟨rfl, rfl⟩
      · exact Or.inr ⟨rfl, hck⟩
    refine ⟨List.nodup_cons.mpr ⟨fun hmem => ?_, ?_⟩, ?_, ?_⟩
    · rcases List.mem_append.mp hmem with hm | hm
      · have := hin1 x hm; omega
      · have := hin2 x hm; omega
    · refine List.Nodup.append hnd1 hnd2 ?_
      intro a ha1 ha2
      have := hin1 a ha1
      have := hin2 a ha2
      omega
    · intro p hp
      rcases List.mem_cons.mp hp with hpx | hp
      · rw [hpx]; omega
      · rcases List.mem_append.mp hp with hp | hp
        · have := hin1 p hp; omega
        · have := hin2 p hp; omega
    · intro p hp q hq hne
      have hmem : ∀ y, y ∈ x :: (o1 ++ o2) → y = x ∨
          (y ∈ o1 ∧ i ≤ y ∧ y < chord j ∧ i ≤ chord y ∧ chord y < chord j) ∨
          (y ∈ o2 ∧ chord j < y ∧ y < j ∧ chord j < chord y ∧ chord y < j) := by
        intro y hy
        rcases List.mem_cons.mp hy with hyx | hy
        · exact Or.inl hyx
        · rcases List.mem_append.mp hy with hy | hy
          · have := hin1 y hy
            exact Or.inr (Or.inl ⟨hy, by omega⟩)
          · have := hin2 y hy
            exact Or.inr (Or.inr ⟨hy, by omega⟩)
      rcases hmem p hp with hpx | ⟨hp1, hpb⟩ | ⟨hp2, hpb⟩ <;>
        rcases hmem q hq with hqx | ⟨hq1, hqb⟩ | ⟨hq2, hqb⟩
      · exact absurd (hpx.trans hqx.symm) hne
      · rw [hpx]; unfold Crosses Between; omega
      · rw [hpx]; unfold Crosses Between; omega
      · rw [hqx]; unfold Crosses Between; omega
      · exact hpair1 p hp1 q hq1 hne
      · unfold Crosses Between; omega
      · rw [hqx]; unfold Crosses Between; omega
      · unfold Crosses Between; omega
      · exact hpair2 p hp2 q hq2 hne
  | skip i j out h1 _ _ _ ih =>
    intro hi hj
    obtain ⟨hnd, hpl⟩ := ih hi (by omega)
    exact ⟨hnd, planarL_widen hpl (le_refl _) (by omega)⟩

/-- Every position `traceback` appends is the head endpoint of its chord. -/
theorem TBOut.heads {chord : Int → Int} {is_head : Int → Bool} (N : Nat)
    (hh : OneHead N chord is_head) {i j : Int} {out : List Int}
    (h : TBOut chord is_head i j out) :
    0 ≤ i → j < 2 * (N : Int) → ∀ p ∈ out, is_head p = true := by
  induction h with
  | zero i j _ => intro _ _ p hp; simp at hp
  | nest i j out h1 h2 _ ih =>
    intro hi hj p hp
    have hlt := opt_ne_zero_lt chord i j h1
    rcases List.mem_cons.mp hp with hpx | hp
    · rw [hpx]
      have := hh j (by omega) hj
      rw [h2] at this
      split_ifs with hc
      · exact hc
      · rw [this] at hc
        simpa using hc
    · exact ih (by omega) (by omega) p hp
  | take i j o1 o2 h1 h2 h3 _ _ ih1 ih2 =>
    intro hi hj p hp
    have hlt := opt_ne_zero_lt chord i j h1
    have hk := opt_gt_inside chord i j h2 h3
    rcases List.mem_cons.mp hp with hpx | hp
    · rw [hpx]
      have := hh j (by omega) hj
      split_ifs with hc
      · exact hc
      · rw [this]
        simpa using hc
    · rcases List.mem_append.mp hp with hp | hp
      · exact ih1 hi (by omega) p hp
      · exact ih2 (by omega) (by omega) p hp
  | skip i j out h1 _ _ _ ih =>
    intro hi hj p hp
    exact ih hi (by omega) p hp

/-! ### Optimality of the recurrence -/

theorem PlanarIn.restrict {chord : Int → Int} {i j a b : Int} {S T : Finset Int}
    (h : PlanarIn chord i j S) (hsub : T ⊆ S)
    (hin : ∀ p ∈ T, a ≤ p ∧ p ≤ b ∧ a ≤ chord p ∧ chord p ≤ b) : PlanarIn chord a b T :=
  ⟨hin, fun p hp q hq hne => h.2 p (hsub hp) q (hsub hq) hne⟩

theorem planar_le_opt (chord : Int → Int) (N : Nat) (hv : ValidPairing N chord) :
    ∀ (n : Nat) (i j : Int) (S : Finset Int), j - i < n → 0 ≤ i → j < 2 * (N : Int) →
      PlanarIn chord i j S → (S.card : Int) ≤ opt chord i j := by
  intro n
  induction n with
  | zero =>
    intro i j S hn hi hj hS
    have hempty : S = ∅ := by
      apply Finset.eq_empty_of_forall_not_mem
      intro p hp
      have := hS.1 p hp
      omega
    rw [hempty]
    simpa using opt_nonneg_all chord i j
  | succ n ih =>
    intro i j S hn hi hj hS
    by_cases hji : j ≤ i
    · have hempty : S = ∅ := by
        apply Finset.eq_empty_of_forall_not_mem
        intro p hp
        have h1 := hS.1 p hp
        have h2 := (hv p (by omega) (by omega)).2.2.2
        omega
      rw [hempty]
      simpa using opt_nonneg_all chord i j
    · have hlt : i < j := not_le.mp hji
      obtain ⟨hk0, hk1, hck, hkj⟩ := hv j (by omega) hj
      -- positions of `S` other than the representative of the chord through `j`
      have hfree : ∀ r : Int, (r = j ∨ r = chord j) → ∀ q ∈ S, (r ∈ S → q ≠ r) →
          (r ∉ S → j ∉ S ∧ chord j ∉ S) →
          q ≠ j ∧ q ≠ chord j ∧ chord q ≠ j ∧ chord q ≠ chord j := by
        intro r hr q hq hqr hnr
        have hq1 := hS.1 q hq
        obtain ⟨_, _, hcq, _⟩ := hv q (by omega) (by omega)
        by_cases hrS : r ∈ S
        · have hne := hqr hrS
          have p1 := hS.2 q hq r hrS hne
          have p2 := hS.2 r hrS q hq (Ne.symm hne)
          have hcr : chord r = j ∨ chord r = chord j := by
            rcases hr with rfl | rfl
            · exact Or.inr rfl
            · exact Or.inl hck
          have hrr : (r = j ∧ chord r = chord j) ∨ (r = chord j ∧ chord r = j) := by
            rcases hr with rfl | rfl
            · exact Or.inl ⟨rfl, rfl⟩
            · exact Or.inr ⟨rfl, hck⟩
          have hcc : chord q ≠ chord r := by
            intro hh
            apply hne
            have h3 := (hv r (by have := hS.1 r hrS; omega) (by have := hS.1 r hrS; omega)).2.2.1
            rw [← hcq, hh, h3]
          have := p1.1
          have := p2.1
          omega
        · obtain ⟨hnj, hnk⟩ := hnr hrS
          refine ⟨fun h => hnj (h ▸ hq), fun h => hnk (h ▸ hq), fun h => ?_, fun h => ?_⟩
          · apply hnk; rw [← h, hcq]; exact hq
          · apply hnj
            have : q = j := by rw [← hcq, h, hck]
            rw [← this]; exact hq
      by_cases hmem : j ∈ S ∨ chord j ∈ S
      · -- the chord through `j` belongs to `S`
        obtain ⟨r, hrS, hr⟩ : ∃ r, r ∈ S ∧ (r = j ∨ r = chord j) := by
          rcases hmem with h | h
          · exact ⟨j, h, Or.inl rfl⟩
          · exact ⟨chord j, h, Or.inr rfl⟩
        have hrin := hS.1 r hrS
        have hkin : i ≤ chord j ∧ chord j < j := by
          rcases hr with rfl | rfl
          · omega
          · rw [hck] at hrin; omega
        have hcard : ((S.erase r).card : Int) + 1 = (S.card : Int) := by
          have := Finset.card_erase_add_one hrS
          omega
        have hq : ∀ q ∈ S.erase r, q ≠ j ∧ q ≠ chord j ∧ chord q ≠ j ∧ chord q ≠ chord j ∧
            i ≤ q ∧ q ≤ j ∧ i ≤ chord q ∧ chord q ≤ j ∧
            ¬ Crosses r (chord r) q (chord q) := by
          intro q hq
          have hqS := Finset.mem_of_mem_erase hq
          have hqr := Finset.ne_of_mem_erase hq
          have h1 := hfree r hr q hqS (fun _ => hqr) (fun h => absurd hrS h)
          have h2 := hS.1 q hqS
          exact ⟨h1.1, h1.2.1, h1.2.2.1, h1.2.2.2, h2.1, h2.2.1, h2.2.2.1, h2.2.2.2,
            (hS.2 r hrS q hqS (Ne.symm hqr)).2⟩
        have hrr : (r = j ∧ chord r = chord j) ∨ (r = chord j ∧ chord r = j) := by
          rcases hr with rfl | rfl
          · exact Or.inl ⟨rfl, rfl⟩
          · exact Or.inr ⟨rfl, hck⟩
        by_cases hk : chord j = i
        · have hP : PlanarIn chord (i + 1) (j - 1) (S.erase r) :=
            hS.restrict (Finset.erase_subset _ _) (fun q hq0 => by
              have := hq q hq0
              omega)
          have := ih (i + 1) (j - 1) _ (by omega) (by omega) (by omega) hP
          rw [opt_nest chord i j hlt hk]
          omega
        · have hki : i < chord j := by omega
          have hP1 : PlanarIn chord i (chord j - 1) ((S.erase r).filter (fun q => q < chord j)) :=
            hS.restrict ((Finset.filter_subset _ _).trans (Finset.erase_subset _ _))
              (fun q hq0 => by
                have hq1 := Finset.mem_filter.mp hq0
                have := hq q hq1.1
                have h3 := this.2.2.2.2.2.2.2.2
                have h4 := hq1.2
                unfold Crosses Between at h3
                omega)
          have hP2 : PlanarIn chord (chord j + 1) (j - 1)
              ((S.erase r).filter (fun q => ¬ q < chord j)) :=
            hS.restrict ((Finset.filter_subset _ _).trans (Finset.erase_subset _ _))
              (fun q hq0 => by
                have hq1 := Finset.mem_filter.mp hq0
                have := hq q hq1.1
                have h3 := this.2.2.2.2.2.2.2.2
                have h4 := hq1.2
                unfold Crosses Between at h3
                omega)
          have c1 := ih i (chord j - 1) _ (by omega) hi (by omega) hP1
          have c2 := ih (chord j + 1) (j - 1) _ (by omega) (by omega) (by omega) hP2
          have hsum := Finset.filter_card_add_filter_neg_card_eq_card
            (s := S.erase r) (fun q => q < chord j)
          rw [opt_inside chord i j hlt hk hki hkin.2]
          have := le_max_right (opt chord i (j - 1))
            (opt chord i (chord j - 1) + opt chord (chord j + 1) (j - 1) + 1)
          omega
      · -- the chord through `j` does not belong to `S`
        have hq : ∀ q ∈ S, q ≠ j ∧ q ≠ chord j ∧ chord q ≠ j ∧ chord q ≠ chord j ∧
            i ≤ q ∧ q ≤ j ∧ i ≤ chord q ∧ chord q ≤ j := by
          intro q hqS
          have h1 := hfree j (Or.inl rfl) q hqS (fun h => absurd (Or.inl h) hmem)
            (fun _ => ⟨fun h => hmem (Or.inl h), fun h => hmem (Or.inr h)⟩)
          have h2 := hS.1 q hqS
          exact ⟨h1.1, h1.2.1, h1.2.2.1, h1.2.2.2, h2.1, h2.2.1, h2.2.2.1, h2.2.2.2⟩
        by_cases hk : chord j = i
        · have hP : PlanarIn chord (i + 1) (j - 1) S :=
            hS.restrict (Finset.Subset.refl _) (fun q hq0 => by
              have := hq q hq0
              omega)
          have := ih (i + 1) (j - 1) _ (by omega) (by omega) (by omega) hP
          rw [opt_nest chord i j hlt hk]
          omega
        · have hP : PlanarIn chord i (j - 1) S :=
            hS.restrict (Finset.Subset.refl _) (fun q hq0 => by
              have := hq q hq0
              omega)
          have c := ih i (j - 1) _ (by omega) hi (by omega) hP
          by_cases hin : i < chord j ∧ chord j < j
          · rw [opt_inside chord i j hlt hk hin.1 hin.2]
            have := le_max_left (opt chord i (j - 1))
              (opt chord i (chord j - 1) + opt chord (chord j + 1) (j - 1) + 1)
            omega
          · rw [opt_outside chord i j hlt hk hin]
            exact c

theorem tbout_exists (chord : Int → Int) (is_head : Int → Bool) :
    ∀ (n : Nat) (i j : Int), j - i < n → ∃ out, TBOut chord is_head i j out := by
  intro n
  induction n with
  | zero => intro i j h; exact ⟨[], TBOut.zero i j (opt_base chord i j (by omega))⟩
  | succ n ih =>
    intro i j hn
    by_cases hz : opt chord i j = 0
    · exact ⟨[], TBOut.zero i j hz⟩
    · have hlt := opt_ne_zero_lt chord i j hz
      by_cases hk : chord j = i
      · obtain ⟨out, hout⟩ := ih (i + 1) (j - 1) (by omega)
        exact ⟨_, TBOut.nest i j out hz hk hout⟩
      · by_cases hgt : opt chord i j > opt chord i (j - 1)
        · have hin := opt_gt_inside chord i j hk hgt
          obtain ⟨o1, ho1⟩ := ih i (chord j - 1) (by omega)
          obtain ⟨o2, ho2⟩ := ih (chord j + 1) (j - 1) (by omega)
          exact ⟨_, TBOut.take i j o1 o2 hz hk hgt ho1 ho2⟩
        · obtain ⟨out, hout⟩ := ih i (j - 1) (by omega)
          exact ⟨out, TBOut.skip i j out hz hk hgt hout⟩

theorem planarL_toFinset {chord : Int → Int} {i j : Int} {l : List Int}
    (h : PlanarL chord i j l) : PlanarIn chord i j l.toFinset :=
  ⟨fun p hp => h.1 p (List.mem_toFinset.mp hp),
   fun p hp q hq hne => h.2 p (List.mem_toFinset.mp hp) q (List.mem_toFinset.mp hq) hne⟩

/-- The value of the recurrence is the maximum number of pairwise non-crossing chords
inside the interval. -/
theorem opt_isMaxPlanar (chord : Int → Int) (N : Nat) (hv : ValidPairing N chord) (i j : Int)
    (hi : 0 ≤ i) (hj : j < 2 * (N : Int)) : IsMaxPlanar chord i j (opt chord i j) := by
  constructor
  · obtain ⟨out, hout⟩ := tbout_exists chord (fun _ => true) (j - i + 1).toNat i j (by omega)
    obtain ⟨hnd, hpl⟩ := hout.planar N hv hi hj
    refine ⟨out.toFinset, planarL_toFinset hpl, ?_⟩
    rw [List.toFinset_card_of_nodup hnd]
    exact hout.length
  · intro S hS
    exact planar_le_opt chord N hv (j - i + 1).toNat i j S (by omega) hi hj hS

theorem isMaxPlanar_unique {chord : Int → Int} {i j m m' : Int}
    (h : IsMaxPlanar chord i j m) (h' : IsMaxPlanar chord i j m') : m = m' := by
  obtain ⟨⟨S, hS, hc⟩, hub⟩ := h
  obtain ⟨⟨S', hS', hc'⟩, hub'⟩ := h'
  have := hub S' hS'
  have := hub' S hS
  omega

/-! ### Tables produced by the two solvers -/

theorem bu_filled (chord : Int → Int) (N : Nat) (M : Table) (sub : Subproblem)
    (hz : ZeroTriangle N M) (hg : GuardZero N M) (i j : Int) (hi : 0 ≤ i)
    (hj : j < 2 * (N : Int)) : Filled chord i j (MPS_BU chord N M sub).1 :=
  ⟨fun a b ha hab hb => bu_table chord N M sub hz hg a b (by omega) hab (by omega),
   fun a ha hb => bu_guard chord N M sub hz hg a (by omega) (by omega)⟩

theorem bu_known (chord : Int → Int) (N : Nat) (M : Table) (sub : Subproblem)
    (hz : ZeroTriangle N M) (hg : GuardZero N M) (i j : Int) (hi : 0 ≤ i) (hij : i ≤ j)
    (hj : j < 2 * (N : Int)) : Known chord (MPS_BU chord N M sub).1 i j :=
  known_of_filled chord _ (j - i + 1).toNat i j (by omega)
    (bu_filled chord N M sub hz hg i j hi hj) hij

theorem regInv_init (chord : Int → Int) (N : Nat) (M : Table) (hs : SentinelTriangle N M)
    (hg : GuardZero N M) : RegInv chord 0 (2 * (N : Int) - 1) M :=
  ⟨fun a b ha hab hb => Or.inl (hs a (b - a) ha (by omega) (by omega)),
   fun a ha hb => hg a (by omega) (by omega)⟩

/-- The root call of `MPS_TD` on an all-sentinel table returns the value of the recurrence
and leaves a table that is known at the root and satisfies the memo invariant. -/
theorem td_root (chord : Int → Int) (N : Nat) (M : Table) (sub : Subproblem) (hN : 1 ≤ N)
    (hs : SentinelTriangle N M) (hg : GuardZero N M) (fuel : Nat) (hf : 2 * N < fuel) :
    ∃ T s, MPS_TD chord fuel 0 (2 * (N : Int) - 1) M sub
        = some (opt chord 0 (2 * (N : Int) - 1), T, s) ∧
      Known chord T 0 (2 * (N : Int) - 1) ∧ RegInv chord 0 (2 * (N : Int) - 1) T ∧
      GuardZero N T := by
  have hinv := regInv_init chord N M hs hg
  obtain ⟨T, s, h1, h2, h3⟩ := td_main chord fuel fuel 0 (2 * (N : Int) - 1) M sub
    (by omega) (le_refl _) (by omega) (fun h => by omega) hinv
  refine ⟨T, s, h1, h3, hinv.step h2, ?_⟩
  intro r hr hr2
  rw [h2.stableOn r (r - 1) r (-1) (le_refl _) (by omega) (by rw [hg r hr hr2]; omega)]
  exact hg r hr hr2

/-! ### Concrete inputs -/

theorem chord1_valid : ValidPairing 1 chord1 := by
  intro p h0 h1
  have hp : p = 0 ∨ p = 1 := by omega
  rcases hp with rfl | rfl <;> simp [chord1]

theorem head1_oneHead : OneHead 1 chord1 head1 := by
  intro p h0 h1
  have hp : p = 0 ∨ p = 1 := by omega
  rcases hp with rfl | rfl <;> simp [chord1, head1]

theorem zeroTable_zero (N : Nat) : ZeroTriangle N zeroTable := fun _ _ _ _ _ => rfl

theorem zeroTable_guard (N : Nat) : GuardZero N zeroTable := fun _ _ _ => rfl

theorem sentinelTable_sentinel (N : Nat) : SentinelTriangle N (sentinelTable N) := by
  intro r c _ hc hrc
  simp [sentinelTable, hc, hrc]

theorem sentinelTable_guard (N : Nat) : GuardZero N (sentinelTable N) := by
  intro r _ _
  simp [sentinelTable]

/-! ### The solvers and the traceback when the words at offset `-1` read `0` -/

/-- Where the words at offset `-1` read `0` (`GuardZero`, which the program does not
establish): after `MPS_BU` on a zero-initialised table (guard words reading `0`), for every
`0 ≤ i ≤ j ≤ 2N-1` the cell `M[i][j-i]` is the maximum cardinality of a set of pairwise
non-crossing chords with both endpoints in `[i, j]`; in particular `M[0][2N-1]` is the size
of a maximum planar subset of all chords. -/
theorem mps_bu_optimal (chord : Int → Int) (N : Nat) (M : Table) (sub : Subproblem)
    (hN : 1 ≤ N) (hv : ValidPairing N chord) (hz : ZeroTriangle N M) (hg : GuardZero N M) :
    (∀ i j : Int, 0 ≤ i → i ≤ j → j < 2 * (N : Int) →
      IsMaxPlanar chord i j ((MPS_BU chord N M sub).1 i (j - i))) ∧
    IsMaxPlanar chord 0 (2 * (N : Int) - 1) ((MPS_BU chord N M sub).1 0 (2 * (N : Int) - 1)) := by
  have key : ∀ i j : Int, 0 ≤ i → i ≤ j → j < 2 * (N : Int) →
      IsMaxPlanar chord i j ((MPS_BU chord N M sub).1 i (j - i)) := by
    intro i j hi hij hj
    rw [bu_table chord N M sub hz hg i j hi hij hj]
    exact opt_isMaxPlanar chord N hv i j hi hj
  refine ⟨key, ?_⟩
  have := key 0 (2 * (N : Int) - 1) (le_refl _) (by omega) (by omega)
  rwa [show (2 * (N : Int) - 1 - 0) = 2 * (N : Int) - 1 by omega] at this

theorem mps_bu_optimal_witness :
    IsMaxPlanar chord1 0 (2 * ((1 : Nat) : Int) - 1)
      ((MPS_BU chord1 1 zeroTable emptySub).1 0 (2 * ((1 : Nat) : Int) - 1)) :=
  (mps_bu_optimal chord1 1 zeroTable emptySub (le_refl _) chord1_valid (zeroTable_zero 1)
    (zeroTable_guard 1)).2

/-- Where the words at offset `-1` read `0` (`GuardZero`, which the program does not
establish): the value returned by `MPS_TD(0, 2N-1)` on an all-sentinel table equals the value
`MPS_BU` leaves in `M[0][2N-1]` on a zero-initialised table. -/
theorem mps_td_eq_bu (chord : Int → Int) (N : Nat) (Mtd Mbu : Table) (std sbu : Subproblem)
    (hN : 1 ≤ N) (hs : SentinelTriangle N Mtd) (hgt : GuardZero N Mtd)
    (hz : ZeroTriangle N Mbu) (hgb : GuardZero N Mbu) (fuel : Nat) (hf : 2 * N < fuel) :
    ∃ T s, MPS_TD chord fuel 0 (2 * (N : Int) - 1) Mtd std
      = some ((MPS_BU chord N Mbu sbu).1 0 (2 * (N : Int) - 1), T, s) := by
  obtain ⟨T, s, h, _⟩ := td_root chord N Mtd std hN hs hgt fuel hf
  refine ⟨T, s, ?_⟩
  have := bu_table chord N Mbu sbu hz hgb 0 (2 * (N : Int) - 1) (le_refl _) (by omega) (by omega)
  rw [show (2 * (N : Int) - 1 - 0) = 2 * (N : Int) - 1 by omega] at this
  rw [this, h]

theorem mps_td_eq_bu_witness :
    ∃ T s, MPS_TD chord1 3 0 (2 * ((1 : Nat) : Int) - 1) (sentinelTable 1) emptySub
      = some ((MPS_BU chord1 1 zeroTable emptySub).1 0 (2 * ((1 : Nat) : Int) - 1), T, s) :=
  mps_td_eq_bu chord1 1 (sentinelTable 1) zeroTable emptySub emptySub (le_refl _)
    (sentinelTable_sentinel 1) (sentinelTable_guard 1) (zeroTable_zero 1) (zeroTable_guard 1)
    3 (by decide)

/-- Where the words at offset `-1` read `0` (`GuardZero`, which the program does not
establish): over the table filled by `MPS_BU`, `traceback(i, j)` appends exactly `M[i][j-i]`
positions to the solution buffer, for all `0 ≤ i ≤ j ≤ 2N-1`; in particular
`traceback(0, 2N-1)` started on the empty buffer ends with `M[0][2N-1]` entries. -/
theorem traceback_count (chord : Int → Int) (is_head : Int → Bool) (N : Nat) (M : Table)
    (sub : Subproblem) (hN : 1 ≤ N) (hz : ZeroTriangle N M) (hg : GuardZero N M)
    (fuel : Nat) (hf : 2 * N < fuel) :
    (∀ (i j : Int) (sol : List Int), 0 ≤ i → i ≤ j → j < 2 * (N : Int) →
      ∃ out, traceback (MPS_BU chord N M sub).1 chord is_head fuel i j sol = some (sol ++ out) ∧
        (out.length : Int) = (MPS_BU chord N M sub).1 i (j - i)) ∧
    (∃ out, traceback (MPS_BU chord N M sub).1 chord is_head fuel 0 (2 * (N : Int) - 1) []
        = some out ∧
      (out.length : Int) = (MPS_BU chord N M sub).1 0 (2 * (N : Int) - 1)) := by
  have key : ∀ (i j : Int) (sol : List Int), 0 ≤ i → i ≤ j → j < 2 * (N : Int) →
      ∃ out, traceback (MPS_BU chord N M sub).1 chord is_head fuel i j sol = some (sol ++ out) ∧
        (out.length : Int) = (MPS_BU chord N M sub).1 i (j - i) := by
    intro i j sol hi hij hj
    obtain ⟨out, hout, hrun⟩ := tb_of_known chord is_head _ i j
      (bu_known chord N M sub hz hg i j hi hij hj)
    refine ⟨out, hrun fuel sol (by omega) (by omega), ?_⟩
    rw [bu_table chord N M sub hz hg i j hi hij hj]
    exact hout.length
  refine ⟨key, ?_⟩
  obtain ⟨out, h1, h2⟩ := key 0 (2 * (N : Int) - 1) [] (le_refl _) (by omega) (by omega)
  refine ⟨out, by simpa using h1, ?_⟩
  rw [h2, show (2 * (N : Int) - 1 - 0) = 2 * (N : Int) - 1 by omega]

theorem traceback_count_witness :
    ∃ out, traceback (MPS_BU chord1 1 zeroTable emptySub).1 chord1 head1 3 0
        (2 * ((1 : Nat) : Int) - 1) [] = some out ∧
      (out.length : Int) = (MPS_BU chord1 1 zeroTable emptySub).1 0 (2 * ((1 : Nat) : Int) - 1) :=
  (traceback_count chord1 head1 1 zeroTable emptySub (le_refl _) (zeroTable_zero 1)
    (zeroTable_guard 1) 3 (by decide)).2

/-- Over a table that satisfies the memo invariant (each cell of the triangle is the
sentinel or known), `traceback(i, j)` returns for every interval of the triangle, and each
position it appends is a head whose chord lies inside `[i, j]`. -/
theorem tb_regInv (chord : Int → Int) (is_head : Int → Bool) (N : Nat) (T : Table)
    (hv : ValidPairing N chord) (hh : OneHead N chord is_head)
    (hinv : RegInv chord 0 (2 * (N : Int) - 1) T) (hg : GuardZero N T) :
    ∀ (n : Nat) (i j : Int), j - i + 1 < n → 0 ≤ i → i < 2 * (N : Int) → i ≤ j + 1 →
      j < 2 * (N : Int) → ∀ (fuel : Nat) (sol : List Int), n ≤ fuel →
      ∃ out, traceback T chord is_head fuel i j sol = some (sol ++ out) ∧
        ∀ p ∈ out, is_head p = true ∧ i ≤ p ∧ p ≤ j ∧ i ≤ chord p ∧ chord p ≤ j := by
  intro n
  induction n with
  | zero => intro i j h _ _ h2; omega
  | succ n ih =>
    intro i j hn hi hi2 hij hj fuel sol hf
    obtain ⟨f, rfl⟩ : ∃ f, fuel = f + 1 := ⟨fuel - 1, by omega⟩
    by_cases hz : T i (j - i) = 0
    · exact ⟨[], by rw [tb_unfold_zero T chord is_head f i j sol hz, List.append_nil],
        fun p hp => by simp at hp⟩
    · have hij2 : i ≤ j := by
        by_contra hc
        apply hz
        rw [show j - i = -1 by omega]
        exact hg i hi hi2
      rcases hinv.1 i j hi hij2 (by omega) with hsent | hK
      · by_cases hk : chord j = i
        · obtain ⟨_, _, hck, hne⟩ := hv j (by omega) hj
          have hci : chord i = j := by rw [← hk, hck]
          have hlt : i < j := by
            rcases lt_or_eq_of_le hij2 with h | h
            · exact h
            · exfalso; apply hne; rw [hk, h]
          obtain ⟨out, hrun, hprop⟩ := ih (i + 1) (j - 1) (by omega) (by omega) (by omega)
            (by omega) (by omega) f (if is_head i = true then sol ++ [i] else sol ++ [j])
            (by omega)
          refine ⟨(if is_head i = true then i else j) :: out, ?_, ?_⟩
          · rw [tb_unfold_nest T chord is_head f i j sol hz hk, hrun]
            by_cases hc : is_head i = true <;> simp [hc]
          · intro p hp
            rcases List.mem_cons.mp hp with hpx | hp
            · rw [hpx]
              have h1 := hh j (by omega) hj
              rw [hk] at h1
              split_ifs with hc
              · exact ⟨hc, by omega, by omega, by omega, by omega⟩
              · refine ⟨?_, by omega, by omega, by omega, by omega⟩
                rw [h1] at hc
                simpa using hc
            · have := hprop p hp
              exact ⟨this.1, by omega, by omega, by omega, by omega⟩
        · have hcmp : ¬ T i (j - i) > T i (j - 1 - i) := by
            rw [hsent]
            by_cases hji : j = i
            · rw [show j - 1 - i = -1 by omega, hg i hi hi2]; omega
            · rcases hinv.1 i (j - 1) hi (by omega) (by omega) with h | h
              · rw [h]; omega
              · rw [h.val]
                have := opt_nonneg_all chord i (j - 1)
                omega
          obtain ⟨out, hrun, hprop⟩ := ih i (j - 1) (by omega) hi hi2 (by omega) (by omega)
            f sol (by omega)
          refine ⟨out, ?_, ?_⟩
          · rw [tb_unfold_skip T chord is_head f i j sol hz hk hcmp, hrun]
          · intro p hp
            have := hprop p hp
            exact ⟨this.1, by omega, by omega, by omega, by omega⟩
      · obtain ⟨out, hout, hrun⟩ := tb_of_known chord is_head T i j hK
        refine ⟨out, hrun (f + 1) sol (by omega) (by omega), ?_⟩
        intro p hp
        exact ⟨hout.heads N hh hi hj p hp, (hout.planar N hv hi hj).2.1 p hp⟩

/-- Where the words at offset `-1` read `0` (`GuardZero`, which the program does not
establish): the positions `traceback(0, 2N-1)` emits, over the table filled by `MPS_BU` and over
the table left by `MPS_TD(0, 2N-1)`, are pairwise different and name pairwise different,
pairwise non-crossing chords. -/
theorem traceback_planar (chord : Int → Int) (is_head : Int → Bool) (N : Nat)
    (Mbu Mtd : Table) (sbu std : Subproblem) (hN : 1 ≤ N) (hv : ValidPairing N chord)
    (hz : ZeroTriangle N Mbu) (hgb : GuardZero N Mbu)
    (hs : SentinelTriangle N Mtd) (hgt : GuardZero N Mtd) (fuel : Nat) (hf : 2 * N < fuel) :
    (∃ out, traceback (MPS_BU chord N Mbu sbu).1 chord is_head fuel 0 (2 * (N : Int) - 1) []
        = some out ∧ out.Nodup ∧
      ∀ p ∈ out, ∀ q ∈ out, p ≠ q → chord p ≠ q ∧ ¬ Crosses p (chord p) q (chord q)) ∧
    (∃ v T s out, MPS_TD chord fuel 0 (2 * (N : Int) - 1) Mtd std = some (v, T, s) ∧
      traceback T chord is_head fuel 0 (2 * (N : Int) - 1) [] = some out ∧ out.Nodup ∧
      ∀ p ∈ out, ∀ q ∈ out, p ≠ q → chord p ≠ q ∧ ¬ Crosses p (chord p) q (chord q)) := by
  constructor
  · obtain ⟨out, hout, hrun⟩ := tb_of_known chord is_head _ 0 (2 * (N : Int) - 1)
      (bu_known chord N Mbu sbu hz hgb 0 (2 * (N : Int) - 1) (le_refl _) (by omega) (by omega))
    obtain ⟨hnd, hpl⟩ := hout.planar N hv (le_refl _) (by omega)
    exact ⟨out, by simpa using hrun fuel [] (by omega) (by omega), hnd, hpl.2⟩
  · obtain ⟨T, s, h, hK, _⟩ := td_root chord N Mtd std hN hs hgt fuel hf
    obtain ⟨out, hout, hrun⟩ := tb_of_known chord is_head T 0 (2 * (N : Int) - 1) hK
    obtain ⟨hnd, hpl⟩ := hout.planar N hv (le_refl _) (by omega)
    exact ⟨_, T, s, out, h, by simpa using hrun fuel [] (by omega) (by omega), hnd, hpl.2⟩

theorem traceback_planar_witness :
    ∃ out, traceback (MPS_BU chord1 1 zeroTable emptySub).1 chord1 head1 3 0
        (2 * ((1 : Nat) : Int) - 1) [] = some out ∧ out.Nodup ∧
      ∀ p ∈ out, ∀ q ∈ out, p ≠ q → chord1 p ≠ q ∧ ¬ Crosses p (chord1 p) q (chord1 q) :=
  (traceback_planar chord1 head1 1 zeroTable (sentinelTable 1) emptySub emptySub (le_refl _)
    chord1_valid (zeroTable_zero 1) (zeroTable_guard 1) (sentinelTable_sentinel 1)
    (sentinelTable_guard 1) 3 (by decide)).1

/-- Where the words at offset `-1` read `0` (`GuardZero`, which the program does not
establish): for a valid pairing with exactly one head per chord and all `0 ≤ i ≤ j ≤ 2N-1`,
every position `p` that `traceback(i, j)` emits, over the table filled by `MPS_BU` and over
the table left by `MPS_TD(0, 2N-1)`, has `is_head[p]` set, `i ≤ p ≤ j` and
`i ≤ chord[p] ≤ j`. -/
theorem traceback_heads (chord : Int → Int) (is_head : Int → Bool) (N : Nat)
    (Mbu Mtd : Table) (sbu std : Subproblem) (hN : 1 ≤ N) (hv : ValidPairing N chord)
    (hh : OneHead N chord is_head) (hz : ZeroTriangle N Mbu) (hgb : GuardZero N Mbu)
    (hs : SentinelTriangle N Mtd) (hgt : GuardZero N Mtd) (fuel : Nat) (hf : 2 * N < fuel) :
    (∀ i j : Int, 0 ≤ i → i ≤ j → j < 2 * (N : Int) →
      ∃ out, traceback (MPS_BU chord N Mbu sbu).1 chord is_head fuel i j [] = some out ∧
        ∀ p ∈ out, is_head p = true ∧ i ≤ p ∧ p ≤ j ∧ i ≤ chord p ∧ chord p ≤ j) ∧
    (∃ v T s, MPS_TD chord fuel 0 (2 * (N : Int) - 1) Mtd std = some (v, T, s) ∧
      ∀ i j : Int, 0 ≤ i → i ≤ j → j < 2 * (N : Int) →
        ∃ out, traceback T chord is_head fuel i j [] = some out ∧
          ∀ p ∈ out, is_head p = true ∧ i ≤ p ∧ p ≤ j ∧ i ≤ chord p ∧ chord p ≤ j) := by
  constructor
  · intro i j hi hij hj
    obtain ⟨out, hout, hrun⟩ := tb_of_known chord is_head _ i j
      (bu_known chord N Mbu sbu hz hgb i j hi hij hj)
    refine ⟨out, by simpa using hrun fuel [] (by omega) (by omega), ?_⟩
    intro p hp
    exact ⟨hout.heads N hh hi hj p hp, (hout.planar N hv hi hj).2.1 p hp⟩
  · obtain ⟨T, s, h, _, hinv, hg⟩ := td_root chord N Mtd std hN hs hgt fuel hf
    refine ⟨_, T, s, h, ?_⟩
    intro i j hi hij hj
    obtain ⟨out, hrun, hprop⟩ := tb_regInv chord is_head N T hv hh hinv hg fuel i j
      (by omega) hi (by omega) (by omega) hj fuel [] (le_refl _)
    exact ⟨out, by simpa using hrun, hprop⟩

theorem traceback_heads_witness :
    ∃ out, traceback (MPS_BU chord1 1 zeroTable emptySub).1 chord1 head1 3 0 1 [] = some out ∧
      ∀ p ∈ out, head1 p = true ∧ 0 ≤ p ∧ p ≤ 1 ∧ 0 ≤ chord1 p ∧ chord1 p ≤ 1 :=
  (traceback_heads chord1 head1 1 zeroTable (sentinelTable 1) emptySub emptySub (le_refl _)
    chord1_valid head1_oneHead (zeroTable_zero 1) (zeroTable_guard 1)
    (sentinelTable_sentinel 1) (sentinelTable_guard 1) 3 (by decide)).1 0 1 (le_refl _)
    (by decide) (by decide)

theorem planarIn_widen {chord : Int → Int} {i j a b : Int} {S : Finset Int}
    (h : PlanarIn chord a b S) (hi : i ≤ a) (hj : b ≤ j) : PlanarIn chord i j S :=
  ⟨fun p hp => by have := h.1 p hp; omega, h.2⟩

theorem opt_mono (chord : Int → Int) (N : Nat) (hv : ValidPairing N chord) (i j a b : Int)
    (ha : 0 ≤ a) (hai : a ≤ i) (hjb : j ≤ b) (hb : b < 2 * (N : Int)) :
    opt chord i j ≤ opt chord a b := by
  obtain ⟨⟨S, hS, hc⟩, _⟩ := opt_isMaxPlanar chord N hv i j (by omega) (by omega)
  have := (opt_isMaxPlanar chord N hv a b ha hb).2 S (planarIn_widen hS hai hjb)
  omega

/-- Where the words at offset `-1` read `0` (`GuardZero`, which the program does not
establish): the table filled by `MPS_BU` is non-decreasing in `j` for fixed `i` and
non-increasing in `i` for fixed `j`. -/
theorem bu_monotone (chord : Int → Int) (N : Nat) (M : Table) (sub : Subproblem)
    (hv : ValidPairing N chord) (hz : ZeroTriangle N M) (hg : GuardZero N M) :
    (∀ i j : Int, 0 ≤ i → i ≤ j → j < 2 * (N : Int) - 1 →
      (MPS_BU chord N M sub).1 i (j - i) ≤ (MPS_BU chord N M sub).1 i (j + 1 - i)) ∧
    (∀ i j : Int, 0 ≤ i → i < j → j ≤ 2 * (N : Int) - 1 →
      (MPS_BU chord N M sub).1 (i + 1) (j - (i + 1)) ≤ (MPS_BU chord N M sub).1 i (j - i)) := by
  constructor
  · intro i j hi hij hj
    rw [bu_table chord N M sub hz hg i j hi hij (by omega),
      bu_table chord N M sub hz hg i (j + 1) hi (by omega) (by omega)]
    exact opt_mono chord N hv i j i (j + 1) hi (le_refl _) (by omega) (by omega)
  · intro i j hi hij hj
    rw [bu_table chord N M sub hz hg (i + 1) j (by omega) (by omega) (by omega),
      bu_table chord N M sub hz hg i j hi (by omega) (by omega)]
    exact opt_mono chord N hv (i + 1) j i j hi (by omega) (le_refl _) (by omega)

theorem bu_monotone_witness :
    (MPS_BU chord1 1 zeroTable emptySub).1 (0 + 1) (1 - (0 + 1))
      ≤ (MPS_BU chord1 1 zeroTable emptySub).1 0 (1 - 0) :=
  (bu_monotone chord1 1 zeroTable emptySub chord1_valid (zeroTable_zero 1)
    (zeroTable_guard 1)).2 0 1 (le_refl _) (by decide) (by decide)

/-- Where the words at offset `-1` read `0` (`GuardZero`, which the program does not
establish): after `MPS_BU` on a zero-initialised table, for all `0 ≤ i < j ≤ 2N-1` with
`k = chord[j]`: if `k = i` then `M(i,j) = M(i+1,j-1) + 1`; else if `i < k < j` then
`M(i,j) = max(M(i,j-1), 1 + M(i,k-1) + M(k+1,j-1))`; otherwise `M(i,j) = M(i,j-1)`, where
`M(i',j')` denotes `0` whenever `j' ≤ i'`; and the words the code reads for such intervals
(offsets `0` and `-1`) do hold `0`. -/
theorem bu_transition (chord : Int → Int) (N : Nat) (M : Table) (sub : Subproblem)
    (hz : ZeroTriangle N M) (hg : GuardZero N M) :
    (∀ i j : Int, 0 ≤ i → i < j → j ≤ 2 * (N : Int) - 1 →
      (chord j = i →
        (MPS_BU chord N M sub).1 i (j - i)
          = cellVal (MPS_BU chord N M sub).1 (i + 1) (j - 1) + 1) ∧
      (chord j ≠ i → i < chord j ∧ chord j < j →
        (MPS_BU chord N M sub).1 i (j - i)
          = max (cellVal (MPS_BU chord N M sub).1 i (j - 1))
              (1 + cellVal (MPS_BU chord N M sub).1 i (chord j - 1)
                + cellVal (MPS_BU chord N M sub).1 (chord j + 1) (j - 1))) ∧
      (chord j ≠ i → ¬ (i < chord j ∧ chord j < j) →
        (MPS_BU chord N M sub).1 i (j - i) = cellVal (MPS_BU chord N M sub).1 i (j - 1))) ∧
    (∀ a b : Int, 0 ≤ a → a < 2 * (N : Int) → a ≤ b + 1 → b < 2 * (N : Int) →
      (MPS_BU chord N M sub).1 a (b - a) = cellVal (MPS_BU chord N M sub).1 a b) := by
  have hcell : ∀ a b : Int, 0 ≤ a → a < 2 * (N : Int) → a ≤ b + 1 → b < 2 * (N : Int) →
      cellVal (MPS_BU chord N M sub).1 a b = opt chord a b := by
    intro a b ha ha2 hab hb
    unfold cellVal
    split_ifs with h
    · rw [opt_base chord a b h]
    · exact bu_table chord N M sub hz hg a b ha (by omega) hb
  have hraw : ∀ a b : Int, 0 ≤ a → a < 2 * (N : Int) → a ≤ b + 1 → b < 2 * (N : Int) →
      (MPS_BU chord N M sub).1 a (b - a) = opt chord a b := by
    intro a b ha ha2 hab hb
    by_cases h : a ≤ b
    · exact bu_table chord N M sub hz hg a b ha h hb
    · rw [show b - a = -1 by omega, bu_guard chord N M sub hz hg a ha ha2,
        opt_base chord a b (by omega)]
  refine ⟨?_, fun a b ha ha2 hab hb => by rw [hraw a b ha ha2 hab hb, hcell a b ha ha2 hab hb]⟩
  intro i j hi hij hj
  have e0 := bu_table chord N M sub hz hg i j hi (by omega) (by omega)
  refine ⟨fun hk => ?_, fun hk hin => ?_, fun hk hout => ?_⟩
  · rw [e0, hcell (i + 1) (j - 1) (by omega) (by omega) (by omega) (by omega),
      opt_nest chord i j hij hk]
  · rw [e0, hcell i (j - 1) hi (by omega) (by omega) (by omega),
      hcell i (chord j - 1) hi (by omega) (by omega) (by omega),
      hcell (chord j + 1) (j - 1) (by omega) (by omega) (by omega) (by omega),
      opt_inside chord i j hij hk hin.1 hin.2]
    congr 1
    omega
  · rw [e0, hcell i (j - 1) hi (by omega) (by omega) (by omega),
      opt_outside chord i j hij hk hout]

theorem bu_transition_witness :
    (MPS_BU chord1 1 zeroTable emptySub).1 0 (1 - 0)
      = cellVal (MPS_BU chord1 1 zeroTable emptySub).1 (0 + 1) (1 - 1) + 1 :=
  ((bu_transition chord1 1 zeroTable emptySub (zeroTable_zero 1) (zeroTable_guard 1)).1 0 1
    (le_refl _) (by decide) (by decide)).1 (by decide)

/-- Where the words at offset `-1` read `0` (`GuardZero`, which the program does not
establish): for `N ≥ 1`, `MPS_TD(0, 2N-1)` on an all-sentinel table returns (a call depth of
`2N + 1` suffices), and `traceback(0, 2N-1)` returns on the table it leaves and on the
table filled by `MPS_BU`. -/
theorem solvers_terminate (chord : Int → Int) (is_head : Int → Bool) (N : Nat)
    (Mbu Mtd : Table) (sbu std : Subproblem) (hN : 1 ≤ N)
    (hz : ZeroTriangle N Mbu) (hgb : GuardZero N Mbu)
    (hs : SentinelTriangle N Mtd) (hgt : GuardZero N Mtd) (fuel : Nat) (hf : 2 * N < fuel) :
    (∃ v T s, MPS_TD chord fuel 0 (2 * (N : Int) - 1) Mtd std = some (v, T, s) ∧
      ∃ out, traceback T chord is_head fuel 0 (2 * (N : Int) - 1) [] = some out) ∧
    (∃ out, traceback (MPS_BU chord N Mbu sbu).1 chord is_head fuel 0 (2 * (N : Int) - 1) []
      = some out) := by
  constructor
  · obtain ⟨T, s, h, hK, _⟩ := td_root chord N Mtd std hN hs hgt fuel hf
    obtain ⟨out, _, hrun⟩ := tb_of_known chord is_head T 0 (2 * (N : Int) - 1) hK
    exact ⟨_, T, s, h, out, by simpa using hrun fuel [] (by omega) (by omega)⟩
  · obtain ⟨out, _, hrun⟩ := tb_of_known chord is_head _ 0 (2 * (N : Int) - 1)
      (bu_known chord N Mbu sbu hz hgb 0 (2 * (N : Int) - 1) (le_refl _) (by omega) (by omega))
    exact ⟨out, by simpa using hrun fuel [] (by omega) (by omega)⟩

theorem solvers_terminate_witness :
    ∃ v T s, MPS_TD chord1 3 0 (2 * ((1 : Nat) : Int) - 1) (sentinelTable 1) emptySub
        = some (v, T, s) ∧
      ∃ out, traceback T chord1 head1 3 0 (2 * ((1 : Nat) : Int) - 1) [] = some out :=
  (solvers_terminate chord1 head1 1 zeroTable (sentinelTable 1) emptySub emptySub (le_refl _)
    (zeroTable_zero 1) (zeroTable_guard 1) (sentinelTable_sentinel 1) (sentinelTable_guard 1)
    3 (by decide)).1

/-! ### Decomposition at a split point -/

theorem split_even (chord : Int → Int) (m : Nat)
    (h : ∀ p : Int, 0 ≤ p → p < (m : Int) →
      0 ≤ chord p ∧ chord p < (m : Int) ∧ chord (chord p) = p ∧ chord p ≠ p) : 2 ∣ m := by
  have hsum := Finset.sum_involution (s := Finset.Ico (0 : Int) (m : Int))
    (f := fun _ => (1 : ZMod 2)) (fun a _ => chord a)
    (fun a _ => by show (1 : ZMod 2) + 1 = 0; decide)
    (fun a ha _ => (h a (Finset.mem_Ico.mp ha).1 (Finset.mem_Ico.mp ha).2).2.2.2)
    (fun a ha => by
      have := h a (Finset.mem_Ico.mp ha).1 (Finset.mem_Ico.mp ha).2
      exact Finset.mem_Ico.mpr ⟨this.1, this.2.1⟩)
    (fun a ha => (h a (Finset.mem_Ico.mp ha).1 (Finset.mem_Ico.mp ha).2).2.2.1)
  rw [Finset.sum_const, Int.card_Ico] at hsum
  simp only [sub_zero, Int.toNat_ofNat, nsmul_eq_mul, mul_one] at hsum
  exact (ZMod.natCast_zmod_eq_zero_iff_dvd m 2).mp hsum

theorem opt_shift (chord c' : Int → Int) (m : Int) (hc : ∀ p, c' p = chord (p + m) - m) :
    ∀ (n : Nat) (i j : Int), j - i < n → opt c' i j = opt chord (i + m) (j + m) := by
  intro n
  induction n with
  | zero =>
    intro i j h
    rw [opt_base _ i j (by omega), opt_base _ (i + m) (j + m) (by omega)]
  | succ n ih =>
    intro i j hn
    have hcj := hc j
    by_cases hji : j ≤ i
    · rw [opt_base _ i j hji, opt_base _ (i + m) (j + m) (by omega)]
    · have hlt : i < j := not_le.mp hji
      have e1 := ih i (j - 1) (by omega)
      have e2 := ih (i + 1) (j - 1) (by omega)
      rw [show j - 1 + m = j + m - 1 by omega] at e1 e2
      rw [show i + 1 + m = i + m + 1 by omega] at e2
      by_cases hk : chord (j + m) = i + m
      · rw [opt_nest c' i j hlt (by omega),
          opt_nest chord (i + m) (j + m) (by omega) hk, e2]
      · by_cases hin : i + m < chord (j + m) ∧ chord (j + m) < j + m
        · have e3 := ih i (c' j - 1) (by omega)
          have e4 := ih (c' j + 1) (j - 1) (by omega)
          rw [show c' j - 1 + m = chord (j + m) - 1 by omega] at e3
          rw [show c' j + 1 + m = chord (j + m) + 1 by omega,
            show j - 1 + m = j + m - 1 by omega] at e4
          rw [opt_inside c' i j hlt (by omega) (by omega) (by omega),
            opt_inside chord (i + m) (j + m) (by omega) hk hin.1 hin.2, e1, e3, e4]
        · rw [opt_outside c' i j hlt (by omega) (by omega),
            opt_outside chord (i + m) (j + m) (by omega) hk hin, e1]

theorem opt_split (chord : Int → Int) (N : Nat) (hv : ValidPairing N chord) (m : Int)
    (hm0 : 0 < m) (hm : m < 2 * (N : Int))
    (hsplit : ∀ p : Int, 0 ≤ p → p < 2 * (N : Int) → p < m → chord p < m) :
    opt chord 0 (2 * (N : Int) - 1) = opt chord 0 (m - 1) + opt chord m (2 * (N : Int) - 1) := by
  have hup : ∀ p : Int, 0 ≤ p → p < 2 * (N : Int) → m ≤ p → m ≤ chord p := by
    intro p h0 h1 h2
    by_contra hc
    obtain ⟨c0, c1, c2, _⟩ := hv p h0 h1
    have := hsplit (chord p) c0 c1 (by omega)
    rw [c2] at this
    omega
  obtain ⟨⟨S, hS, hSc⟩, hubC⟩ := opt_isMaxPlanar chord N hv 0 (2 * (N : Int) - 1)
    (le_refl _) (by omega)
  obtain ⟨⟨S1, hS1, hS1c⟩, hubA⟩ := opt_isMaxPlanar chord N hv 0 (m - 1) (le_refl _) (by omega)
  obtain ⟨⟨S2, hS2, hS2c⟩, hubB⟩ := opt_isMaxPlanar chord N hv m (2 * (N : Int) - 1)
    (by omega) (by omega)
  apply le_antisymm
  · have hP1 : PlanarIn chord 0 (m - 1) (S.filter (fun q => q < m)) :=
      hS.restrict (Finset.filter_subset _ _) (fun q hq0 => by
        have hq1 := Finset.mem_filter.mp hq0
        have h1 := hS.1 q hq1.1
        have h2 := hsplit q (by omega) (by omega) hq1.2
        omega)
    have hP2 : PlanarIn chord m (2 * (N : Int) - 1) (S.filter (fun q => ¬ q < m)) :=
      hS.restrict (Finset.filter_subset _ _) (fun q hq0 => by
        have hq1 := Finset.mem_filter.mp hq0
        have h1 := hS.1 q hq1.1
        have h2 := hup q (by omega) (by omega) (by have := hq1.2; omega)
        have h3 := hq1.2
        omega)
    have c1 := hubA _ hP1
    have c2 := hubB _ hP2
    have hsum := Finset.filter_card_add_filter_neg_card_eq_card (s := S) (fun q => q < m)
    omega
  · have hdisj : Disjoint S1 S2 := by
      rw [Finset.disjoint_left]
      intro a h1 h2
      have := hS1.1 a h1
      have := hS2.1 a h2
      omega
    have hP : PlanarIn chord 0 (2 * (N : Int) - 1) (S1 ∪ S2) := by
      have hmem : ∀ y ∈ S1 ∪ S2,
          (y ∈ S1 ∧ 0 ≤ y ∧ y < m ∧ 0 ≤ chord y ∧ chord y < m) ∨
          (y ∈ S2 ∧ m ≤ y ∧ y < 2 * (N : Int) ∧ m ≤ chord y ∧ chord y < 2 * (N : Int)) := by
        intro y hy
        rcases Finset.mem_union.mp hy with h | h
        · have := hS1.1 y h
          exact Or.inl ⟨h, by omega⟩
        · have := hS2.1 y h
          exact Or.inr ⟨h, by omega⟩
      constructor
      · intro p hp
        rcases hmem p hp with ⟨_, h⟩ | ⟨_, h⟩ <;> omega
      · intro p hp q hq hne
        rcases hmem p hp with ⟨hp1, hpb⟩ | ⟨hp2, hpb⟩ <;>
          rcases hmem q hq with ⟨hq1, hqb⟩ | ⟨hq2, hqb⟩
        · exact hS1.2 p hp1 q hq1 hne
        · unfold Crosses Between; omega
        · unfold Crosses Between; omega
        · exact hS2.2 p hp2 q hq2 hne
    have := hubC _ hP
    rw [Finset.card_union_of_disjoint hdisj] at this
    push_cast at this
    omega

theorem chord2_valid : ValidPairing 2 chord2 := by
  intro p h0 h1
  have hp : p = 0 ∨ p = 1 ∨ p = 2 ∨ p = 3 := by omega
  rcases hp with rfl | rfl | rfl | rfl <;> simp [chord2]

theorem chord2_split : ∀ p : Int, 0 ≤ p → p < 2 * ((2 : Nat) : Int) → p < ((2 : Nat) : Int) →
    chord2 p < ((2 : Nat) : Int) := by
  intro p h0 _ h2
  have hp : p = 0 ∨ p = 1 := by omega
  rcases hp with rfl | rfl <;> simp [chord2]

/-- Where the words at offset `-1` read `0` (`GuardZero`, which the program does not
establish): when no chord has one endpoint below the split point `m` and the other at or above
it, the result of `MPS_BU` on the whole pairing is the sum of its results on the sub-pairing
over `0..m-1` and on the sub-pairing over `m..2N-1` re-indexed to start at `0`; and in the
filled table `M(0, 2N-1) = M(0, m-1) + M(m, 2N-1)`. -/
theorem bu_decompose (chord : Int → Int) (N : Nat) (M M1 M2 : Table)
    (sub s1 s2 : Subproblem) (hv : ValidPairing N chord) (hz : ZeroTriangle N M)
    (hg : GuardZero N M) (m : Nat) (hm0 : 0 < m) (hm : m < 2 * N)
    (hsplit : ∀ p : Int, 0 ≤ p → p < 2 * (N : Int) → p < (m : Int) → chord p < (m : Int))
    (hz1 : ZeroTriangle (m / 2) M1) (hg1 : GuardZero (m / 2) M1)
    (hz2 : ZeroTriangle (N - m / 2) M2) (hg2 : GuardZero (N - m / 2) M2) :
    (MPS_BU chord N M sub).1 0 (2 * (N : Int) - 1)
        = (MPS_BU chord (m / 2) M1 s1).1 0 ((m : Int) - 1)
          + (MPS_BU (fun p => chord (p + (m : Int)) - (m : Int)) (N - m / 2) M2 s2).1 0
              (2 * (N : Int) - 1 - (m : Int)) ∧
    (MPS_BU chord N M sub).1 0 (2 * (N : Int) - 1)
        = (MPS_BU chord N M sub).1 0 ((m : Int) - 1)
          + (MPS_BU chord N M sub).1 (m : Int) (2 * (N : Int) - 1 - (m : Int)) := by
  have heven : 2 ∣ m := split_even chord m (fun p h0 h1 => by
    obtain ⟨c0, _, c2, c3⟩ := hv p h0 (by omega)
    exact ⟨c0, hsplit p h0 (by omega) h1, c2, c3⟩)
  have hm2 : 2 * (m / 2) = m := Nat.mul_div_cancel' heven
  have hsum := opt_split chord N hv (m : Int) (by omega) (by omega) hsplit
  have t0 := bu_table chord N M sub hz hg 0 (2 * (N : Int) - 1) (le_refl _) (by omega)
    (by omega)
  have t1 := bu_table chord N M sub hz hg 0 ((m : Int) - 1) (le_refl _) (by omega) (by omega)
  have t2 := bu_table chord N M sub hz hg (m : Int) (2 * (N : Int) - 1) (by omega) (by omega)
    (by omega)
  have u1 := bu_table chord (m / 2) M1 s1 hz1 hg1 0 ((m : Int) - 1) (le_refl _) (by omega)
    (by omega)
  have u2 := bu_table (fun p => chord (p + (m : Int)) - (m : Int)) (N - m / 2) M2 s2 hz2 hg2 0
    (2 * (N : Int) - 1 - (m : Int)) (le_refl _) (by omega) (by omega)
  have u3 := opt_shift chord (fun p => chord (p + (m : Int)) - (m : Int)) (m : Int)
    (fun _ => rfl) (2 * N) 0 (2 * (N : Int) - 1 - (m : Int)) (by omega)
  rw [show (2 * (N : Int) - 1 - 0) = 2 * (N : Int) - 1 by omega] at t0
  rw [show ((m : Int) - 1 - 0) = (m : Int) - 1 by omega] at t1 u1
  rw [show (2 * (N : Int) - 1 - (m : Int) - 0) = 2 * (N : Int) - 1 - (m : Int) by omega] at u2
  rw [show (0 : Int) + (m : Int) = (m : Int) by omega,
    show 2 * (N : Int) - 1 - (m : Int) + (m : Int) = 2 * (N : Int) - 1 by omega] at u3
  rw [t0, t1, t2, u1, u2, u3]
  exact ⟨hsum, hsum⟩

theorem bu_decompose_witness :
    (MPS_BU chord2 2 zeroTable emptySub).1 0 (2 * ((2 : Nat) : Int) - 1)
        = (MPS_BU chord2 (2 / 2) zeroTable emptySub).1 0 (((2 : Nat) : Int) - 1)
          + (MPS_BU (fun p => chord2 (p + ((2 : Nat) : Int)) - ((2 : Nat) : Int)) (2 - 2 / 2)
              zeroTable emptySub).1 0 (2 * ((2 : Nat) : Int) - 1 - ((2 : Nat) : Int)) ∧
    (MPS_BU chord2 2 zeroTable emptySub).1 0 (2 * ((2 : Nat) : Int) - 1)
        = (MPS_BU chord2 2 zeroTable emptySub).1 0 (((2 : Nat) : Int) - 1)
          + (MPS_BU chord2 2 zeroTable emptySub).1 ((2 : Nat) : Int)
              (2 * ((2 : Nat) : Int) - 1 - ((2 : Nat) : Int)) :=
  bu_decompose chord2 2 zeroTable zeroTable zeroTable emptySub emptySub emptySub chord2_valid
    (zeroTable_zero 2) (zeroTable_guard 2) 2 (by decide) (by decide) chord2_split
    (zeroTable_zero _) (zeroTable_guard _) (zeroTable_zero _) (zeroTable_guard _)

/-! ### Canonical sort: arrays -/

theorem rd_in (d : List Int) (i : Int) (h0 : 0 ≤ i) (h1 : i < d.length) :
    rd d i = some (val d i) := by
  have hlt : i.toNat < d.length := by omega
  simp only [val, rd, if_pos (And.intro h0 h1), List.getElem?_eq_getElem hlt, Option.getD_some]

theorem val_out (d : List Int) (i : Int) (h : ¬ (0 ≤ i ∧ i < d.length)) : val d i = 0 := by
  simp only [val, rd, if_neg h, Option.getD_none]

theorem val_eq_getElem (d : List Int) (n : Nat) (h : n < d.length) : val d (n : Int) = d[n] := by
  have h1 : (0 : Int) ≤ (n : Int) ∧ (n : Int) < d.length := ⟨by omega, by omega⟩
  simp only [val, rd, if_pos h1, Int.toNat_ofNat, List.getElem?_eq_getElem h, Option.getD_some]

theorem val_set (d : List Int) (a v x : Int) (h0 : 0 ≤ a) (h1 : a < d.length) :
    val (d.set a.toNat v) x = if x = a then v else val d x := by
  by_cases hx : 0 ≤ x ∧ x < d.length
  · have hxl : x.toNat < d.length := by omega
    have hal : a.toNat < d.length := by omega
    simp only [val, rd, List.length_set, if_pos hx, List.getElem?_set, if_pos hal,
      List.getElem?_eq_getElem hxl]
    by_cases hxa : x = a
    · subst hxa; simp
    · have : ¬ a.toNat = x.toNat := by omega
      simp [this, hxa]
  · rw [val_out _ x (by rw [List.length_set]; exact hx), val_out d x hx]
    have : ¬ x = a := by rintro rfl; exact hx ⟨h0, h1⟩
    rw [if_neg this]

theorem wr_in (d : List Int) (i v : Int) (h0 : 0 ≤ i) (h1 : i < d.length) :
    wr d i v = some (d.set i.toNat v) := by
  simp only [wr, if_pos (And.intro h0 h1)]

theorem set_set_perm (d : List Int) (A B : Nat) (hA : A < d.length) (hB : B < d.length) :
    ((d.set A d[B]).set B d[A]).Perm d := by
  rw [List.perm_iff_count]
  intro v
  have hB1 : B < (d.set A d[B]).length := by rw [List.length_set]; exact hB
  rw [List.count_set _ _ _ _ hB1, List.count_set _ _ _ _ hA]
  have e1 : (d.set A d[B])[B] = d[B] := by
    rw [List.getElem_set]
    split_ifs with h
    · rfl
    · rfl
  rw [e1]
  have hc : (if d[A] == v then 1 else 0) ≤ d.count v := by
    split_ifs with h
    · have : d[A] = v := by simpa using h
      rw [← this]
      exact List.count_pos_iff.mpr (List.getElem_mem hA)
    · exact Nat.zero_le _
  omega

/-- The exchange of two cells of the array succeeds, permutes the array and exchanges the
two values. -/
theorem swap_spec (d : List Int) (a b : Int) (ha0 : 0 ≤ a) (ha1 : a < d.length)
    (hb0 : 0 ≤ b) (hb1 : b < d.length) :
    ∃ d', swap d a b = some d' ∧ d'.length = d.length ∧ d'.Perm d ∧
      ∀ x, val d' x = if x = b then val d a else if x = a then val d b else val d x := by
  have hA : a.toNat < d.length := by omega
  have hB : b.toNat < d.length := by omega
  refine ⟨(d.set a.toNat (val d b)).set b.toNat (val d a), ?_, ?_, ?_, ?_⟩
  · simp only [swap, rd_in d a ha0 ha1, rd_in d b hb0 hb1, wr_in d a _ ha0 ha1]
    rw [wr_in _ b _ hb0 (by rw [List.length_set]; exact hb1)]
  · simp
  · have e1 : val d a = d[a.toNat] := by
      rw [← val_eq_getElem d a.toNat hA]; congr 1; omega
    have e2 : val d b = d[b.toNat] := by
      rw [← val_eq_getElem d b.toNat hB]; congr 1; omega
    rw [e1, e2]
    exact set_set_perm d a.toNat b.toNat hA hB
  · intro x
    rw [val_set _ b _ x hb0 (by rw [List.length_set]; exact hb1), val_set d a _ x ha0 ha1]

/-! ### Canonical sort: the partition -/

theorem scanDown_spec (d : List Int) (pivot x : Int) (hx0 : 0 ≤ x) (hxv : val d x ≤ pivot) :
    ∀ (fuel : Nat) (j : Int), x < j → j ≤ d.length → j - x ≤ fuel →
      ∃ j1, scanDown d pivot fuel j = some j1 ∧ x ≤ j1 ∧ j1 < j ∧ val d j1 ≤ pivot ∧
        ∀ y, j1 < y → y < j → pivot < val d y := by
  intro fuel
  induction fuel with
  | zero => intro j h1 _ h3; omega
  | succ f ih =>
    intro j hxj hj hf
    have hr := rd_in d (j - 1) (by omega) (by omega)
    by_cases hgt : val d (j - 1) > pivot
    · have hne : x ≠ j - 1 := by rintro rfl; omega
      obtain ⟨j1, h1, h2, h3, h4, h5⟩ := ih (j - 1) (by omega) (by omega)
        (by push_cast at hf; omega)
      refine ⟨j1, ?_, h2, by omega, h4, ?_⟩
      · simp only [scanDown, hr, if_pos hgt, h1]
      · intro y hy1 hy2
        by_cases hy : y = j - 1
        · rw [hy]; exact hgt
        · exact h5 y hy1 (by omega)
    · refine ⟨j - 1, ?_, by omega, by omega, by omega, ?_⟩
      · simp only [scanDown, hr, if_neg hgt]
      · intro y hy1 hy2; omega

theorem scanUp_spec (d : List Int) (pivot y : Int) (hy1 : y < d.length)
    (hyv : pivot ≤ val d y) :
    ∀ (fuel : Nat) (i : Int), i < y → -1 ≤ i → y - i ≤ fuel →
      ∃ i1, scanUp d pivot fuel i = some i1 ∧ i < i1 ∧ i1 ≤ y ∧ pivot ≤ val d i1 ∧
        ∀ z, i < z → z < i1 → val d z < pivot := by
  intro fuel
  induction fuel with
  | zero => intro i h1 _ h3; omega
  | succ f ih =>
    intro i hiy hi hf
    have hr := rd_in d (i + 1) (by omega) (by omega)
    by_cases hlt : val d (i + 1) < pivot
    · have hne : y ≠ i + 1 := by rintro rfl; omega
      obtain ⟨i1, h1, h2, h3, h4, h5⟩ := ih (i + 1) (by omega) (by omega)
        (by push_cast at hf; omega)
      refine ⟨i1, ?_, by omega, h3, h4, ?_⟩
      · simp only [scanUp, hr, if_pos hlt, h1]
      · intro z hz1 hz2
        by_cases hz : z = i + 1
        · rw [hz]; exact hlt
        · exact h5 z (by omega) hz2
    · refine ⟨i + 1, ?_, by omega, by omega, by omega, ?_⟩
      · simp only [scanUp, hr, if_neg hlt]
      · intro z hz1 hz2; omega

theorem seg_refl (d : List Int) (low high : Int) : Seg d d low high :=
  ⟨rfl, List.Perm.refl _, fun _ _ => rfl, fun x h1 h2 => ⟨x, h1, h2, rfl⟩⟩

theorem seg_trans {d1 d2 d3 : List Int} {low high : Int} (h12 : Seg d1 d2 low high)
    (h23 : Seg d2 d3 low high) : Seg d1 d3 low high := by
  refine ⟨h23.1.trans h12.1, h23.2.1.trans h12.2.1, ?_, ?_⟩
  · intro x hx
    rw [h23.2.2.1 x hx, h12.2.2.1 x hx]
  · intro x h1 h2
    obtain ⟨y, hy1, hy2, hy⟩ := h23.2.2.2 x h1 h2
    obtain ⟨z, hz1, hz2, hz⟩ := h12.2.2.2 y hy1 hy2
    exact ⟨z, hz1, hz2, hy.trans hz⟩

theorem seg_widen {d d' : List Int} {a b low high : Int} (h : Seg d d' a b)
    (hl : low ≤ a) (hh : b ≤ high) : Seg d d' low high := by
  refine ⟨h.1, h.2.1, ?_, ?_⟩
  · intro x hx
    exact h.2.2.1 x (by omega)
  · intro x h1 h2
    by_cases hin : a ≤ x ∧ x ≤ b
    · obtain ⟨y, hy1, hy2, hy⟩ := h.2.2.2 x hin.1 hin.2
      exact ⟨y, by omega, by omega, hy⟩
    · exact ⟨x, h1, h2, h.2.2.1 x (by omega)⟩

theorem seg_swap (d : List Int) (a b low high : Int) (hl : 0 ≤ low) (hh : high < d.length)
    (ha : low ≤ a ∧ a ≤ high) (hb : low ≤ b ∧ b ≤ high) :
    ∃ d', swap d a b = some d' ∧ Seg d d' low high ∧
      ∀ x, val d' x = if x = b then val d a else if x = a then val d b else val d x := by
  obtain ⟨d', h1, h2, h3, h4⟩ := swap_spec d a b (by omega) (by omega) (by omega) (by omega)
  refine ⟨d', h1, ⟨h2, h3, ?_, ?_⟩, h4⟩
  · intro x hx
    rw [h4 x, if_neg (by omega), if_neg (by omega)]
  · intro x hx1 hx2
    rw [h4 x]
    split_ifs with e1 e2
    · exact ⟨a, ha.1, ha.2, rfl⟩
    · exact ⟨b, hb.1, hb.2, rfl⟩
    · exact ⟨x, hx1, hx2, rfl⟩

theorem partLoop_spec (pivot low high : Int) (hl : 0 ≤ low) (hlh : low < high) :
    ∀ (fuel : Nat) (d : List Int) (i j : Int), high < d.length → PInv d pivot low high i j →
      (j - low) + (high - i) + 1 ≤ fuel →
      ∃ d' p, partLoop pivot fuel d i j = some (d', p) ∧ Seg d d' low high ∧
        low ≤ p ∧ p < high ∧
        (∀ x : Int, low ≤ x → x ≤ p → val d' x ≤ pivot) ∧
        (∀ x : Int, p < x → x ≤ high → pivot ≤ val d' x) := by
  intro fuel
  induction fuel with
  | zero =>
    intro d i j _ hinv hf
    obtain ⟨h1, h2, h3, _⟩ := hinv
    omega
  | succ f ih =>
    intro d i j hlen hinv hf
    obtain ⟨h1, h2, h3, hleft, hright, ⟨x, hx1, hx2, hxv⟩, ⟨y, hy1, hy2, hyv, hyf⟩, hlate⟩ := hinv
    push_cast at hf
    obtain ⟨j1, hj, hj1, hj2, hj3, hj4⟩ := scanDown_spec d pivot x (by omega) hxv f j hx2
      (by omega) (by omega)
    obtain ⟨i1, hi, hi1, hi2, hi3, hi4⟩ := scanUp_spec d pivot y (by omega) hyv f i hy1
      (by omega) (by omega)
    by_cases hcmp : i1 < j1
    · obtain ⟨d1, hsw, hseg, hval⟩ := seg_swap d i1 j1 low high hl hlen
        ⟨by omega, by omega⟩ ⟨by omega, by omega⟩
      have hinv1 : PInv d1 pivot low high i1 j1 := by
        refine ⟨by omega, hcmp, by omega, ?_, ?_, ⟨i1, by omega, hcmp, ?_⟩,
          ⟨j1, hcmp, by omega, ?_, fun h => by omega⟩, fun _ => by omega⟩
        · intro z hz1 hz2
          rw [hval z]
          split_ifs with e1 e2
          · omega
          · exact hj3
          · by_cases hzi : z ≤ i
            · exact hleft z hz1 hzi
            · have := hi4 z (by omega) (by omega)
              omega
        · intro z hz1 hz2
          rw [hval z]
          split_ifs with e1 e2
          · exact hi3
          · omega
          · by_cases hzj : j ≤ z
            · exact hright z hzj hz2
            · have := hj4 z (by omega) (by omega)
              omega
        · rw [hval i1, if_neg (by omega), if_pos rfl]; exact hj3
        · rw [hval j1, if_pos rfl]; exact hi3
      obtain ⟨d', p, hrun, hseg', hp1, hp2, hp3, hp4⟩ := ih d1 i1 j1
        (by rw [hseg.1]; exact hlen) hinv1 (by omega)
      refine ⟨d', p, ?_, seg_trans hseg hseg', hp1, hp2, hp3, hp4⟩
      simp only [partLoop, hj, hi, if_pos hcmp, hsw, hrun]
    · refine ⟨d, j1, ?_, seg_refl d low high, by omega, ?_, ?_, ?_⟩
      · simp only [partLoop, hj, hi, if_neg hcmp]
      · by_cases hfirst : i = low - 1
        · have := hyf hfirst
          omega
        · have := hlate (by omega)
          omega
      · intro z hz1 hz2
        by_cases hzi : z ≤ i
        · exact hleft z hz1 hzi
        · by_cases hz : z = i1
          · have : z = j1 := by omega
            rw [this]; exact hj3
          · have := hi4 z (by omega) (by omega)
            omega
      · intro z hz1 hz2
        by_cases hzj : j ≤ z
        · exact hright z hzj hz2
        · have := hj4 z hz1 (by omega)
          omega

/-- The partition succeeds: it rearranges `data[low .. high]`, returns `p` with
`low ≤ p < high`, and splits the segment around the pivot. -/
theorem randPartition_spec (d : List Int) (low high : Int) (r fuel : Nat) (hl : 0 ≤ low)
    (hlh : low < high) (hh : high < d.length) (hf : 2 * (high - low) + 3 ≤ fuel) :
    ∃ d' p, RandPartition fuel d low high r = some (d', p) ∧ Seg d d' low high ∧
      low ≤ p ∧ p < high ∧
      ∃ pivot, (∀ x : Int, low ≤ x → x ≤ p → val d' x ≤ pivot) ∧
        (∀ x : Int, p < x → x ≤ high → pivot ≤ val d' x) := by
  have hpos : 0 < high - low := by omega
  have hm0 := Int.emod_nonneg (r : Int) (ne_of_gt hpos)
  have hm1 := Int.emod_lt_of_pos (r : Int) hpos
  obtain ⟨d1, hsw, hseg, hval⟩ := seg_swap d low (low + (r : Int) % (high - low)) low high hl hh
    ⟨le_refl _, by omega⟩ ⟨by omega, by omega⟩
  have hlen1 : high < d1.length := by rw [hseg.1]; exact hh
  have hrd := rd_in d1 low hl (by omega)
  have hinv : PInv d1 (val d1 low) low high (low - 1) (high + 1) := by
    refine ⟨le_refl _, by omega, le_refl _, fun x h1 h2 => by omega, fun x h1 h2 => by omega,
      ⟨low, le_refl _, by omega, le_refl _⟩, ⟨low, by omega, by omega, le_refl _, fun _ => rfl⟩,
      fun h => by omega⟩
  obtain ⟨d', p, hrun, hseg', hp1, hp2, hp3, hp4⟩ := partLoop_spec (val d1 low) low high hl hlh
    fuel d1 (low - 1) (high + 1) hlen1 hinv (by omega)
  refine ⟨d', p, ?_, seg_trans hseg hseg', hp1, hp2, val d1 low, hp3, hp4⟩
  simp only [RandPartition, if_neg (ne_of_gt hpos), hsw, hrd, hrun]

/-! ### Canonical sort: the recursion -/

theorem qsort_spec (rand : Nat → Nat) :
    ∀ (n fuel : Nat) (d : List Int) (low high : Int) (c : Nat), high - low < n →
      1 ≤ fuel → 2 * (high - low) + 4 ≤ fuel → (low < high → 0 ≤ low ∧ high < d.length) →
      ∃ d' c', QSort rand fuel d low high c = some (d', c') ∧ Seg d d' low high ∧
        ∀ x y : Int, low ≤ x → x ≤ y → y ≤ high → val d' x ≤ val d' y := by
  intro n
  induction n with
  | zero =>
    intro fuel d low high c hn hf1 _ _
    obtain ⟨f, rfl⟩ : ∃ f, fuel = f + 1 := ⟨fuel - 1, by omega⟩
    refine ⟨d, c, ?_, seg_refl d low high, fun x y h1 h2 h3 => by omega⟩
    simp only [QSort, if_neg (show ¬ low < high by omega)]
  | succ n ih =>
    intro fuel d low high c hn hf1 hf2 hrange
    obtain ⟨f, rfl⟩ : ∃ f, fuel = f + 1 := ⟨fuel - 1, by omega⟩
    push_cast at hf2 hn
    by_cases hlh : low < high
    · obtain ⟨hl, hh⟩ := hrange hlh
      obtain ⟨d1, p, hpart, hseg1, hp1, hp2, pivot, hle, hge⟩ :=
        randPartition_spec d low high (rand c) f hl hlh hh (by omega)
      have hlen1 : d1.length = d.length := hseg1.1
      obtain ⟨d2, c2, hq2, hseg2, hs2⟩ := ih f d1 low p (c + 1) (by omega) (by omega)
        (by omega) (fun _ => ⟨hl, by omega⟩)
      have hlen2 : d2.length = d1.length := hseg2.1
      obtain ⟨d3, c3, hq3, hseg3, hs3⟩ := ih f d2 (p + 1) high c2 (by omega) (by omega)
        (by omega) (fun _ => ⟨by omega, by omega⟩)
      refine ⟨d3, c3, ?_, ?_, ?_⟩
      · simp only [QSort, if_pos hlh, hpart, hq2, hq3]
      · exact seg_trans (seg_trans hseg1 (seg_widen hseg2 (le_refl _) (by omega)))
          (seg_widen hseg3 (by omega) (le_refl _))
      · have hleft : ∀ x : Int, low ≤ x → x ≤ p → val d3 x ≤ pivot ∧ val d3 x = val d2 x := by
          intro x hx1 hx2
          have e3 := hseg3.2.2.1 x (Or.inl (by omega))
          obtain ⟨z, hz1, hz2, hz⟩ := hseg2.2.2.2 x hx1 hx2
          refine ⟨?_, e3⟩
          rw [e3, hz]
          exact hle z hz1 hz2
        have hright : ∀ y : Int, p < y → y ≤ high → pivot ≤ val d3 y := by
          intro y hy1 hy2
          obtain ⟨z, hz1, hz2, hz⟩ := hseg3.2.2.2 y (by omega) hy2
          rw [hz, hseg2.2.2.1 z (Or.inr (by omega))]
          exact hge z (by omega) hz2
        intro x y hx hxy hy
        by_cases hyp : y ≤ p
        · rw [(hleft x hx (by omega)).2, (hleft y (by omega) hyp).2]
          exact hs2 x y hx hxy hyp
        · by_cases hxp : x ≤ p
          · exact le_trans (hleft x hx hxp).1 (hright y (by omega) hy)
          · exact hs3 x y (by omega) hxy hy
    · refine ⟨d, c, ?_, seg_refl d low high, fun x y h1 h2 h3 => ?_⟩
      · simp only [QSort, if_neg hlh]
      · have : x = y := by omega
        rw [this]

/-- C6: for every array `data` (duplicates, length `0` and `1` included) and every sequence
`rand` of values returned by `rand()`, `QSort(data, 0, len-1)` returns (a depth bound of
`2·len + 2` suffices) without any read or write outside `data[0 .. len-1]` (such an access
would make the model return `none`), and the resulting array is in non-decreasing order
and is a permutation of `data`. -/
theorem qsort_correct (rand : Nat → Nat) (data : List Int) (c fuel : Nat)
    (hf : 2 * data.length + 2 ≤ fuel) :
    ∃ d' c', QSort rand fuel data 0 ((data.length : Int) - 1) c = some (d', c') ∧
      d'.length = data.length ∧ d'.Sorted (fun a b => a ≤ b) ∧ d'.Perm data := by
  obtain ⟨d', c', hrun, hseg, hsorted⟩ := qsort_spec rand data.length fuel data 0
    ((data.length : Int) - 1) c (by omega) (by omega) (by omega) (fun _ => ⟨le_refl _, by omega⟩)
  refine ⟨d', c', hrun, hseg.1, ?_, hseg.2.1⟩
  rw [List.Sorted, List.pairwise_iff_getElem]
  intro i j hi hj hij
  rw [← val_eq_getElem d' i hi, ← val_eq_getElem d' j hj]
  have hlen := hseg.1
  exact hsorted (i : Int) (j : Int) (by omega) (by omega) (by omega)

theorem qsort_correct_witness :
    ∃ d' c', QSort (fun _ => 0) 6 sampleData 0 ((sampleData.length : Int) - 1) 0
        = some (d', c') ∧
      d'.length = sampleData.length ∧ d'.Sorted (fun a b => a ≤ b) ∧ d'.Perm sampleData :=
  qsort_correct (fun _ => 0) sampleData 0 6 (by decide)

/-! ### Sort idempotence -/

theorem sortedData_sorted : sortedData.Sorted (fun a b => a ≤ b) := by
  simp [sortedData]

/-- C11: for every array already in non-decreasing order and every sequence of `rand()`
outcomes, `QSort` leaves the array unchanged; hence, for any array, sorting the output of
`QSort` again (with any sequence of `rand()` outcomes) gives that same output. -/
theorem qsort_idempotent (rand : Nat → Nat) (data : List Int) (c fuel : Nat)
    (hf : 2 * data.length + 2 ≤ fuel) :
    (data.Sorted (fun a b => a ≤ b) →
      ∃ c', QSort rand fuel data 0 ((data.length : Int) - 1) c = some (data, c')) ∧
    (∃ d1 c1, QSort rand fuel data 0 ((data.length : Int) - 1) c = some (d1, c1) ∧
      ∀ (rand2 : Nat → Nat) (c2 : Nat),
        ∃ c3, QSort rand2 fuel d1 0 ((d1.length : Int) - 1) c2 = some (d1, c3)) := by
  have key : ∀ (r : Nat → Nat) (d : List Int) (k : Nat), 2 * d.length + 2 ≤ fuel →
      d.Sorted (fun a b => a ≤ b) →
      ∃ c', QSort r fuel d 0 ((d.length : Int) - 1) k = some (d, c') := by
    intro r d k hfd hs
    obtain ⟨d', c', hrun, _, hsorted, hperm⟩ := qsort_correct r d k fuel hfd
    have : d' = d := List.eq_of_perm_of_sorted hperm hsorted hs
    rw [this] at hrun
    exact ⟨c', hrun⟩
  refine ⟨key rand data c hf, ?_⟩
  obtain ⟨d1, c1, hrun, hlen, hsorted, _⟩ := qsort_correct rand data c fuel hf
  exact ⟨d1, c1, hrun, fun rand2 c2 => key rand2 d1 c2 (by rw [hlen]; exact hf) hsorted⟩

theorem qsort_idempotent_witness :
    ∃ c', QSort (fun _ => 0) 6 sortedData 0 ((sortedData.length : Int) - 1) 0
      = some (sortedData, c') :=
  (qsort_idempotent (fun _ => 0) sortedData 0 6 (by decide)).1 sortedData_sorted

/-! ### Determinism of the traceback -/

theorem tbOut_det {chord : Int → Int} {is_head : Int → Bool} {i j : Int} {o1 : List Int}
    (h1 : TBOut chord is_head i j o1) :
    ∀ {o2 : List Int}, TBOut chord is_head i j o2 → o1 = o2 := by
  induction h1 with
  | zero i j h0 =>
    intro o2 h2
    cases h2 with
    | zero _ _ _ => rfl
    | nest _ _ _ g1 _ _ => exact absurd h0 g1
    | take _ _ _ _ g1 _ _ _ _ => exact absurd h0 g1
    | skip _ _ _ g1 _ _ _ => exact absurd h0 g1
  | nest i j out a1 a2 _ ih =>
    intro o2 h2
    cases h2 with
    | zero _ _ g0 => exact absurd g0 a1
    | nest _ _ out' _ _ g3 => rw [ih g3]
    | take _ _ _ _ _ g2 _ _ _ => exact absurd a2 g2
    | skip _ _ _ _ g2 _ _ => exact absurd a2 g2
  | take i j p q a1 a2 a3 _ _ ih1 ih2 =>
    intro o2 h2
    cases h2 with
    | zero _ _ g0 => exact absurd g0 a1
    | nest _ _ _ _ g2 _ => exact absurd g2 a2
    | take _ _ p' q' _ _ _ g4 g5 => rw [ih1 g4, ih2 g5]
    | skip _ _ _ _ _ g3 _ => exact absurd a3 g3
  | skip i j out a1 a2 a3 _ ih =>
    intro o2 h2
    cases h2 with
    | zero _ _ g0 => exact absurd g0 a1
    | nest _ _ _ _ g2 _ => exact absurd g2 a2
    | take _ _ _ _ _ _ g3 _ _ => exact absurd g3 a3
    | skip _ _ _ _ _ _ g4 => exact ih g4

/-- Over two tables that are both known at `(i, j)`, `traceback(i, j)` appends the same
positions. -/
theorem tb_same_of_known (chord : Int → Int) (is_head : Int → Bool) (T1 T2 : Table)
    (i j : Int) (h1 : Known chord T1 i j) (h2 : Known chord T2 i j) :
    ∃ out, TBOut chord is_head i j out ∧
      ∀ (fuel : Nat) (sol : List Int), 1 ≤ fuel → j - i + 1 < fuel →
        traceback T1 chord is_head fuel i j sol = some (sol ++ out) ∧
        traceback T2 chord is_head fuel i j sol = some (sol ++ out) := by
  obtain ⟨o1, ho1, hr1⟩ := tb_of_known chord is_head T1 i j h1
  obtain ⟨o2, ho2, hr2⟩ := tb_of_known chord is_head T2 i j h2
  have e := tbOut_det ho1 ho2
  subst e
  exact ⟨o1, ho1, fun fuel sol hf1 hf2 => ⟨hr1 fuel sol hf1 hf2, hr2 fuel sol hf1 hf2⟩⟩

/-! ### Cells read by the traceback -/

theorem tbr_unfold_zero (M : Table) (chord : Int → Int) (is_head : Int → Bool) (f : Nat)
    (i j : Int) (sol : List Int) (log : List (Int × Int)) (h : M i (j - i) = 0) :
    tracebackReads M chord is_head (f + 1) i j sol log = some (sol, log ++ [(i, j - i)]) := by
  simp only [tracebackReads, if_pos h]

theorem tbr_unfold_nest (M : Table) (chord : Int → Int) (is_head : Int → Bool) (f : Nat)
    (i j : Int) (sol : List Int) (log : List (Int × Int)) (h : M i (j - i) ≠ 0)
    (hk : chord j = i) :
    tracebackReads M chord is_head (f + 1) i j sol log
      = tracebackReads M chord is_head f (i + 1) (j - 1)
          (if is_head i then sol ++ [i] else sol ++ [j]) (log ++ [(i, j - i)]) := by
  simp only [tracebackReads, if_neg h, if_pos hk]

theorem tbr_unfold_take (M : Table) (chord : Int → Int) (is_head : Int → Bool) (f : Nat)
    (i j : Int) (sol sol2 : List Int) (log log3 : List (Int × Int)) (h : M i (j - i) ≠ 0)
    (hk : chord j ≠ i) (hgt : M i (j - i) > M i (j - 1 - i))
    (h1 : tracebackReads M chord is_head f i (chord j - 1)
      (if is_head j then sol ++ [j] else sol ++ [chord j])
      (log ++ [(i, j - i)] ++ [(i, j - i), (i, j - 1 - i)]) = some (sol2, log3)) :
    tracebackReads M chord is_head (f + 1) i j sol log
      = tracebackReads M chord is_head f (chord j + 1) (j - 1) sol2 log3 := by
  simp only [tracebackReads, if_neg h, if_neg hk, if_pos hgt, h1]

theorem tbr_unfold_skip (M : Table) (chord : Int → Int) (is_head : Int → Bool) (f : Nat)
    (i j : Int) (sol : List Int) (log : List (Int × Int)) (h : M i (j - i) ≠ 0)
    (hk : chord j ≠ i) (hgt : ¬ M i (j - i) > M i (j - 1 - i)) :
    tracebackReads M chord is_head (f + 1) i j sol log
      = tracebackReads M chord is_head f i (j - 1) sol
          (log ++ [(i, j - i)] ++ [(i, j - i), (i, j - 1 - i)]) := by
  simp only [tracebackReads, if_neg h, if_neg hk, if_neg hgt]

/-- Forgetting the list of reads gives back `traceback`. -/
theorem tbr_erase (M : Table) (chord : Int → Int) (is_head : Int → Bool) :
    ∀ (fuel : Nat) (i j : Int) (sol : List Int) (log : List (Int × Int)),
      (tracebackReads M chord is_head fuel i j sol log).map Prod.fst
        = traceback M chord is_head fuel i j sol := by
  intro fuel
  induction fuel with
  | zero => intro i j sol log; simp [tracebackReads, traceback]
  | succ f ih =>
    intro i j sol log
    by_cases hz : M i (j - i) = 0
    · rw [tbr_unfold_zero M chord is_head f i j sol log hz,
        tb_unfold_zero M chord is_head f i j sol hz]
      rfl
    · by_cases hk : chord j = i
      · rw [tbr_unfold_nest M chord is_head f i j sol log hz hk,
          tb_unfold_nest M chord is_head f i j sol hz hk]
        exact ih _ _ _ _
      · by_cases hgt : M i (j - i) > M i (j - 1 - i)
        · have h1 := ih i (chord j - 1) (if is_head j then sol ++ [j] else sol ++ [chord j])
            (log ++ [(i, j - i)] ++ [(i, j - i), (i, j - 1 - i)])
          cases hres : tracebackReads M chord is_head f i (chord j - 1)
            (if is_head j then sol ++ [j] else sol ++ [chord j])
            (log ++ [(i, j - i)] ++ [(i, j - i), (i, j - 1 - i)]) with
          | none =>
            rw [hres] at h1
            simp only [tracebackReads, traceback, if_neg hz, if_neg hk, if_pos hgt, hres,
              ← h1, Option.map_none']
          | some val =>
            obtain ⟨sol2, log3⟩ := val
            rw [hres] at h1
            rw [tbr_unfold_take M chord is_head f i j sol sol2 log log3 hz hk hgt hres,
              tb_unfold_take M chord is_head f i j sol sol2 hz hk hgt h1.symm]
            exact ih _ _ _ _
        · rw [tbr_unfold_skip M chord is_head f i j sol log hz hk hgt,
            tb_unfold_skip M chord is_head f i j sol hz hk hgt]
          exact ih _ _ _ _

theorem readOK_widen {chord : Int → Int} {T : Table} {i j a b : Int} {rc : Int × Int}
    (h : ReadOK chord T a b rc) (hi : i ≤ a) (hj : b ≤ j) : ReadOK chord T i j rc :=
  ⟨by have := h.1; omega, h.2.1, by have := h.2.2.1; omega, h.2.2.2⟩

theorem readOK_cell {chord : Int → Int} {T : Table} {i j a b : Int}
    (hv : T a (b - a) = opt chord a b) (h1 : i ≤ a) (h2 : a ≤ b + 1) (h3 : b ≤ j) :
    ReadOK chord T i j (a, b - a) := by
  refine ⟨h1, by show -1 ≤ b - a; omega, by show a + (b - a) ≤ j; omega, ?_⟩
  show T a (b - a) = opt chord a (a + (b - a))
  rw [show a + (b - a) = b by omega]
  exact hv

/-- Over a table that is known at `(i, j)`, `traceback(i, j)` returns and every cell it
reads lies in the region of `(i, j)` and holds the value of the recurrence. -/
theorem tbr_of_known (chord : Int → Int) (is_head : Int → Bool) (T : Table) (i j : Int)
    (h : Known chord T i j) :
    i ≤ j + 1 → ∃ out reads, TBOut chord is_head i j out ∧
      (∀ (fuel : Nat) (sol : List Int) (log : List (Int × Int)), 1 ≤ fuel → j - i + 1 < fuel →
        tracebackReads T chord is_head fuel i j sol log = some (sol ++ out, log ++ reads)) ∧
      ∀ rc ∈ reads, ReadOK chord T i j rc := by
  induction h with
  | base i j h1 h2 =>
    intro hij
    refine ⟨[], [(i, j - i)], TBOut.zero i j (opt_base chord i j h1), ?_, ?_⟩
    · intro fuel sol log hf _
      obtain ⟨f, rfl⟩ : ∃ f, fuel = f + 1 := ⟨fuel - 1, by omega⟩
      rw [tbr_unfold_zero T chord is_head f i j sol log h2, List.append_nil]
    · intro rc hrc
      rw [List.mem_singleton] at hrc
      rw [hrc]
      exact readOK_cell (by rw [h2, opt_base chord i j h1]) (le_refl _) hij (le_refl _)
  | nest i j h1 h2 h3 h4 ih =>
    intro hij
    obtain ⟨out, reads, hout, hrun, hok⟩ := ih (by omega)
    have hne : opt chord i j ≠ 0 := by
      rw [opt_nest chord i j h1 h2]
      have := opt_nonneg_all chord (i + 1) (j - 1)
      omega
    refine ⟨_, (i, j - i) :: reads, TBOut.nest i j out hne h2 hout, ?_, ?_⟩
    · intro fuel sol log hf hfuel
      obtain ⟨f, rfl⟩ : ∃ f, fuel = f + 1 := ⟨fuel - 1, by omega⟩
      rw [tbr_unfold_nest T chord is_head f i j sol log (by rw [h3]; exact hne) h2,
        hrun f _ _ (by omega) (by push_cast at hfuel; omega)]
      by_cases hh : is_head i = true <;> simp [hh]
    · intro rc hrc
      rcases List.mem_cons.mp hrc with e | hmem
      · rw [e]; exact readOK_cell h3 (le_refl _) hij (le_refl _)
      · exact readOK_widen (hok rc hmem) (by omega) (by omega)
  | inside i j h1 h2 h3 h4 h5 h6 h7 h8 ih6 ih7 ih8 =>
    intro hij
    obtain ⟨out6, r6, hout6, hrun6, hok6⟩ := ih6 (by omega)
    obtain ⟨out7, r7, hout7, hrun7, hok7⟩ := ih7 (by omega)
    obtain ⟨out8, r8, hout8, hrun8, hok8⟩ := ih8 (by omega)
    have hv6 : T i (j - 1 - i) = opt chord i (j - 1) := h6.val
    have c0 : ReadOK chord T i j (i, j - i) := readOK_cell h5 (le_refl _) hij (le_refl _)
    have c1 : ReadOK chord T i j (i, j - 1 - i) :=
      readOK_cell hv6 (le_refl _) (by omega) (by omega)
    by_cases hz : opt chord i j = 0
    · refine ⟨[], [(i, j - i)], TBOut.zero i j hz, ?_, ?_⟩
      · intro fuel sol log hf _
        obtain ⟨f, rfl⟩ : ∃ f, fuel = f + 1 := ⟨fuel - 1, by omega⟩
        rw [tbr_unfold_zero T chord is_head f i j sol log (by rw [h5]; exact hz),
          List.append_nil]
      · intro rc hrc
        rw [List.mem_singleton] at hrc
        rw [hrc]; exact c0
    · by_cases hgt : opt chord i j > opt chord i (j - 1)
      · refine ⟨_, (i, j - i) :: (i, j - i) :: (i, j - 1 - i) :: (r7 ++ r8),
          TBOut.take i j out7 out8 hz h2 hgt hout7 hout8, ?_, ?_⟩
        · intro fuel sol log hf hfuel
          obtain ⟨f, rfl⟩ : ∃ f, fuel = f + 1 := ⟨fuel - 1, by omega⟩
          rw [tbr_unfold_take T chord is_head f i j sol _ log _ (by rw [h5]; exact hz) h2
            (by rw [h5, hv6]; exact hgt)
            (hrun7 f _ _ (by omega) (by push_cast at hfuel; omega)),
            hrun8 f _ _ (by omega) (by push_cast at hfuel; omega)]
          by_cases hh : is_head j = true <;> simp [hh]
        · intro rc hrc
          simp only [List.mem_cons, List.mem_append] at hrc
          rcases hrc with e | e | e | hm | hm
          · rw [e]; exact c0
          · rw [e]; exact c0
          · rw [e]; exact c1
          · exact readOK_widen (hok7 rc hm) (le_refl _) (by omega)
          · exact readOK_widen (hok8 rc hm) (by omega) (by omega)
      · refine ⟨out6, (i, j - i) :: (i, j - i) :: (i, j - 1 - i) :: r6,
          TBOut.skip i j out6 hz h2 hgt hout6, ?_, ?_⟩
        · intro fuel sol log hf hfuel
          obtain ⟨f, rfl⟩ : ∃ f, fuel = f + 1 := ⟨fuel - 1, by omega⟩
          rw [tbr_unfold_skip T chord is_head f i j sol log (by rw [h5]; exact hz) h2
            (by rw [h5, hv6]; exact hgt),
            hrun6 f _ _ (by omega) (by push_cast at hfuel; omega)]
          simp
        · intro rc hrc
          simp only [List.mem_cons] at hrc
          rcases hrc with e | e | e | hm
          · rw [e]; exact c0
          · rw [e]; exact c0
          · rw [e]; exact c1
          · exact readOK_widen (hok6 rc hm) (le_refl _) (by omega)
  | outside i j h1 h2 h3 h4 h5 ih =>
    intro hij
    obtain ⟨out, r, hout, hrun, hok⟩ := ih (by omega)
    have hv : T i (j - 1 - i) = opt chord i (j - 1) := h5.val
    have heq := opt_outside chord i j h1 h2 h3
    have c0 : ReadOK chord T i j (i, j - i) := readOK_cell h4 (le_refl _) hij (le_refl _)
    have c1 : ReadOK chord T i j (i, j - 1 - i) :=
      readOK_cell hv (le_refl _) (by omega) (by omega)
    by_cases hz : opt chord i j = 0
    · refine ⟨[], [(i, j - i)], TBOut.zero i j hz, ?_, ?_⟩
      · intro fuel sol log hf _
        obtain ⟨f, rfl⟩ : ∃ f, fuel = f + 1 := ⟨fuel - 1, by omega⟩
        rw [tbr_unfold_zero T chord is_head f i j sol log (by rw [h4]; exact hz),
          List.append_nil]
      · intro rc hrc
        rw [List.mem_singleton] at hrc
        rw [hrc]; exact c0
    · refine ⟨out, (i, j - i) :: (i, j - i) :: (i, j - 1 - i) :: r,
        TBOut.skip i j out hz h2 (by omega) hout, ?_, ?_⟩
      · intro fuel sol log hf hfuel
        obtain ⟨f, rfl⟩ : ∃ f, fuel = f + 1 := ⟨fuel - 1, by omega⟩
        rw [tbr_unfold_skip T chord is_head f i j sol log (by rw [h4]; exact hz) h2
          (by rw [h4, hv]; omega),
          hrun f _ _ (by omega) (by push_cast at hfuel; omega)]
        simp
      · intro rc hrc
        simp only [List.mem_cons] at hrc
        rcases hrc with e | e | e | hm
        · rw [e]; exact c0
        · rw [e]; exact c0
        · rw [e]; exact c1
        · exact readOK_widen (hok rc hm) (le_refl _) (by omega)

/-! ### The traceback over both tables when the words at offset `-1` read `0` -/

/-- Where the words at offset `-1` read `0` (`GuardZero`, which the program does not
establish): `traceback(0, 2N-1)` over the table left by `MPS_TD(0, 2N-1)` never reads a
sentinel: each cell it reads is a cell of the triangle that held `-1` before the call of
`MPS_TD` and now holds the value `MPS_BU` stores there, or is the guard word of an empty
interval (offset `-1`, reading `0`); and it emits exactly the sequence of positions that
`traceback(0, 2N-1)` emits over the table filled by `MPS_BU`. -/
theorem traceback_td_same_as_bu (chord : Int → Int) (is_head : Int → Bool) (N : Nat)
    (Mbu Mtd : Table) (sbu std : Subproblem) (hN : 1 ≤ N)
    (hz : ZeroTriangle N Mbu) (hgb : GuardZero N Mbu)
    (hs : SentinelTriangle N Mtd) (hgt : GuardZero N Mtd) (fuel : Nat) (hf : 2 * N < fuel) :
    ∃ v T s out reads,
      MPS_TD chord fuel 0 (2 * (N : Int) - 1) Mtd std = some (v, T, s) ∧
      tracebackReads T chord is_head fuel 0 (2 * (N : Int) - 1) [] [] = some (out, reads) ∧
      traceback T chord is_head fuel 0 (2 * (N : Int) - 1) [] = some out ∧
      traceback (MPS_BU chord N Mbu sbu).1 chord is_head fuel 0 (2 * (N : Int) - 1) []
        = some out ∧
      ∀ rc ∈ reads, T rc.1 rc.2 ≠ -1 ∧
        ((rc.2 = -1 ∧ T rc.1 rc.2 = 0) ∨
         (0 ≤ rc.1 ∧ 0 ≤ rc.2 ∧ rc.1 + rc.2 < 2 * (N : Int) ∧ Mtd rc.1 rc.2 = -1 ∧
           T rc.1 rc.2 = (MPS_BU chord N Mbu sbu).1 rc.1 rc.2)) := by
  obtain ⟨T, s, hrun, hK, _, _⟩ := td_root chord N Mtd std hN hs hgt fuel hf
  have hKb := bu_known chord N Mbu sbu hz hgb 0 (2 * (N : Int) - 1) (le_refl _) (by omega)
    (by omega)
  obtain ⟨out, reads, hout, hrd, hok⟩ := tbr_of_known chord is_head T 0 (2 * (N : Int) - 1) hK
    (by omega)
  obtain ⟨out', hout', hboth⟩ := tb_same_of_known chord is_head T (MPS_BU chord N Mbu sbu).1 0
    (2 * (N : Int) - 1) hK hKb
  have e : out = out' := tbOut_det hout hout'
  subst e
  obtain ⟨hb1, hb2⟩ := hboth fuel [] (by omega) (by omega)
  refine ⟨_, T, s, out, reads, hrun, by simpa using hrd fuel [] [] (by omega) (by omega),
    by simpa using hb1, by simpa using hb2, ?_⟩
  intro rc hrc
  obtain ⟨h1, h2, h3, h4⟩ := hok rc hrc
  have hnn := opt_nonneg_all chord rc.1 (rc.1 + rc.2)
  refine ⟨by rw [h4]; omega, ?_⟩
  by_cases hc : rc.2 = -1
  · left
    refine ⟨hc, ?_⟩
    rw [h4, opt_base chord _ _ (by omega)]
  · right
    have hb := bu_table chord N Mbu sbu hz hgb rc.1 (rc.1 + rc.2) h1 (by omega) (by omega)
    rw [show rc.1 + rc.2 - rc.1 = rc.2 by omega] at hb
    exact ⟨h1, by omega, by omega, hs rc.1 rc.2 h1 (by omega) (by omega), by rw [h4, hb]⟩

theorem traceback_td_same_as_bu_witness :
    ∃ v T s out reads,
      MPS_TD chord1 3 0 (2 * ((1 : Nat) : Int) - 1) (sentinelTable 1) emptySub
        = some (v, T, s) ∧
      tracebackReads T chord1 head1 3 0 (2 * ((1 : Nat) : Int) - 1) [] [] = some (out, reads) ∧
      traceback T chord1 head1 3 0 (2 * ((1 : Nat) : Int) - 1) [] = some out ∧
      traceback (MPS_BU chord1 1 zeroTable emptySub).1 chord1 head1 3 0
        (2 * ((1 : Nat) : Int) - 1) [] = some out ∧
      ∀ rc ∈ reads, T rc.1 rc.2 ≠ -1 ∧
        ((rc.2 = -1 ∧ T rc.1 rc.2 = 0) ∨
         (0 ≤ rc.1 ∧ 0 ≤ rc.2 ∧ rc.1 + rc.2 < 2 * ((1 : Nat) : Int) ∧
           sentinelTable 1 rc.1 rc.2 = -1 ∧
           T rc.1 rc.2 = (MPS_BU chord1 1 zeroTable emptySub).1 rc.1 rc.2)) :=
  traceback_td_same_as_bu chord1 head1 1 zeroTable (sentinelTable 1) emptySub emptySub
    (le_refl _) (zeroTable_zero 1) (zeroTable_guard 1) (sentinelTable_sentinel 1)
    (sentinelTable_guard 1) 3 (by decide)

/-! ### Ties -/

theorem chordX_valid : ValidPairing 2 chordX := by
  intro p h0 h1
  have hp : p = 0 ∨ p = 1 ∨ p = 2 ∨ p = 3 := by omega
  rcases hp with rfl | rfl | rfl | rfl <;> simp [chordX]

/-! ### Dependence on the arrays -/

theorem opt_congr (c c' : Int → Int) :
    ∀ (n : Nat) (i j : Int), j - i < n → (∀ p, i < p → p ≤ j → c p = c' p) →
      opt c i j = opt c' i j := by
  intro n
  induction n with
  | zero =>
    intro i j h _
    rw [opt_base _ i j (by omega), opt_base _ i j (by omega)]
  | succ n ih =>
    intro i j hn hag
    by_cases hji : j ≤ i
    · rw [opt_base _ i j hji, opt_base _ i j hji]
    · have hlt : i < j := not_le.mp hji
      have hcj := hag j hlt (le_refl _)
      have e1 := ih i (j - 1) (by omega) (fun p h1 h2 => hag p h1 (by omega))
      by_cases hk : c j = i
      · rw [opt_nest c i j hlt hk, opt_nest c' i j hlt (by omega),
          ih (i + 1) (j - 1) (by omega) (fun p h1 h2 => hag p (by omega) (by omega))]
      · by_cases hin : i < c j ∧ c j < j
        · have e3 := ih i (c j - 1) (by omega) (fun p h1 h2 => hag p h1 (by omega))
          have e4 := ih (c j + 1) (j - 1) (by omega)
            (fun p h1 h2 => hag p (by omega) (by omega))
          rw [opt_inside c i j hlt hk hin.1 hin.2,
            opt_inside c' i j hlt (by omega) (by omega) (by omega), e1, e3, e4, hcj]
        · rw [opt_outside c i j hlt hk hin,
            opt_outside c' i j hlt (by omega) (by omega), e1]

theorem tbOut_congr {c c' : Int → Int} {h h' : Int → Bool} {i j : Int} {out : List Int}
    (ho : TBOut c h i j out) :
    (∀ p, i ≤ p → p ≤ j → c p = c' p ∧ h p = h' p) → TBOut c' h' i j out := by
  induction ho with
  | zero i j h0 =>
    intro hag
    refine TBOut.zero i j ?_
    rw [← opt_congr c c' (j - i + 1).toNat i j (by omega) (fun p h1 h2 => (hag p (by omega) h2).1)]
    exact h0
  | nest i j out a1 a2 _ ih =>
    intro hag
    have hlt := opt_ne_zero_lt c i j a1
    have e0 := opt_congr c c' (j - i + 1).toNat i j (by omega)
      (fun p h1 h2 => (hag p (by omega) h2).1)
    have hcj := (hag j (by omega) (le_refl _)).1
    have hhi := (hag i (le_refl _) (by omega)).2
    have := @TBOut.nest c' h' i j out (by rw [← e0]; exact a1) (by omega)
      (ih (fun p h1 h2 => hag p (by omega) (by omega)))
    rwa [← hhi] at this
  | take i j o1 o2 a1 a2 a3 _ _ ih1 ih2 =>
    intro hag
    have hlt := opt_ne_zero_lt c i j a1
    have hin := opt_gt_inside c i j a2 a3
    have e0 := opt_congr c c' (j - i + 1).toNat i j (by omega)
      (fun p h1 h2 => (hag p (by omega) h2).1)
    have e1 := opt_congr c c' (j - i + 1).toNat i (j - 1) (by omega)
      (fun p h1 h2 => (hag p (by omega) (by omega)).1)
    have hcj := (hag j (by omega) (le_refl _)).1
    have hhj := (hag j (by omega) (le_refl _)).2
    have t1 := ih1 (fun p h1 h2 => hag p h1 (by omega))
    have t2 := ih2 (fun p h1 h2 => hag p (by omega) (by omega))
    rw [hcj] at t1 t2
    have := @TBOut.take c' h' i j o1 o2 (by rw [← e0]; exact a1) (by omega)
      (by rw [← e0, ← e1]; exact a3) t1 t2
    rwa [← hhj, ← hcj] at this
  | skip i j out a1 a2 a3 _ ih =>
    intro hag
    have hlt := opt_ne_zero_lt c i j a1
    have e0 := opt_congr c c' (j - i + 1).toNat i j (by omega)
      (fun p h1 h2 => (hag p (by omega) h2).1)
    have e1 := opt_congr c c' (j - i + 1).toNat i (j - 1) (by omega)
      (fun p h1 h2 => (hag p (by omega) (by omega)).1)
    have hcj := (hag j (by omega) (le_refl _)).1
    exact TBOut.skip i j out (by rw [← e0]; exact a1) (by omega)
      (by rw [← e0, ← e1]; exact a3) (ih (fun p h1 h2 => hag p h1 (by omega)))

/-! ### The surrounding program -/

theorem callocTable_zero (N : Nat) (heap : Table) : ZeroTriangle N (callocTable N heap) := by
  intro r c hr hc hrc
  have : 0 ≤ r ∧ r < 2 * (N : Int) ∧ 0 ≤ c ∧ c < 2 * (N : Int) - r :=
    ⟨hr, by omega, hc, by omega⟩
  simp only [callocTable, if_pos this]

theorem callocTable_guard (N : Nat) (heap : Table) (h : ∀ r : Int, heap r (-1) = 0) :
    GuardZero N (callocTable N heap) := by
  intro r _ _
  have : ¬ (0 ≤ r ∧ r < 2 * (N : Int) ∧ (0 : Int) ≤ -1 ∧ (-1 : Int) < 2 * (N : Int) - r) := by
    omega
  simp only [callocTable, if_neg this]
  exact h r

theorem fillSentinel_sentinel (N : Nat) (M : Table) : SentinelTriangle N (fillSentinel N M) := by
  intro r c hr hc hrc
  have : 0 ≤ r ∧ r < 2 * (N : Int) ∧ 0 ≤ c ∧ c < 2 * (N : Int) - r :=
    ⟨hr, by omega, hc, by omega⟩
  simp only [fillSentinel, if_pos this]

theorem fillSentinel_guard (N : Nat) (M : Table) (h : GuardZero N M) :
    GuardZero N (fillSentinel N M) := by
  intro r hr hr2
  have : ¬ (0 ≤ r ∧ r < 2 * (N : Int) ∧ (0 : Int) ≤ -1 ∧ (-1 : Int) < 2 * (N : Int) - r) := by
    omega
  simp only [fillSentinel, if_neg this]
  exact h r hr hr2

theorem example3_out : TBOut chord3 head3 0 5 [2, 0, 3] := by
  obtain ⟨out, hout, hrun⟩ := tb_of_known chord3 head3 _ 0 5
    (bu_known chord3 3 zeroTable emptySub (zeroTable_zero 3) (zeroTable_guard 3) 0 5
      (le_refl _) (by decide) (by decide))
  have h7 := hrun 7 [] (by decide) (by decide)
  have hd : traceback (MPS_BU chord3 3 zeroTable emptySub).1 chord3 head3 7 0 5 []
      = some [2, 0, 3] := by decide
  rw [hd] at h7
  have : out = [2, 0, 3] := by simpa using h7.symm
  rw [← this]
  exact hout

theorem example3_opt : opt chord3 0 5 = 3 := by
  rw [← bu_table chord3 3 zeroTable emptySub (zeroTable_zero 3) (zeroTable_guard 3) 0 5
    (le_refl _) (by decide) (by decide)]
  decide

theorem example3_sort (rand : Nat → Nat) (fuel : Nat) (hf : 8 ≤ fuel) :
    ∃ c, QSort rand fuel [2, 0, 3] 0 (([2, 0, 3] : List Int).length - 1 : Int) 0
      = some ([0, 2, 3], c) := by
  obtain ⟨d', c', hrun, _, hsorted, hperm⟩ := qsort_correct rand [2, 0, 3] 0 fuel
    (by simpa using hf)
  have hs : ([0, 2, 3] : List Int).Sorted (fun a b => a ≤ b) := by simp
  have hp : ([0, 2, 3] : List Int).Perm [2, 0, 3] := by decide
  have : d' = [0, 2, 3] := List.eq_of_perm_of_sorted (hperm.trans hp.symm) hsorted hs
  rw [this] at hrun
  exact ⟨c', by simpa using hrun⟩

/-! ### The memo table -/

/-- Where the words at offset `-1` read `0` (`GuardZero`, which the program does not
establish): memo-table invariant of `MPS_TD`.  (1) A call whose cell no longer holds `-1`
returns that cell and leaves the table and the trace as they are.  (2) Every call
`MPS_TD(i, j)` made on a table that satisfies the invariant on the region of `(i, j)`
(each cell is `-1` or holds its final value) returns the value `MPS_BU` stores for
`(i, j)`; each cell is left as it was, or held `-1`, lies in the region and now holds a
value `≥ 0` equal to the value `MPS_BU` stores; and the invariant holds again on return.
(3) After `MPS_TD(0, 2N-1)` on an all-sentinel table every cell of the triangle holds `-1`
or a value `≥ 0` equal to the value `MPS_BU` stores. -/
theorem td_memo_invariant (chord : Int → Int) (N : Nat) (Mbu : Table) (sbu : Subproblem)
    (hN : 1 ≤ N) (hz : ZeroTriangle N Mbu) (hgb : GuardZero N Mbu) :
    (∀ (fuel : Nat) (i j : Int) (M : Table) (sub : Subproblem), M i (j - i) ≠ -1 →
      MPS_TD chord (fuel + 1) i j M sub = some (M i (j - i), M, sub)) ∧
    (∀ (fuel : Nat) (i j : Int) (M : Table) (sub : Subproblem), 0 ≤ i → i ≤ j →
      j < 2 * (N : Int) → j - i + 1 < fuel → RegInv chord i j M →
      ∃ T s, MPS_TD chord fuel i j M sub = some ((MPS_BU chord N Mbu sbu).1 i (j - i), T, s) ∧
        (∀ r c : Int, T r c = M r c ∨
          (M r c = -1 ∧ i ≤ r ∧ 0 ≤ c ∧ r + c ≤ j ∧ 0 ≤ T r c ∧
            T r c = (MPS_BU chord N Mbu sbu).1 r c)) ∧
        RegInv chord i j T) ∧
    (∀ (Mtd : Table) (std : Subproblem) (fuel : Nat), SentinelTriangle N Mtd →
      GuardZero N Mtd → 2 * N < fuel →
      ∃ v T s, MPS_TD chord fuel 0 (2 * (N : Int) - 1) Mtd std = some (v, T, s) ∧
        ∀ i j : Int, 0 ≤ i → i ≤ j → j < 2 * (N : Int) →
          T i (j - i) = -1 ∨
            (0 ≤ T i (j - i) ∧ T i (j - i) = (MPS_BU chord N Mbu sbu).1 i (j - i))) := by
  refine ⟨fun fuel i j M sub h => td_unfold_hit chord fuel i j M sub h, ?_, ?_⟩
  · intro fuel i j M sub hi hij hj hf hinv
    obtain ⟨T, s, hrun, hstep, _⟩ := td_main chord fuel fuel i j M sub hf (le_refl _)
      (by omega) (fun h => by omega) hinv
    refine ⟨T, s, ?_, ?_, hinv.step hstep⟩
    · rw [hrun, bu_table chord N Mbu sbu hz hgb i j hi hij hj]
    · intro r c
      rcases hstep r c with h | ⟨h1, h2, h3, h4, h5⟩
      · exact Or.inl h
      · right
        have hv := h5.val
        rw [show r + c - r = c by omega] at hv
        have hb := bu_table chord N Mbu sbu hz hgb r (r + c) (by omega) (by omega) (by omega)
        rw [show r + c - r = c by omega] at hb
        have := opt_nonneg_all chord r (r + c)
        exact ⟨h1, h2, h3, h4, by omega, by rw [hv, hb]⟩
  · intro Mtd std fuel hs hgt hf
    obtain ⟨T, s, hrun, _, hinv, _⟩ := td_root chord N Mtd std hN hs hgt fuel hf
    refine ⟨_, T, s, hrun, ?_⟩
    intro i j hi hij hj
    rcases hinv.1 i j hi hij (by omega) with h | h
    · exact Or.inl h
    · right
      have := opt_nonneg_all chord i j
      rw [h.val, bu_table chord N Mbu sbu hz hgb i j hi hij hj]
      exact ⟨this, rfl⟩

theorem td_memo_invariant_witness :
    ∃ v T s, MPS_TD chord1 3 0 (2 * ((1 : Nat) : Int) - 1) (sentinelTable 1) emptySub
        = some (v, T, s) ∧
      ∀ i j : Int, 0 ≤ i → i ≤ j → j < 2 * ((1 : Nat) : Int) →
        T i (j - i) = -1 ∨
          (0 ≤ T i (j - i) ∧ T i (j - i) = (MPS_BU chord1 1 zeroTable emptySub).1 i (j - i)) :=
  (td_memo_invariant chord1 1 zeroTable emptySub (le_refl _) (zeroTable_zero 1)
    (zeroTable_guard 1)).2.2 (sentinelTable 1) emptySub 3 (sentinelTable_sentinel 1)
    (sentinelTable_guard 1) (by decide)

/-! ### The trace record of the top-down solver -/

theorem recordAll_append (V W : List (Int × Int)) (s : Subproblem) :
    recordAll (V ++ W) s = recordAll W (recordAll V s) := by
  simp [recordAll, List.foldl_append]

theorem recordAll_cons (p : Int × Int) (V : List (Int × Int)) (s : Subproblem) :
    recordAll (p :: V) s = recordAll V (tdRecord p.1 p.2 s) := rfl

theorem recorded_inside {M : Table} {i j : Int} {V : List (Int × Int)}
    (h0 : M i (j - i) ≠ -1 → V = [])
    (h1 : M i (j - i) = -1 → ∃ V', V = (i, j) :: V' ∧
      ∀ p ∈ V', i ≤ p.1 ∧ p.2 ≤ j ∧ p.2 - p.1 < j - i) :
    ∀ p ∈ V, i ≤ p.1 ∧ p.2 ≤ j ∧ p.2 - p.1 ≤ j - i := by
  intro p hp
  by_cases hm : M i (j - i) = -1
  · obtain ⟨V', rfl, hV'⟩ := h1 hm
    rcases List.mem_cons.mp hp with e | hp'
    · rw [e]
      exact ⟨le_refl _, le_refl _, le_refl _⟩
    · have := hV' p hp'
      omega
  · rw [h0 hm] at hp
    exact absurd hp (List.not_mem_nil p)

theorem tdRecord_len (i j : Int) (s : Subproblem) :
    (tdRecord i j s).curr_len = if s.curr_len = 4 then 4 else s.curr_len + 1 := by
  unfold tdRecord
  split_ifs with h
  · exact h
  · rfl

theorem tdRecord_slot (i j : Int) (s : Subproblem) (k : Int) :
    ((tdRecord i j s).i_arr k, (tdRecord i j s).j_arr k)
      = if k = (if s.curr_len = 4 then 3 else s.curr_len) then (i, j)
        else (s.i_arr k, s.j_arr k) := by
  unfold tdRecord
  split_ifs with h1 h2 h3 <;> simp_all [arrSet]

/-- C17: for the single chord `{0, 1}` (`N = 1`) `MPS_BU` accesses, in order, the cells
`M[0][0]`, `M[1][-1]`, `M[0][1]`, and `traceback(0, 1)` reads `M[0][1]`, `M[1][-1]`: the
offset `-1` lies outside row `1`, which has one entry.  The value read there decides the
result: when that word holds `5`, both solvers give `6`. -/
theorem indexing_leaves_triangle :
    MPS_BU_acc chord1 1 zeroTable emptySub = [(0, 0), (1, -1), (0, 1)] ∧
    tracebackReads (MPS_BU chord1 1 zeroTable emptySub).1 chord1 head1 3 0 1 [] []
      = some ([0], [(0, 1), (1, -1)]) ∧
    (MPS_BU chord1 1 junkGuard emptySub).1 0 1 = 6 ∧
    (MPS_TD chord1 3 0 1 (fillSentinel 1 junkGuard) emptySub).map (fun x => x.1) = some 6 := by
  decide

theorem buCell_eq (chord : Int → Int) (M : Table) (i j : Int) :
    buCell chord M i j = M.set i (j - i) (buValue chord M i j) := by
  simp only [buCell, buValue]
  split_ifs <;> rfl

theorem buValue_congr (chord : Int → Int) (M M' : Table) (i j : Int)
    (h : ∀ r d : Int, d < j - i → M r d = M' r d) :
    buValue chord M i j = buValue chord M' i j := by
  simp only [buValue]
  have e1 : M i (j - 1 - i) = M' i (j - 1 - i) := h _ _ (by omega)
  have e2 : M (i + 1) (j - 1 - (i + 1)) = M' (i + 1) (j - 1 - (i + 1)) := h _ _ (by omega)
  by_cases hk : chord j = i
  · rw [if_pos hk, if_pos hk, e2]
  · rw [if_neg hk, if_neg hk]
    by_cases hin : i < chord j ∧ chord j < j
    · have e3 : M i (chord j - 1 - i) = M' i (chord j - 1 - i) := h _ _ (by omega)
      have e4 : M (chord j + 1) (j - 1 - (chord j + 1))
          = M' (chord j + 1) (j - 1 - (chord j + 1)) := h _ _ (by omega)
      rw [e1, e3, e4]
    · rw [if_neg (fun hh => hin ⟨hh.1, hh.2.1⟩), if_neg (fun hh => hin ⟨hh.1, hh.2.1⟩), e1]

theorem buCell_fix (chord : Int → Int) (N L I : Nat) (M : Table)
    (h : BUFix chord N L I M) :
    BUFix chord N L (I + 1) (buCell chord M (I : Int) ((I : Int) + (L : Int))) := by
  rw [buCell_eq]
  have e : (I : Int) + (L : Int) - (I : Int) = (L : Int) := by omega
  rw [e]
  intro i c hi hc hic hcases
  have hagree : ∀ r d : Int, d < (L : Int) →
      M r d = M.set (I : Int) (L : Int) (buValue chord M (I : Int) ((I : Int) + (L : Int))) r d :=
    fun r d hd => (Table.set_other _ _ _ _ _ _ (by rintro ⟨_, h2⟩; omega)).symm
  have hval : buValue chord M i (i + c)
      = buValue chord
          (M.set (I : Int) (L : Int) (buValue chord M (I : Int) ((I : Int) + (L : Int))))
          i (i + c) :=
    buValue_congr chord _ _ i (i + c) (fun r d hd => hagree r d (by
      rcases hcases with h1 | ⟨h1, _⟩ <;> omega))
  by_cases hcell : i = (I : Int) ∧ c = (L : Int)
  · obtain ⟨rfl, rfl⟩ := hcell
    rw [Table.set_same, ← hval]
  · rw [Table.set_other _ _ _ _ _ _ hcell, ← hval]
    apply h i c hi hc hic
    rcases hcases with h1 | ⟨h1, h2⟩
    · exact Or.inl h1
    · refine Or.inr ⟨h1, ?_⟩
      have : i ≠ (I : Int) := fun hh => hcell ⟨hh, h1⟩
      omega

theorem buInner_fix (chord : Int → Int) (N L : Nat) (s : Table × Subproblem)
    (hLN : L < 2 * N) (h : BUFix chord N L 0 s.1) :
    BUFix chord N (L + 1) 0 (buInner chord N L s).1 := by
  have key := foldl_range_inv
    (fun (t : Table × Subproblem) (i : Nat) => buStep chord (i : Int) ((i : Int) + (L : Int)) t)
    (fun k t => BUFix chord N L k t.1) (2 * N - L) s h
    (fun k t _ hp => buCell_fix chord N L k t.1 hp)
  intro i c hi hc hic hcases
  have key2 : BUFix chord N L (2 * N - L) (buInner chord N L s).1 := key
  apply key2 i c hi hc hic
  rcases hcases with h1 | ⟨_, h2⟩
  · by_cases hcl : c < (L : Int)
    · exact Or.inl hcl
    · refine Or.inr ⟨by push_cast at h1; omega, ?_⟩
      push_cast at h1
      omega
  · omega

theorem buOuter_fix (chord : Int → Int) (N : Nat) (s : Table × Subproblem) :
    BUFix chord N (2 * N) 0 (buOuter chord N s).1 := by
  by_cases hN : N = 0
  · subst hN
    intro i c hi hc hic _
    omega
  · have h0 : BUFix chord N 1 0 s.1 := by
      intro i c hi hc hic hcases
      omega
    have key := foldl_range'_inv
      (fun (t : Table × Subproblem) (L : Nat) => buInner chord N L t)
      (fun L t => BUFix chord N L 0 t.1) 1 (2 * N - 1) s h0
      (fun k t _ hk2 hp => buInner_fix chord N k t (by omega) hp)
    have e : 1 + (2 * N - 1) = 2 * N := by omega
    have key2 : BUFix chord N (1 + (2 * N - 1)) 0 (buOuter chord N s).1 := key
    rw [e] at key2
    exact key2

/-- For every initial table, every cell that `MPS_BU` fills holds in the final table the
value that lines 18-25 compute from the final table. -/
theorem bu_fixpoint (chord : Int → Int) (N : Nat) (M : Table) (sub : Subproblem) (i j : Int)
    (hi : 0 ≤ i) (hij : i < j) (hj : j < 2 * (N : Int)) :
    (MPS_BU chord N M sub).1 i (j - i) = buValue chord (MPS_BU chord N M sub).1 i j := by
  have key := buOuter_fix chord N (M, sub) i (j - i) hi (by omega) (by omega)
    (Or.inl (by push_cast; omega))
  simp only [MPS_BU]
  rw [key]
  congr 1
  omega

theorem buInner_frame (chord : Int → Int) (N L : Nat) (s : Table × Subproblem) (hL : 1 ≤ L)
    (r c : Int) (hc : c ≤ 0) : (buInner chord N L s).1 r c = s.1 r c := by
  have key := foldl_range_inv
    (fun (t : Table × Subproblem) (i : Nat) => buStep chord (i : Int) ((i : Int) + (L : Int)) t)
    (fun _ t => t.1 r c = s.1 r c) (2 * N - L) s rfl
    (fun k t _ hp => by
      show buCell chord t.1 (k : Int) ((k : Int) + (L : Int)) r c = s.1 r c
      rw [buCell_other chord t.1 _ _ r c (by rintro ⟨_, h2⟩; omega)]
      exact hp)
  exact key

/-- The words at offsets `≤ 0` (the diagonal and everything before a row) are left as they
were by `MPS_BU`. -/
theorem bu_frame (chord : Int → Int) (N : Nat) (M : Table) (sub : Subproblem) (r c : Int)
    (hc : c ≤ 0) : (MPS_BU chord N M sub).1 r c = M r c := by
  have key := foldl_range'_inv
    (fun (t : Table × Subproblem) (L : Nat) => buInner chord N L t)
    (fun _ t => t.1 r c = M r c) 1 (2 * N - 1) (M, sub) rfl
    (fun k t hk1 _ hp => by
      show (buInner chord N k t).1 r c = M r c
      rw [buInner_frame chord N k t hk1 r c hc]
      exact hp)
  exact key

/-! ### The take branch and ties, for every initial table -/

theorem bu_diag (chord : Int → Int) (N : Nat) (M : Table) (sub : Subproblem)
    (hz : ZeroTriangle N M) (r : Int) (h0 : 0 ≤ r) (h1 : r < 2 * (N : Int)) :
    (MPS_BU chord N M sub).1 r 0 = 0 := by
  rw [bu_frame chord N M sub r 0 (le_refl _)]
  exact hz r 0 h0 (le_refl _) (by omega)

/-- On a zero-initialised triangle the notation `M(a, b)` (`0` when `b ≤ a`) and the word
`M[a][b-a]` agree for every interval `a ≤ b` of the table filled by `MPS_BU`. -/
theorem bu_cellVal_raw (chord : Int → Int) (N : Nat) (M : Table) (sub : Subproblem)
    (hz : ZeroTriangle N M) (a b : Int) (ha : 0 ≤ a) (hab : a ≤ b) (hb : b < 2 * (N : Int)) :
    cellVal (MPS_BU chord N M sub).1 a b = (MPS_BU chord N M sub).1 a (b - a) := by
  unfold cellVal
  split_ifs with h
  · have e : b - a = 0 := by omega
    rw [e, bu_diag chord N M sub hz a ha (by omega)]
  · rfl

theorem tb_tie (T : Table) (chord : Int → Int) (is_head : Int → Bool) (i j : Int)
    (hk : chord j ≠ i) (heq : T i (j - i) = T i (j - 1 - i)) (fuel : Nat) (sol : List Int) :
    traceback T chord is_head (fuel + 2) i j sol
      = traceback T chord is_head (fuel + 1) i (j - 1) sol := by
  by_cases h0 : T i (j - i) = 0
  · rw [tb_unfold_zero T chord is_head (fuel + 1) i j sol h0,
      tb_unfold_zero T chord is_head fuel i (j - 1) sol (by rw [← heq]; exact h0)]
  · exact tb_unfold_skip T chord is_head (fuel + 1) i j sol h0 hk (by omega)

/-- C16: in the table filled by `MPS_BU`, for all `0 ≤ i < j ≤ 2N-1` with `k = chord[j]`,
`i < k < j` and `1 + M(i, k-1) + M(k+1, j-1) = M(i, j-1)`: the cell `M(i, j)` holds
`M(i, j-1)`, and the call `traceback(i, j)` is, after its tests, the call
`traceback(i, j-1)`, so that both give the same result from the same buffer.  This is
proved (1) for every store, with `M(a, b)` read as the word `M[a][b-a]` that the code
reads, and (2) for every valid pairing and every store whose triangle is zero, with
`M(a, b)` read in the notation of the transition (`0` when `b ≤ a`).  (3) For the chords
`{0,2}`, `{1,3}` and every store whose triangle is zero the result is `1` and `traceback`
emits the single position `0`, the head of chord `{0,2}`. -/
theorem ties_prefer_skip (chord : Int → Int) (is_head : Int → Bool) (N : Nat) (M : Table)
    (sub : Subproblem) :
    (∀ i j : Int, 0 ≤ i → i < j → j ≤ 2 * (N : Int) - 1 → i < chord j → chord j < j →
      1 + (MPS_BU chord N M sub).1 i (chord j - 1 - i)
          + (MPS_BU chord N M sub).1 (chord j + 1) (j - 1 - (chord j + 1))
        = (MPS_BU chord N M sub).1 i (j - 1 - i) →
      (MPS_BU chord N M sub).1 i (j - i) = (MPS_BU chord N M sub).1 i (j - 1 - i) ∧
      ∀ (fuel : Nat) (sol : List Int),
        traceback (MPS_BU chord N M sub).1 chord is_head (fuel + 2) i j sol
          = traceback (MPS_BU chord N M sub).1 chord is_head (fuel + 1) i (j - 1) sol) ∧
    (ValidPairing N chord → ZeroTriangle N M →
      ∀ i j : Int, 0 ≤ i → i < j → j ≤ 2 * (N : Int) - 1 → i < chord j → chord j < j →
        1 + cellVal (MPS_BU chord N M sub).1 i (chord j - 1)
            + cellVal (MPS_BU chord N M sub).1 (chord j + 1) (j - 1)
          = cellVal (MPS_BU chord N M sub).1 i (j - 1) →
        cellVal (MPS_BU chord N M sub).1 i j = cellVal (MPS_BU chord N M sub).1 i (j - 1) ∧
        ∀ (fuel : Nat) (sol : List Int),
          traceback (MPS_BU chord N M sub).1 chord is_head (fuel + 2) i j sol
            = traceback (MPS_BU chord N M sub).1 chord is_head (fuel + 1) i (j - 1) sol) ∧
    (∀ M0 : Table, ZeroTriangle 2 M0 →
      (MPS_BU chordX 2 M0 sub).1 0 3 = 1 ∧
      (∀ fuel : Nat, traceback (MPS_BU chordX 2 M0 sub).1 chordX headX (fuel + 3) 0 3 []
        = some [0]) ∧
      chordX 0 = 2) := by
  have raw : ∀ i j : Int, 0 ≤ i → i < j → j ≤ 2 * (N : Int) - 1 → i < chord j → chord j < j →
      1 + (MPS_BU chord N M sub).1 i (chord j - 1 - i)
          + (MPS_BU chord N M sub).1 (chord j + 1) (j - 1 - (chord j + 1))
        = (MPS_BU chord N M sub).1 i (j - 1 - i) →
      (MPS_BU chord N M sub).1 i (j - i) = (MPS_BU chord N M sub).1 i (j - 1 - i) ∧
      ∀ (fuel : Nat) (sol : List Int),
        traceback (MPS_BU chord N M sub).1 chord is_head (fuel + 2) i j sol
          = traceback (MPS_BU chord N M sub).1 chord is_head (fuel + 1) i (j - 1) sol := by
    intro i j hi hij hj hk1 hk2 htie
    have hki : chord j ≠ i := by omega
    have hfix := bu_fixpoint chord N M sub i j hi hij (by omega)
    have heq : (MPS_BU chord N M sub).1 i (j - i) = (MPS_BU chord N M sub).1 i (j - 1 - i) := by
      rw [hfix]
      simp only [buValue, if_neg hki]
      rw [if_neg (fun hh => by have := hh.2.2; omega)]
    exact ⟨heq, fun fuel sol => tb_tie _ chord is_head i j hki heq fuel sol⟩
  refine ⟨raw, ?_, ?_⟩
  · intro hv hz i j hi hij hj hk1 hk2 htie
    rw [bu_cellVal_raw chord N M sub hz i (chord j - 1) hi (by omega) (by omega),
      bu_cellVal_raw chord N M sub hz i (j - 1) hi (by omega) (by omega)] at htie
    rw [bu_cellVal_raw chord N M sub hz i j hi (by omega) (by omega),
      bu_cellVal_raw chord N M sub hz i (j - 1) hi (by omega) (by omega)]
    by_cases hadj : chord j = j - 1
    · -- the partner of `j` is `j - 1`: the tie cannot occur
      exfalso
      have hc : cellVal (MPS_BU chord N M sub).1 (chord j + 1) (j - 1) = 0 := by
        unfold cellVal
        rw [if_pos (by omega)]
      rw [hc] at htie
      have hback : chord (j - 1) = j := by
        have := (hv j (by omega) (by omega)).2.2.1
        rw [hadj] at this
        exact this
      have hfix := bu_fixpoint chord N M sub i (j - 1) hi (by omega) (by omega)
      simp only [buValue] at hfix
      rw [hback, if_neg (by omega), if_neg (fun hh => by have := hh.2.1; omega)] at hfix
      rw [hadj] at htie
      omega
    · rw [bu_cellVal_raw chord N M sub hz (chord j + 1) (j - 1) (by omega) (by omega)
        (by omega)] at htie
      exact raw i j hi hij hj hk1 hk2 htie
  · intro M0 hz
    have d : ∀ r : Int, 0 ≤ r → r < 4 → (MPS_BU chordX 2 M0 sub).1 r 0 = 0 :=
      fun r h0 h1 => bu_diag chordX 2 M0 sub hz r h0 (by omega)
    have f := fun i j h1 h2 h3 => bu_fixpoint chordX 2 M0 sub i j h1 h2 h3
    have c02 : (MPS_BU chordX 2 M0 sub).1 0 2 = 1 := by
      have := f 0 2 (by decide) (by decide) (by decide)
      simp [buValue, chordX] at this
      rw [this, d 1 (by decide) (by decide)]
      rfl
    have c03 : (MPS_BU chordX 2 M0 sub).1 0 3 = 1 := by
      have := f 0 3 (by decide) (by decide) (by decide)
      simp [buValue, chordX] at this
      rw [this, d 0 (by decide) (by decide), d 2 (by decide) (by decide), c02]
      simp
    refine ⟨c03, ?_, by decide⟩
    intro fuel
    rw [tb_unfold_skip _ chordX headX (fuel + 2) 0 3 [] (by simp [c03]) (by decide)
      (by simp [c03, c02])]
    rw [tb_unfold_nest _ chordX headX (fuel + 1) 0 (3 - 1) [] (by simp [c02]) (by decide)]
    rw [tb_unfold_zero _ chordX headX fuel (0 + 1) (3 - 1 - 1) _
      (by simpa using d 1 (by decide) (by decide))]
    rfl

theorem ties_prefer_skip_witness :
    (MPS_BU chordX 2 junkGuard emptySub).1 0 (3 - 0)
        = (MPS_BU chordX 2 junkGuard emptySub).1 0 (3 - 1 - 0) ∧
      ∀ (fuel : Nat) (sol : List Int),
        traceback (MPS_BU chordX 2 junkGuard emptySub).1 chordX headX (fuel + 2) 0 3 sol
          = traceback (MPS_BU chordX 2 junkGuard emptySub).1 chordX headX (fuel + 1) 0 (3 - 1)
              sol :=
  (ties_prefer_skip chordX headX 2 junkGuard emptySub).1 0 3 (le_refl _) (by decide)
    (by decide) (by decide) (by decide) (by decide)

/-- `MPS_TD` returns for every table and every trace record once the bound on the call
depth exceeds the length of the interval: the recursion is on strictly shorter intervals
and an empty interval makes no call. -/
theorem td_terminates (chord : Int → Int) :
    ∀ (n fuel : Nat) (i j : Int) (M : Table) (sub : Subproblem),
      j - i + 1 < n → n ≤ fuel → i ≤ j + 1 →
      ∃ r, MPS_TD chord fuel i j M sub = some r := by
  intro n
  induction n with
  | zero => intro fuel i j M sub h _ h2; omega
  | succ n ih =>
    intro fuel i j M sub hn hf hij
    obtain ⟨f, rfl⟩ : ∃ f, fuel = f + 1 := ⟨fuel - 1, by omega⟩
    have hnf : n ≤ f := by omega
    by_cases hmemo : M i (j - i) = -1
    swap
    · exact ⟨_, td_unfold_hit chord f i j M sub hmemo⟩
    · by_cases hji : j ≤ i
      · exact ⟨_, td_unfold_base chord f i j M sub hmemo hji⟩
      · by_cases hk : chord j = i
        · obtain ⟨⟨v1, M1, sub1⟩, h1⟩ := ih f (i + 1) (j - 1) M (tdRecord i j sub)
            (by omega) hnf (by omega)
          exact ⟨_, td_unfold_nest chord f i j M sub hmemo hji hk v1 M1 sub1 h1⟩
        · obtain ⟨⟨o1, M1, sub1⟩, h1⟩ := ih f i (j - 1) M (tdRecord i j sub)
            (by omega) hnf (by omega)
          by_cases hk2 : i < chord j ∧ chord j < j
          · obtain ⟨⟨a, M3, sub3⟩, h3⟩ := ih f i (chord j - 1) (M1.set i (j - i) o1) sub1
              (by omega) hnf (by omega)
            obtain ⟨⟨b, M4, sub4⟩, h4⟩ := ih f (chord j + 1) (j - 1) M3 sub3
              (by omega) hnf (by omega)
            exact ⟨_, td_unfold_inside chord f i j M sub hmemo hji hk hk2 o1 a b M1 M3 M4
              sub1 sub3 sub4 h1 h3 h4⟩
          · exact ⟨_, td_unfold_outside chord f i j M sub hmemo hji hk hk2 o1 M1 sub1 h1⟩

/-- The instrumented run is the run of `MPS_TD` with the list of visits added. -/
theorem td_visits_erase (chord : Int → Int) :
    ∀ (fuel : Nat) (i j : Int) (M : Table) (sub : Subproblem),
      (MPS_TD_visits chord fuel i j M sub).map (fun x => x.1) = MPS_TD chord fuel i j M sub := by
  intro fuel
  induction fuel with
  | zero => intro i j M sub; rfl
  | succ f ih =>
    intro i j M sub
    by_cases hmemo : M i (j - i) = -1
    swap
    · simp only [MPS_TD_visits, MPS_TD, if_pos hmemo, Option.map_some']
    · by_cases hji : j ≤ i
      · simp only [MPS_TD_visits, MPS_TD, hmemo, ne_eq, not_true_eq_false, if_false,
          if_pos hji, Option.map_some']
      · by_cases hk : chord j = i
        · have e1 := ih (i + 1) (j - 1) M (tdRecord i j sub)
          simp only [MPS_TD_visits, MPS_TD, hmemo, ne_eq, not_true_eq_false, if_false,
            if_neg hji, if_pos hk]
          rw [← e1]
          cases MPS_TD_visits chord f (i + 1) (j - 1) M (tdRecord i j sub) with
          | none => rfl
          | some x => rfl
        · have e1 := ih i (j - 1) M (tdRecord i j sub)
          simp only [MPS_TD_visits, MPS_TD, hmemo, ne_eq, not_true_eq_false, if_false,
            if_neg hji, if_neg hk]
          rw [← e1]
          cases h1 : MPS_TD_visits chord f i (j - 1) M (tdRecord i j sub) with
          | none => rfl
          | some x =>
            obtain ⟨⟨o1, M1, sub1⟩, V1⟩ := x
            simp only [Option.map_some']
            by_cases hk2 : i < chord j ∧ chord j < j
            · have e3 := ih i (chord j - 1) (M1.set i (j - i) o1) sub1
              simp only [if_pos hk2]
              rw [← e3]
              cases h3 : MPS_TD_visits chord f i (chord j - 1) (M1.set i (j - i) o1) sub1 with
              | none => rfl
              | some y =>
                obtain ⟨⟨a, M3, sub3⟩, V3⟩ := y
                simp only [Option.map_some']
                have e4 := ih (chord j + 1) (j - 1) M3 sub3
                rw [← e4]
                cases h4 : MPS_TD_visits chord f (chord j + 1) (j - 1) M3 sub3 with
                | none => rfl
                | some z => rfl
            · simp only [if_neg hk2, Option.map_some']

/-- What the visits of `MPS_TD(i, j)` are, and what they do to the trace: the trace after
the call is the trace before it with the visits recorded in order; there is no visit when
the cell of `(i, j)` holds a value, and otherwise the first visit is `(i, j)` and every later
one is an interval inside `[i, j]` that is strictly shorter. -/
theorem td_visits_spec (chord : Int → Int) :
    ∀ (fuel : Nat) (i j : Int) (M : Table) (sub : Subproblem) (r : Int × Table × Subproblem)
      (V : List (Int × Int)), MPS_TD_visits chord fuel i j M sub = some (r, V) →
      r.2.2 = recordAll V sub ∧ (M i (j - i) ≠ -1 → V = []) ∧
        (M i (j - i) = -1 → ∃ V', V = (i, j) :: V' ∧
          ∀ p ∈ V', i ≤ p.1 ∧ p.2 ≤ j ∧ p.2 - p.1 < j - i) := by
  intro fuel
  induction fuel with
  | zero => intro i j M sub r V h; simp [MPS_TD_visits] at h
  | succ f ih =>
    intro i j M sub r V h
    by_cases hmemo : M i (j - i) = -1
    swap
    · simp only [MPS_TD_visits, if_pos hmemo, Option.some.injEq, Prod.mk.injEq] at h
      obtain ⟨rfl, rfl⟩ := h
      exact ⟨rfl, fun _ => rfl, fun h' => absurd h' hmemo⟩
    · by_cases hji : j ≤ i
      · simp only [MPS_TD_visits, hmemo, ne_eq, not_true_eq_false, if_false, if_pos hji,
          Option.some.injEq, Prod.mk.injEq] at h
        obtain ⟨rfl, rfl⟩ := h
        exact ⟨rfl, fun h' => absurd hmemo h',
          fun _ => ⟨[], rfl, fun p hp => absurd hp (List.not_mem_nil p)⟩⟩
      · by_cases hk : chord j = i
        · cases h1 : MPS_TD_visits chord f (i + 1) (j - 1) M (tdRecord i j sub) with
          | none =>
            simp [MPS_TD_visits, hmemo, hji, hk, h1] at h
          | some x =>
            obtain ⟨⟨v1, M1, sub1⟩, V1⟩ := x
            simp only [MPS_TD_visits, hmemo, ne_eq, not_true_eq_false, if_false, if_neg hji,
              if_pos hk, h1, Option.some.injEq, Prod.mk.injEq] at h
            obtain ⟨rfl, rfl⟩ := h
            obtain ⟨hV1, a1, b1⟩ := ih _ _ _ _ _ _ h1
            have in1 := recorded_inside a1 b1
            refine ⟨by rw [recordAll_cons]; exact hV1, fun h' => absurd hmemo h',
              fun _ => ⟨V1, rfl, fun p hp => ?_⟩⟩
            have := in1 p hp
            omega
        · cases h1 : MPS_TD_visits chord f i (j - 1) M (tdRecord i j sub) with
          | none =>
            simp [MPS_TD_visits, hmemo, hji, hk, h1] at h
          | some x =>
            obtain ⟨⟨o1, M1, sub1⟩, V1⟩ := x
            obtain ⟨hV1, a1, b1⟩ := ih _ _ _ _ _ _ h1
            have in1 := recorded_inside a1 b1
            by_cases hk2 : i < chord j ∧ chord j < j
            · cases h3 : MPS_TD_visits chord f i (chord j - 1) (M1.set i (j - i) o1) sub1 with
              | none =>
                simp [MPS_TD_visits, hmemo, hji, hk, h1, hk2, h3] at h
              | some y =>
                obtain ⟨⟨a, M3, sub3⟩, V3⟩ := y
                obtain ⟨hV3, a3, b3⟩ := ih _ _ _ _ _ _ h3
                have in3 := recorded_inside a3 b3
                cases h4 : MPS_TD_visits chord f (chord j + 1) (j - 1) M3 sub3 with
                | none =>
                  simp [MPS_TD_visits, hmemo, hji, hk, h1, hk2, h3, h4] at h
                | some z =>
                  obtain ⟨⟨b, M4, sub4⟩, V4⟩ := z
                  obtain ⟨hV4, a4, b4⟩ := ih _ _ _ _ _ _ h4
                  have in4 := recorded_inside a4 b4
                  simp only [MPS_TD_visits, hmemo, ne_eq, not_true_eq_false, if_false,
                    if_neg hji, if_neg hk, h1, if_pos hk2, h3, h4, Option.some.injEq,
                    Prod.mk.injEq] at h
                  obtain ⟨rfl, rfl⟩ := h
                  refine ⟨?_, fun h' => absurd hmemo h', fun _ => ⟨_, rfl, fun p hp => ?_⟩⟩
                  · simp only at hV1 hV3 hV4 ⊢
                    rw [recordAll_cons, recordAll_append, recordAll_append, ← hV1, ← hV3,
                      ← hV4]
                  · rcases List.mem_append.mp hp with hp | hp
                    · rcases List.mem_append.mp hp with hp | hp
                      · have := in1 p hp
                        omega
                      · have := in3 p hp
                        omega
                    · have := in4 p hp
                      omega
            · simp only [MPS_TD_visits, hmemo, ne_eq, not_true_eq_false, if_false, if_neg hji,
                if_neg hk, h1, if_neg hk2, Option.some.injEq, Prod.mk.injEq] at h
              obtain ⟨rfl, rfl⟩ := h
              refine ⟨by rw [recordAll_cons]; exact hV1, fun h' => absurd hmemo h',
                fun _ => ⟨V1, rfl, fun p hp => ?_⟩⟩
              have := in1 p hp
              omega

/-- The content of the trace after recording the pairs of `V`, in order, starting from a
trace with `curr_len = 0`: the length is `min |V| 4`, slots `0..2` hold the first three
pairs, slot `3` holds the last pair once four or more have been recorded, and is left as
it was otherwise. -/
theorem recordAll_spec (s0 : Subproblem) (h0 : s0.curr_len = 0) (V : List (Int × Int)) :
    (recordAll V s0).curr_len = ((min V.length 4 : Nat) : Int) ∧
    (∀ k : Nat, k < 3 → k < V.length →
      V[k]? = some ((recordAll V s0).i_arr k, (recordAll V s0).j_arr k)) ∧
    (4 ≤ V.length →
      V.getLast? = some ((recordAll V s0).i_arr 3, (recordAll V s0).j_arr 3)) ∧
    (V.length < 4 →
      ((recordAll V s0).i_arr 3, (recordAll V s0).j_arr 3) = (s0.i_arr 3, s0.j_arr 3)) := by
  induction V using List.reverseRecOn with
  | nil =>
    refine ⟨?_, fun k _ hk => ?_, fun h => ?_, fun _ => rfl⟩
    · show s0.curr_len = _
      rw [h0]; rfl
    · simp at hk
    · simp at h
  | append_singleton V p ih =>
    obtain ⟨hlen, hslots, hlast, hkeep⟩ := ih
    have hrec : recordAll (V ++ [p]) s0 = tdRecord p.1 p.2 (recordAll V s0) := by
      rw [recordAll_append]; rfl
    rw [hrec]
    refine ⟨?_, ?_, ?_, ?_⟩
    · rw [tdRecord_len, hlen]
      simp only [List.length_append, List.length_singleton]
      split_ifs with h <;> omega
    · intro k hk3 hk
      have hs := tdRecord_slot p.1 p.2 (recordAll V s0) (k : Int)
      rw [hlen] at hs
      simp only [List.length_append, List.length_singleton] at hk
      by_cases hkV : k < V.length
      · rw [List.getElem?_append_left hkV, hslots k hk3 hkV]
        have hne : ¬ ((k : Int) = if ((min V.length 4 : Nat) : Int) = 4 then 3
            else ((min V.length 4 : Nat) : Int)) := by
          split_ifs with h <;> omega
        rw [if_neg hne] at hs
        rw [← hs]
      · have hkeq : k = V.length := by omega
        have heq : ((k : Int) = if ((min V.length 4 : Nat) : Int) = 4 then 3
            else ((min V.length 4 : Nat) : Int)) := by
          split_ifs with h <;> omega
        rw [if_pos heq] at hs
        rw [hs, hkeq]
        simp
    · intro h4
      simp only [List.length_append, List.length_singleton] at h4
      have hs := tdRecord_slot p.1 p.2 (recordAll V s0) 3
      rw [hlen] at hs
      have heq : ((3 : Int) = if ((min V.length 4 : Nat) : Int) = 4 then 3
          else ((min V.length 4 : Nat) : Int)) := by
        split_ifs with h <;> omega
      rw [if_pos heq] at hs
      rw [hs]
      simp
    · intro h4
      simp only [List.length_append, List.length_singleton] at h4
      have hs := tdRecord_slot p.1 p.2 (recordAll V s0) 3
      rw [hlen] at hs
      have hne : ¬ ((3 : Int) = if ((min V.length 4 : Nat) : Int) = 4 then 3
          else ((min V.length 4 : Nat) : Int)) := by
        split_ifs with h <;> omega
      rw [if_neg hne] at hs
      rw [hs]
      exact hkeep (by omega)

/-- The claim of C15 fails for the chords `{0,2}`, `{1,3}` (`N = 2`): the trace ends as
`(0,3), (0,2), (1,1), (2,2)` with `curr_len = 4`; the root `(0, 3)` sits in slot `0` and
slot `3` holds `(2, 2)`. -/
theorem td_trace_root_not_last :
    (MPS_TD chordX 5 0 (2 * ((2 : Nat) : Int) - 1) (sentinelTable 2) emptySub).map
        (fun x => (x.2.2.curr_len,
          [(x.2.2.i_arr 0, x.2.2.j_arr 0), (x.2.2.i_arr 1, x.2.2.j_arr 1),
           (x.2.2.i_arr 2, x.2.2.j_arr 2), (x.2.2.i_arr 3, x.2.2.j_arr 3)]))
      = some (4, [(0, 3), (0, 2), (1, 1), (2, 2)]) := by
  decide

/-- C15 (amended): for every pairing, every `N ≥ 1`, every all-sentinel table (whatever the
store holds outside the triangle) and every trace with `curr_len = 0`, `MPS_TD(0, 2N-1)`
returns, and the subproblems it enters past the memo test are, in order of entry, the root
`(0, 2N-1)` followed by a list `V` of strictly shorter intervals inside `[0, 2N-1]`.  After
the call slot `0` holds the root, slots `1` and `2` hold the next two subproblems entered,
`curr_len = min (|V| + 1) 4`, and slot `3` holds the last subproblem entered, which is not
the root, once four or more were entered; with fewer, slot `3` is left as it was. -/
theorem td_trace_record (chord : Int → Int) (N : Nat) (Mtd : Table) (sub0 : Subproblem)
    (fuel : Nat) (hN : 1 ≤ N) (hs : SentinelTriangle N Mtd) (h0 : sub0.curr_len = 0)
    (hf : 2 * N < fuel) :
    ∃ v T s V, MPS_TD chord fuel 0 (2 * (N : Int) - 1) Mtd sub0 = some (v, T, s) ∧
      MPS_TD_visits chord fuel 0 (2 * (N : Int) - 1) Mtd sub0
        = some ((v, T, s), (0, 2 * (N : Int) - 1) :: V) ∧
      (∀ p ∈ V, 0 ≤ p.1 ∧ p.2 ≤ 2 * (N : Int) - 1 ∧ p.2 - p.1 < 2 * (N : Int) - 1) ∧
      (s.i_arr 0, s.j_arr 0) = (0, 2 * (N : Int) - 1) ∧
      s.curr_len = ((min (V.length + 1) 4 : Nat) : Int) ∧
      (∀ k : Nat, k < 2 → k < V.length → V[k]? = some (s.i_arr (k + 1), s.j_arr (k + 1))) ∧
      (3 ≤ V.length → V.getLast? = some (s.i_arr 3, s.j_arr 3) ∧
        (s.i_arr 3, s.j_arr 3) ≠ (0, 2 * (N : Int) - 1)) ∧
      (V.length < 3 → (s.i_arr 3, s.j_arr 3) = (sub0.i_arr 3, sub0.j_arr 3)) := by
  obtain ⟨⟨v, T, s⟩, hrun⟩ := td_terminates chord (2 * N + 1) fuel 0 (2 * (N : Int) - 1) Mtd
    sub0 (by push_cast; omega) (by omega) (by omega)
  have herase := td_visits_erase chord fuel 0 (2 * (N : Int) - 1) Mtd sub0
  rw [hrun] at herase
  obtain ⟨⟨r, W⟩, hvis, hr⟩ := Option.map_eq_some'.mp herase
  simp only at hr
  subst hr
  obtain ⟨hW, _, hcons⟩ := td_visits_spec chord fuel 0 (2 * (N : Int) - 1) Mtd sub0 _ W hvis
  have hroot : Mtd 0 (2 * (N : Int) - 1 - 0) = -1 := hs 0 _ (le_refl _) (by omega) (by omega)
  obtain ⟨V, rfl, hin⟩ := hcons hroot
  simp only at hW
  obtain ⟨h1, h2, h3, h4⟩ := recordAll_spec sub0 h0 ((0, 2 * (N : Int) - 1) :: V)
  rw [← hW] at h1 h2 h3 h4
  have hin' : ∀ p ∈ V, 0 ≤ p.1 ∧ p.2 ≤ 2 * (N : Int) - 1 ∧ p.2 - p.1 < 2 * (N : Int) - 1 := by
    intro p hp
    have := hin p hp
    omega
  refine ⟨v, T, s, V, hrun, hvis, hin', ?_, ?_, ?_, ?_, ?_⟩
  · have h0' := h2 0 (by decide) (by simp)
    simp only [List.getElem?_cons_zero, Option.some.injEq] at h0'
    simpa using h0'.symm
  · simpa using h1
  · intro k hk hkV
    have := h2 (k + 1) (by omega) (by simp; omega)
    simpa using this
  · intro h3V
    have hlast := h3 (by simp; omega)
    have hlastV : V.getLast? = some (s.i_arr 3, s.j_arr 3) := by
      cases V with
      | nil => simp at h3V
      | cons a l => rw [List.getLast?_cons_cons] at hlast; exact hlast
    refine ⟨hlastV, fun e => ?_⟩
    have hmem := List.mem_of_getLast?_eq_some hlastV
    have := hin' _ hmem
    rw [e] at this
    simp only at this
    omega
  · intro h3V
    exact h4 (by simp; omega)

theorem td_trace_record_witness :
    ∃ v T s V, MPS_TD chordX 5 0 (2 * ((2 : Nat) : Int) - 1) (sentinelTable 2) emptySub
        = some (v, T, s) ∧
      MPS_TD_visits chordX 5 0 (2 * ((2 : Nat) : Int) - 1) (sentinelTable 2) emptySub
        = some ((v, T, s), (0, 2 * ((2 : Nat) : Int) - 1) :: V) ∧
      (∀ p ∈ V, 0 ≤ p.1 ∧ p.2 ≤ 2 * ((2 : Nat) : Int) - 1 ∧
        p.2 - p.1 < 2 * ((2 : Nat) : Int) - 1) ∧
      (s.i_arr 0, s.j_arr 0) = (0, 2 * ((2 : Nat) : Int) - 1) ∧
      s.curr_len = ((min (V.length + 1) 4 : Nat) : Int) ∧
      (∀ k : Nat, k < 2 → k < V.length → V[k]? = some (s.i_arr (k + 1), s.j_arr (k + 1))) ∧
      (3 ≤ V.length → V.getLast? = some (s.i_arr 3, s.j_arr 3) ∧
        (s.i_arr 3, s.j_arr 3) ≠ (0, 2 * ((2 : Nat) : Int) - 1)) ∧
      (V.length < 3 → (s.i_arr 3, s.j_arr 3) = (emptySub.i_arr 3, emptySub.j_arr 3)) :=
  td_trace_record chordX 2 (sentinelTable 2) emptySub 5 (by decide) (sentinelTable_sentinel 2)
    rfl (by decide)

/-! ### The out-of-row word decides: evaluations at concrete inputs -/

theorem junkGuard_zero (N : Nat) : ZeroTriangle N junkGuard := by
  intro r c _ hc _
  simp only [junkGuard]
  rw [if_neg (by omega)]

theorem opt_chord1 : opt chord1 0 1 = 1 := by
  rw [opt_nest chord1 0 1 (by decide) (by decide), opt_base chord1 _ _ (by decide)]
  rfl

theorem chordN_valid : ValidPairing 2 chordN := by
  intro p h0 h1
  have hp : p = 0 ∨ p = 1 ∨ p = 2 ∨ p = 3 := by omega
  rcases hp with rfl | rfl | rfl | rfl <;> simp [chordN]

theorem headN_oneHead : OneHead 2 chordN headN := by
  intro p h0 h1
  have hp : p = 0 ∨ p = 1 ∨ p = 2 ∨ p = 3 := by omega
  rcases hp with rfl | rfl | rfl | rfl <;> decide

/-- C1: for the input `2 / 0 1` (a valid pairing, `N = 1`) `MPS_BU` stores in `M[0][1]` the
word `M[1][-1]` plus one.  That word lies outside row `1`: a run with checked accesses
stops there, and in a store whose triangle is zero and where the word holds `5` the cell
ends as `6`, while the maximum number of non-crossing chords in `[0, 1]` is `1`. -/
theorem bu_cell_from_outside_word :
    ValidPairing 1 chord1 ∧ ZeroTriangle 1 junkGuard ∧
    (MPS_BU_C chord1 1 4 junkGuard emptySub).faultOf = some (Fault.table 1 (-1)) ∧
    (MPS_BU chord1 1 junkGuard emptySub).1 0 1 = 6 ∧
    IsMaxPlanar chord1 0 1 1 := by
  refine ⟨chord1_valid, junkGuard_zero 1, by decide, by decide, ?_⟩
  have := opt_isMaxPlanar chord1 1 chord1_valid 0 1 (le_refl _) (by decide)
  rw [opt_chord1] at this
  exact this

/-- C2: for the input `2 / 0 1`, when the word `M[1][-1]` outside row `1` holds `-1`,
`MPS_BU` on the zero triangle leaves `M[0][1] = 0` while `MPS_TD(0, 1)` on the all-sentinel
triangle takes the word for a sentinel, overwrites it with `0` and returns `1`. -/
theorem td_bu_disagree :
    (MPS_BU chord1 1 sentinelGuard emptySub).1 0 (2 * ((1 : Nat) : Int) - 1) = 0 ∧
    (MPS_TD chord1 3 0 (2 * ((1 : Nat) : Int) - 1) (fillSentinel 1 sentinelGuard) emptySub).map
      (fun x => (x.1, x.2.1 1 (-1))) = some (1, 0) ∧
    (MPS_TD_C chord1 1 4 3 0 (2 * ((1 : Nat) : Int) - 1) (fillSentinel 1 sentinelGuard)
      emptySub).faultOf = some (Fault.table 1 (-1)) := by
  decide

/-- C3: for the input `2 / 0 1`, in a store where the word `M[1][-1]` holds `5`, `MPS_BU`
leaves `M[0][1] = 6` and `traceback(0, 1)` appends the two entries `0, 0`: the call
`traceback(1, 0)` finds a non-zero word and emits once more. -/
theorem traceback_count_differs :
    (MPS_BU chord1 1 junkGuard emptySub).1 0 1 = 6 ∧
    traceback (MPS_BU chord1 1 junkGuard emptySub).1 chord1 head1 5 0 1 [] = some [0, 0] ∧
    (traceback_C 1 (MPS_BU chord1 1 junkGuard emptySub).1 chord1 head1 6 5 0 1 []).faultOf
      = some (Fault.table 1 (-1)) := by
  decide

/-- C4: for the input `2 / 0 1`, in a store where the word `M[1][-1]` holds `5`,
`traceback(0, 1)` over the table left by `MPS_TD(0, 1)` emits position `0` twice: the
emitted positions are not pairwise different. -/
theorem traceback_repeats_position :
    (MPS_TD chord1 3 0 1 (fillSentinel 1 junkGuard) emptySub).map
      (fun x => (x.1, traceback x.2.1 chord1 head1 5 0 1 [])) = some (6, some [0, 0]) ∧
    ¬ ([0, 0] : List Int).Nodup := by
  decide

/-- C5: for the input `4 / 0 3 / 1 2` (a valid pairing with one head per chord), in a store
where the words `M[2][-1]` and `M[3][-3]` hold `1`, `traceback(1, 2)` over the table of
`MPS_BU` emits `1, 1, 0`: position `0` and its partner `3` lie outside `[1, 2]`. -/
theorem traceback_leaves_interval :
    ValidPairing 2 chordN ∧ OneHead 2 chordN headN ∧
    traceback (MPS_BU chordN 2 stepsBelow emptySub).1 chordN headN 6 1 2 [] = some [1, 1, 0] ∧
    chordN 0 = 3 ∧
    (traceback_C 2 (MPS_BU chordN 2 stepsBelow emptySub).1 chordN headN 2 6 1 2 []).faultOf
      = some (Fault.table 2 (-1)) := by
  refine ⟨chordN_valid, headN_oneHead, by decide, by decide, by decide⟩

/-- C7: for the input `2 / 0 1`, in a store where the word `M[1][-1]` holds `-5`, the table
of `MPS_BU` has `M(0, 0) = 0` and `M(0, 1) = -4`: it is not non-decreasing in `j`. -/
theorem bu_table_decreases :
    (MPS_BU chord1 1 negGuard emptySub).1 0 (0 - 0) = 0 ∧
    (MPS_BU chord1 1 negGuard emptySub).1 0 (0 + 1 - 0) = -4 := by
  decide

/-- C8: for the input `4 / 0 1 / 2 3` and the split point `m = 2` (no chord across it), in
a store where the word `M[3][-1]` holds `-5`, the table of `MPS_BU` has `M(0, 3) = 1`,
`M(0, 1) = 1` and `M(2, 3) = -4`: the whole is not the sum of the two parts. -/
theorem bu_split_differs :
    (MPS_BU chord2 2 negGuard3 emptySub).1 0 (3 - 0) = 1 ∧
    (MPS_BU chord2 2 negGuard3 emptySub).1 0 (1 - 0) = 1 ∧
    (MPS_BU chord2 2 negGuard3 emptySub).1 2 (3 - 2) = -4 ∧
    (MPS_BU_C chord2 2 4 negGuard3 emptySub).faultOf = some (Fault.table 1 (-1)) := by
  decide

/-- C9: for the input `2 / 0 1` the partner of `j = 1` is `i = 0`, so the transition is
`M(0, 1) = M(1, 0) + 1` with `M(1, 0)` denoting `0`; the code reads the word `M[1][-1]`
instead, and where that word holds `5` the cell `M(0, 1)` ends as `6`. -/
theorem bu_base_case_read :
    chord1 1 = 0 ∧
    (MPS_BU chord1 1 junkGuard emptySub).1 1 (-1) = 5 ∧
    cellVal (MPS_BU chord1 1 junkGuard emptySub).1 (0 + 1) (1 - 1) + 1 = 1 ∧
    (MPS_BU chord1 1 junkGuard emptySub).1 0 (1 - 0) = 6 := by
  decide

theorem onesBelow_table (r c : Int) (hc : c < 0) :
    (MPS_BU chord1 1 onesBelow emptySub).1 r c = 1 := by
  rw [bu_frame chord1 1 onesBelow emptySub r c (by omega)]
  simp only [onesBelow, if_pos hc]

theorem onesBelow_skips (is_head : Int → Bool) :
    ∀ (fuel m : Nat) (sol : List Int),
      traceback (MPS_BU chord1 1 onesBelow emptySub).1 chord1 is_head fuel 2 (-((m : Int) + 1)) sol
        = none := by
  intro fuel
  induction fuel with
  | zero => intro m sol; rfl
  | succ f ih =>
    intro m sol
    have h1 : (MPS_BU chord1 1 onesBelow emptySub).1 2 (-((m : Int) + 1) - 2) = 1 :=
      onesBelow_table _ _ (by omega)
    have h2 : (MPS_BU chord1 1 onesBelow emptySub).1 2 (-((m : Int) + 1) - 1 - 2) = 1 :=
      onesBelow_table _ _ (by omega)
    have hk : chord1 (-((m : Int) + 1)) ≠ 2 := by
      simp only [chord1]
      split_ifs <;> omega
    rw [tb_unfold_skip _ chord1 is_head f 2 _ sol (by rw [h1]; decide) hk
      (by rw [h1, h2]; decide)]
    have e : -((m : Int) + 1) - 1 = -(((m + 1 : Nat) : Int) + 1) := by push_cast; ring
    rw [e]
    exact ih (m + 1) sol

/-- C10: for the input `2 / 0 1`, in a store where the words before the rows hold `1`,
`traceback(0, 1)` over the table of `MPS_BU` never returns, whatever the bound on the call
depth: `traceback(1, 0)` finds a non-zero word at `M[1][-1]`, and the calls that follow
leave the table and find no `0` to stop at. -/
theorem traceback_never_returns :
    (∀ fuel : Nat,
      traceback (MPS_BU chord1 1 onesBelow emptySub).1 chord1 head1 fuel 0 1 [] = none) ∧
    (traceback_C 1 (MPS_BU chord1 1 onesBelow emptySub).1 chord1 head1 2 5 0 1 []).faultOf
      = some (Fault.table 1 (-1)) := by
  refine ⟨?_, by decide⟩
  intro fuel
  cases fuel with
  | zero => rfl
  | succ f =>
    rw [tb_unfold_nest _ chord1 head1 f 0 1 [] (by decide) (by decide)]
    cases f with
    | zero => rfl
    | succ g =>
      rw [tb_unfold_nest _ chord1 head1 g (0 + 1) (1 - 1) _
        (by rw [onesBelow_table _ _ (by decide)]; decide) (by decide)]
      have e : (1 : Int) - 1 - 1 = -(((0 : Nat) : Int) + 1) := by decide
      have e2 : (0 : Int) + 1 + 1 = 2 := by decide
      rw [e, e2]
      exact onesBelow_skips head1 g 0 _

/-- C19: for the input `2 / 0 1`, in a store where the word `M[1][-1]` holds `-2`,
`MPS_TD(0, 1)` on the all-sentinel triangle returns `-1` and leaves `-1` in the cell
`M[0][1]` it has just computed; where the word holds `-5` the cell ends as `-4`.  In both
stores the computed cell is not `≥ 0`, and `MPS_BU` stores `1` when the word reads `0`. -/
theorem td_memo_from_outside_word :
    (MPS_TD chord1 3 0 1 (fillSentinel 1 twoBelow) emptySub).map
      (fun x => (x.1, x.2.1 0 1)) = some (-1, -1) ∧
    (MPS_TD chord1 3 0 1 (fillSentinel 1 negGuard) emptySub).map
      (fun x => (x.1, x.2.1 0 1)) = some (-4, -4) ∧
    (MPS_BU chord1 1 zeroTable emptySub).1 0 1 = 1 ∧
    (MPS_TD_C chord1 1 4 3 0 1 (fillSentinel 1 twoBelow) emptySub).faultOf
      = some (Fault.table 1 (-1)) := by
  decide

/-- C20: for the input `2 / 0 1`, `traceback(0, 1)` over the table left by `MPS_TD(0, 1)`
reads `M[0][1]` and then `M[1][-1]`, a word outside the triangle that `MPS_TD` did not
compute.  Where that word holds `-1` before the solvers run, `traceback` emits nothing over
the table of `MPS_BU` and emits position `0` over the table of `MPS_TD`. -/
theorem traceback_reads_uncomputed :
    (MPS_TD chord1 3 0 1 (fillSentinel 1 zeroTable) emptySub).map
      (fun x => tracebackReads x.2.1 chord1 head1 5 0 1 [] [])
      = some (some ([0], [(0, 1), (1, -1)])) ∧
    traceback (MPS_BU chord1 1 sentinelGuard emptySub).1 chord1 head1 5 0 1 [] = some [] ∧
    (MPS_TD chord1 3 0 1 (fillSentinel 1 sentinelGuard) emptySub).map
      (fun x => traceback x.2.1 chord1 head1 5 0 1 []) = some (some [0]) := by
  decide

/-! ### The program as `main` runs it -/

/-- C12: for the input `6 / 0 1 / 2 5 / 3 4` the run of `main` leaves its blocks before any
result is written.  With method `bu`, `MPS_BU` reads `M[1][-1]` at its first cell; with
method `td`, `MPS_TD` writes slot `1` of the 4-byte trace blocks, and with trace blocks of
four ints it reads `M[1][-1]`.  When these accesses are let through and the word
`M[1][-1]` holds `5`, `MPS_BU` leaves `8` in `M[0][5]` and `traceback` emits `2, 0, 0, 3`,
not result `3` with heads `0, 2, 3`. -/
theorem mixed_example_leaves_blocks :
    mps_main Method.bu true (fun _ => 0) 8 6 [(0, 1), (2, 5), (3, 4)] (fun _ => 0)
      (fun _ => 0) (fun _ => 0) = Outcome.fault (Fault.table 1 (-1)) ∧
    mps_main Method.td true (fun _ => 0) 8 6 [(0, 1), (2, 5), (3, 4)] (fun _ => 0)
      (fun _ => 0) (fun _ => 0) = Outcome.fault (Fault.trace 1) ∧
    mps_solve 4 Method.td true (fun _ => 0) 8 6 3 chord3 head3 (fun _ => 0) (fun _ => 0)
      = Outcome.fault (Fault.table 1 (-1)) ∧
    (MPS_BU chord3 3 junkGuard emptySub).1 0 5 = 8 ∧
    traceback (MPS_BU chord3 3 junkGuard emptySub).1 chord3 head3 9 0 5 []
      = some [2, 0, 0, 3] := by
  decide

/-- C13: for `n = 0` no row of the table exists.  `MPS_BU` leaves the store as it is and
`main` takes `result` from the word `M[0][-1]`; `MPS_TD(0, -1)` returns that same word (`7`
in this store).  The run of `main` leaves its blocks: with method `td` at the read of
`M[0][-1]`, with method `bu` at the write of slot `3` of the 4-byte trace blocks, and with
trace blocks of four ints at the read of `M[0][-1]`.  When the read is let through and
finds `7`, `traceback(0, -1)` emits an entry. -/
theorem empty_input_reads_outside :
    (MPS_BU chord1 0 junkTable emptySub).1 0 (2 * ((0 : Nat) : Int) - 1) = 7 ∧
    (MPS_TD chord1 4 0 (2 * ((0 : Nat) : Int) - 1) (fillSentinel 0 junkTable) emptySub).map
      (fun x => x.1) = some 7 ∧
    mps_main Method.td false (fun _ => 0) 4 0 [] (fun _ => 0) (fun _ => 0) (fun _ => 0)
      = Outcome.fault (Fault.table 0 (-1)) ∧
    mps_main Method.bu true (fun _ => 0) 4 0 [] (fun _ => 0) (fun _ => 0) (fun _ => 0)
      = Outcome.fault (Fault.trace 3) ∧
    mps_solve 4 Method.bu true (fun _ => 0) 4 0 0 (fun _ => 0) (fun _ => false) (fun _ => 0)
      (fun _ => 0) = Outcome.fault (Fault.table 0 (-1)) ∧
    traceback (MPS_BU chord1 0 junkTable emptySub).1 (fun _ => 0) (fun _ => false) 4 0
      (2 * ((0 : Nat) : Int) - 1) [] = some [-1] := by
  decide

end AlgoPA
